import Mathlib

/-!
# n-puzzle: state representation, spiral tags, solvability and comparators

A shallow embedding of `sources/npuzzle.c`.

* `uint16_t` arrays (`tagArray`, `board`) are lists of naturals; a read is `load`,
  a store is `List.set`.  A store that converts a wider integer to `uint16_t`
  reduces the value modulo `65536` at the place where C converts.
* `size_t` arithmetic is arithmetic on `Nat`; the `size_t` wrap-around is written
  out (modulo `2 ^ 64`) in the one loop of the file that relies on it, the
  right-to-left walk of `npuzzle_init_tag_array`.  For a side length below 256, the
  range `npuzzle_init` admits, no other `size_t` expression of the file reaches
  `2 ^ 64`, and no subtraction goes below zero.
* `npuzzle_is_solvable` divides by `size`; the statements about it are for `size ≥ 1`.
* `move_zobrist` (zobrist.h) and `ft_memcmp` (ft_string.h) are not part of the source
  file.  `npuzzle_apply` takes `move_zobrist` as a parameter; `ft_memcmp` is modelled
  as the bytewise comparison of the memory images, the byte order of the machine being
  a parameter of `npuzzle_comp_state`.
* `node_value` (heuristic.h) and the global `Weight` are parameters of
  `npuzzle_comp_value`.  The C types of the fields `g` and `h` are declared in
  npuzzle.h, which is not part of the source file: they are natural numbers here, `g++`
  is `g + 1`, and `(int)g` is the conversion of the low 32 bits.
* A line of the puzzle file is the list of the characters `getline` read, the file is
  the list of its lines, and a `char *` into the line is the rest of the line from that
  place on.  `strtoul` is the function of the C library; `ft_strlen` and `ft_strspn`
  (ft_string.h) are modelled as `strlen` and `strspn`.  The memory `malloc` returns is
  given by its content.  The paths on which `fopen` or `malloc` fail are left out.
* Every C loop is a recursive function on its loop variable, terminating by the
  measure given with it, so every function below is total.
-/

namespace Npuzzle

/-! ## Embedding of the source -/

/-- The state `NPuzzle` of npuzzle.h as the source file uses it: the side length, the
board of `size * size` 16-bit entries, the 64-bit fingerprint, the square of the hole,
the heuristic estimate, the cost so far and the predecessor link. -/
structure NPuzzle where
  size : Nat
  board : List Nat
  zobrist : Nat
  holeIdx : Nat
  h : Nat
  g : Nat
  parent : Option Nat
deriving DecidableEq, Repr

/-- Read of `a[i]`. -/
def load (a : List Nat) (i : Nat) : Nat := a.getD i 0

/-- First inner loop of `npuzzle_init_tag_array` (top edge, left to right):
`for (x = boxMin; x <= boxMax; ++x) tagArray[boxMin * size + x] = ++counter;`
The state is the pair `(tagArray, counter)`. -/
def tagTop (size boxMin boxMax x : Nat) (st : List Nat × Nat) : List Nat × Nat :=
  if x ≤ boxMax then
    tagTop size boxMin boxMax (x + 1)
      (st.1.set (boxMin * size + x) ((st.2 + 1) % 65536), st.2 + 1)
  else st
termination_by boxMax + 1 - x

/-- Second inner loop (right edge, top to bottom):
`for (y = boxMin + 1; y <= boxMax; ++y) tagArray[y * size + boxMax] = ++counter;` -/
def tagRight (size boxMin boxMax y : Nat) (st : List Nat × Nat) : List Nat × Nat :=
  if y ≤ boxMax then
    tagRight size boxMin boxMax (y + 1)
      (st.1.set (y * size + boxMax) ((st.2 + 1) % 65536), st.2 + 1)
  else st
termination_by boxMax + 1 - y

/-- Third inner loop (bottom edge, right to left):
`for (x = boxMax - 1; x + 1 > boxMin; --x) tagArray[boxMax * size + x] = ++counter;`
Both `x + 1` and `--x` are `size_t` operations and wrap modulo `2 ^ 64`: with
`boxMin = 0` the loop ends when `x` wraps from `0` to `2 ^ 64 - 1`. -/
def tagBottom (size boxMin boxMax x : Nat) (st : List Nat × Nat) : List Nat × Nat :=
  if boxMin < (x + 1) % 18446744073709551616 then
    tagBottom size boxMin boxMax ((x + 18446744073709551615) % 18446744073709551616)
      (st.1.set (boxMax * size + x) ((st.2 + 1) % 65536), st.2 + 1)
  else st
termination_by (x + 1) % 18446744073709551616
decreasing_by omega

/-- Fourth inner loop (left edge, bottom to top):
`for (y = boxMax - 1; y > boxMin; --y) tagArray[y * size + boxMin] = ++counter;` -/
def tagLeft (size boxMin boxMax y : Nat) (st : List Nat × Nat) : List Nat × Nat :=
  if boxMin < y then
    tagLeft size boxMin boxMax (y - 1)
      (st.1.set (y * size + boxMin) ((st.2 + 1) % 65536), st.2 + 1)
  else st
termination_by y
decreasing_by omega

/-- The loop over the layers: `for (layer = 0; layer < size / 2; ++layer)`. -/
def tagLayers (size layer : Nat) (st : List Nat × Nat) : List Nat × Nat :=
  if layer < size / 2 then
    let boxMin := layer
    let boxMax := size - layer - 1
    let st := tagTop size boxMin boxMax boxMin st
    let st := tagRight size boxMin boxMax (boxMin + 1) st
    let st := tagBottom size boxMin boxMax (boxMax - 1) st
    let st := tagLeft size boxMin boxMax (boxMax - 1) st
    tagLayers size (layer + 1) st
  else st
termination_by size / 2 - layer
decreasing_by omega

/-- The function `npuzzle_init_tag_array(tagArray, size)`: the array it leaves behind.
`tagArray` is the memory handed in (fresh from `malloc`, so of arbitrary content). -/
def npuzzle_init_tag_array (tagArray : List Nat) (size : Nat) : List Nat :=
  (tagLayers size 0 (tagArray, 0)).1.set ((size / 2) * size + (size - 1) / 2) 0

/-- Inner loop of the translation step of `npuzzle_init`:
`for (asq = 0; asq < size * size; ++asq)
   if (board[sq] == tagArray[asq]) { board[sq] = asq; break; }` -/
def translateScan (size : Nat) (tagArray : List Nat) (sq asq : Nat) (board : List Nat) :
    List Nat :=
  if asq < size * size then
    if load board sq = load tagArray asq then board.set sq (asq % 65536)
    else translateScan size tagArray sq (asq + 1) board
  else board
termination_by size * size - asq

/-- Outer loop of the translation step: `for (sq = 0; sq < size * size; ++sq)`. -/
def translateLoop (size : Nat) (tagArray : List Nat) (sq : Nat) (board : List Nat) :
    List Nat :=
  if sq < size * size then
    translateLoop size tagArray (sq + 1) (translateScan size tagArray sq 0 board)
  else board
termination_by size * size - sq

/-- The translation step of `npuzzle_init` (from the allocation of `tagArray` to the
end of the double loop): the board it leaves, given the raw board read from the file
and the memory `malloc` returned for the tag array. -/
def npuzzle_init_translate (board : List Nat) (size : Nat) (tagMem : List Nat) : List Nat :=
  translateLoop size (npuzzle_init_tag_array tagMem size) 0 board

/-- The loop of `npuzzle_solved`, from square `sq` on; the C result `1`/`0` is
`true`/`false`. -/
def solvedFrom (np : NPuzzle) (sq : Nat) : Bool :=
  if sq < np.size * np.size then
    if load np.board sq ≠ sq then false else solvedFrom np (sq + 1)
  else true
termination_by np.size * np.size - sq

/-- The function `npuzzle_solved`. -/
def npuzzle_solved (np : NPuzzle) : Bool := solvedFrom np 0

/-- Inner loop of `npuzzle_is_solvable`:
`for (sq2 = sq1 + 1; sq2 < size * size; ++sq2)
   if (sq2 != holeIdx) inversions += (board[sq1] > board[sq2]);` -/
def inversionsInner (np : NPuzzle) (sq1 sq2 inversions : Nat) : Nat :=
  if sq2 < np.size * np.size then
    inversionsInner np sq1 (sq2 + 1)
      (if sq2 ≠ np.holeIdx then
        inversions + (if load np.board sq1 > load np.board sq2 then 1 else 0)
      else inversions)
  else inversions
termination_by np.size * np.size - sq2

/-- Outer loop of `npuzzle_is_solvable`, with its `continue` on the hole square. -/
def inversionsOuter (np : NPuzzle) (sq1 inversions : Nat) : Nat :=
  if sq1 < np.size * np.size then
    if sq1 = np.holeIdx then inversionsOuter np (sq1 + 1) inversions
    else inversionsOuter np (sq1 + 1) (inversionsInner np sq1 (sq1 + 1) inversions)
  else inversions
termination_by np.size * np.size - sq1

/-- The function `npuzzle_is_solvable`; the C result `1`/`0` is `true`/`false`. -/
def npuzzle_is_solvable (np : NPuzzle) : Bool :=
  let inversions := inversionsOuter np 0 0
  if np.size &&& 1 ≠ 0 then
    !(decide (inversions &&& 1 ≠ 0))
  else
    let parity := if np.size &&& 2 ≠ 0 then 1 else 0
    decide ((np.holeIdx / np.size + parity) &&& 1 = inversions &&& 1)

/-- The function `npuzzle_apply(np, squareIdx)`.  `move_zobrist` is declared in
zobrist.h, which is not part of the source file, and is a parameter here. -/
def npuzzle_apply (move_zobrist : Nat → Nat → Nat → Nat) (np : NPuzzle) (squareIdx : Nat) :
    NPuzzle :=
  let piece := load np.board squareIdx
  let holeValue := load np.board np.holeIdx
  { np with
    zobrist := np.zobrist ^^^ move_zobrist piece squareIdx np.holeIdx
    board := (np.board.set np.holeIdx piece).set squareIdx holeValue
    holeIdx := squareIdx
    g := np.g + 1 }

/-- Modelled from the spec: `move_zobrist` of zobrist.h is missing from the sources. The
spec asks for a Zobrist-style incremental hash, in which a value derived from the piece
and its two squares is XOR-ed in and replaying the same swap cancels: the value is the
XOR of the key of (piece, origin square) and the key of (piece, destination square),
for a table `key` of 64-bit numbers. -/
def move_zobrist (key : Nat → Nat → Nat) (piece origin dest : Nat) : Nat :=
  key piece origin ^^^ key piece dest

/-- The two bytes of a 16-bit value in memory order: low byte first on a little-endian
machine, high byte first on a big-endian one. -/
def bytes16 (bigEndian : Bool) (v : Nat) : List Nat :=
  if bigEndian then [v / 256 % 256, v % 256] else [v % 256, v / 256 % 256]

/-- The memory image of a `uint16_t` array. -/
def boardBytes (bigEndian : Bool) : List Nat → List Nat
  | [] => []
  | v :: vs => bytes16 bigEndian v ++ boardBytes bigEndian vs

/-- Modelled from the spec: `ft_memcmp` of ft_string.h is missing from the sources. The
spec calls the tie-break a full lexicographic comparison of the boards, and the call
site hands over the two boards with a length of `2 * size * size` bytes: the first `n`
bytes are compared in order, the result is the difference of the first two bytes that
differ, and `0` when there are none. -/
def ft_memcmp : List Nat → List Nat → Nat → Int
  | a :: s1, b :: s2, n + 1 => if a ≠ b then (a : Int) - (b : Int) else ft_memcmp s1 s2 n
  | _, _, _ => 0

/-- The function `npuzzle_comp_state(l, r)`; `bigEndian` is the byte order of the
machine, which decides the memory image `ft_memcmp` reads. -/
def npuzzle_comp_state (bigEndian : Bool) (l r : NPuzzle) : Int :=
  if l.zobrist < r.zobrist then -1
  else if l.zobrist > r.zobrist then 1
  else ft_memcmp (boardBytes bigEndian l.board) (boardBytes bigEndian r.board)
    (2 * l.size * l.size)

/-- The conversion `(int)x` of an unsigned value: its low 32 bits read in two's
complement. -/
def toInt32 (x : Nat) : Int :=
  if x % 4294967296 < 2147483648 then ((x % 4294967296 : Nat) : Int)
  else ((x % 4294967296 : Nat) : Int) - 4294967296

/-- The result of an `int` subtraction whose operands are `a` and `b`: the difference,
reduced to 32 bits in two's complement when it leaves the range of `int` (C leaves that
case undefined; no statement below relies on it). -/
def subInt32 (a b : Int) : Int :=
  if (a - b) % 4294967296 < 2147483648 then (a - b) % 4294967296
  else (a - b) % 4294967296 - 4294967296

/-- The function `npuzzle_comp_value(l, r)` on the two states the arguments point to.
`node_value` (heuristic.h) and the global `Weight` are not part of the source file and
are parameters. -/
def npuzzle_comp_value (node_value : Nat → Nat → Nat → Nat) (Weight : Nat)
    (left right : NPuzzle) : Int :=
  let lvalue := node_value left.h left.g Weight
  let rvalue := node_value right.h right.g Weight
  if lvalue < rvalue then -1
  else if lvalue > rvalue then 1
  else subInt32 (toInt32 left.g) (toInt32 right.g)

/-- Modelled from the spec: `node_value` of heuristic.h is missing from the sources. The
spec gives it as `weight * heuristicEstimate + costSoFar`; the result is a 64-bit
number. -/
def node_value (h g weight : Nat) : Nat := (weight * h + g) % 18446744073709551616

/-- The pseudo-random step of `npuzzle_init_rand` on the 64-bit `seed`:
`seed ^= seed << 13; seed ^= seed >> 7; seed ^= seed << 17;` -/
def nextSeed (seed : Nat) : Nat :=
  let s1 := seed ^^^ ((seed <<< 13) % 18446744073709551616)
  let s2 := s1 ^^^ (s1 >>> 7)
  s2 ^^^ ((s2 <<< 17) % 18446744073709551616)

/-- The `if`/`else if` chain of the shuffle loop: the square it calls `npuzzle_apply`
on for the generator state `seed`, if any. The argument is converted to `uint16_t`. -/
def shuffleTarget (np : NPuzzle) (seed : Nat) : Option Nat :=
  let nextMove := seed &&& 3
  if nextMove = 0 ∧ np.holeIdx % np.size ≠ 0 then some ((np.holeIdx - 1) % 65536)
  else if nextMove = 1 ∧ np.holeIdx % np.size ≠ np.size - 1 then
    some ((np.holeIdx + 1) % 65536)
  else if nextMove = 2 ∧ np.holeIdx / np.size ≠ 0 then
    some ((np.holeIdx - np.size) % 65536)
  else if nextMove = 3 ∧ np.holeIdx / np.size ≠ np.size - 1 then
    some ((np.holeIdx + np.size) % 65536)
  else none

/-- The shuffle loop of `npuzzle_init_rand`,
`for (i = 0; i < size * size * 8; ++i)`, from iteration `i` on. Besides the state and the
generator it keeps the list `calls` of the squares `npuzzle_apply` was called on, in
order. -/
def shuffleLoop (mz : Nat → Nat → Nat → Nat) (i : Nat) (np : NPuzzle) (seed : Nat)
    (calls : List Nat) : NPuzzle × Nat × List Nat :=
  if i < np.size * np.size * 8 then
    match shuffleTarget np (nextSeed seed) with
    | some t => shuffleLoop mz (i + 1) (npuzzle_apply mz np t) (nextSeed seed) (calls ++ [t])
    | none => shuffleLoop mz (i + 1) np (nextSeed seed) calls
  else (np, seed, calls)
termination_by np.size * np.size * 8 - i
decreasing_by
  · show (npuzzle_apply mz np t).size * (npuzzle_apply mz np t).size * 8 - (i + 1)
      < np.size * np.size * 8 - i
    have e : (npuzzle_apply mz np t).size = np.size := rfl
    rw [e]
    omega
  · omega

/-- The function `npuzzle_init_rand(np, size)` when both allocations succeed: the state
it leaves in `*np`, and the squares its shuffle called `npuzzle_apply` on. `seed` is the
value of `time(NULL)`; the printing of the puzzle is left out. -/
def npuzzle_init_rand (mz : Nat → Nat → Nat → Nat) (size seed : Nat) : NPuzzle × List Nat :=
  let np : NPuzzle :=
    { size := size
      board := (List.range (size * size)).map (fun i => i % 65536)
      zobrist := 0
      holeIdx := (size / 2) * size + (size - 1) / 2
      h := 0
      g := 0
      parent := none }
  let r := shuffleLoop mz 0 np seed []
  ({ r.1 with zobrist := 0, g := 0 }, r.2.2)

/-- Modelled from the spec: `ft_strlen` of ft_string.h is missing from the sources; it is
the counterpart of the C library's `strlen`. `line` is what `getline` read; the buffer
holds it followed by a terminating NUL, so the result is the number of characters
before the first NUL of the line, or the length of the line. -/
def ft_strlen (line : List Char) : Nat :=
  (line.takeWhile (fun c => c ≠ Char.ofNat 0)).length

/-- Modelled from the spec: `ft_strspn(s, " \t")` of ft_string.h is missing from the
sources; the text format of the spec separates tokens by spaces and tabs, and the
function is the counterpart of the C library's `strspn`: the length of the longest
prefix of `s` made of spaces and tabs. -/
def ft_strspn (s : List Char) : Nat :=
  (s.takeWhile (fun c => c = ' ' ∨ c = Char.ofNat 9)).length

/-- The white space `strtoul` skips: space, tab, newline, vertical tab, form feed and
carriage return. -/
def isspace (c : Char) : Bool :=
  c = ' ' || c = Char.ofNat 9 || c = Char.ofNat 10 || c = Char.ofNat 11 || c = Char.ofNat 12
    || c = Char.ofNat 13

/-- The C library's `strtoul(s, &end, 10)` with a 64-bit `unsigned long`: white space is
skipped, then an optional sign and the longest run of decimal digits are read. The
result is the value and the rest of the string `end` points to. Without a digit the
value is 0 and `end` is `s`; a value that does not fit gives `ULONG_MAX`; a minus sign
negates the value modulo `2 ^ 64`. -/
def strtoul (s : List Char) : Nat × List Char :=
  let s1 := s.dropWhile isspace
  let s2 := if s1.head? = some '-' ∨ s1.head? = some '+' then s1.tail else s1
  let digits := s2.takeWhile Char.isDigit
  if digits = [] then (0, s)
  else
    let v : Nat := digits.foldl (fun acc c => 10 * acc + (c.toNat - 48)) 0
    let u :=
      if v ≥ 18446744073709551616 then 18446744073709551615
      else if s1.head? = some '-' then (18446744073709551616 - v) % 18446744073709551616
      else v
    (u, s2.dropWhile Char.isDigit)

/-- The function `npuzzle_parse_size(np, line, readSize)`, where `line` is the
`readSize` characters `getline` read: the value returned and `np->size` afterwards
(`size0` before the call). The result is `none` when the last test reads a byte beyond
the terminating NUL that `getline` wrote. -/
def npuzzle_parse_size (size0 : Nat) (line : List Char) : Option (Int × Nat) :=
  if ft_strlen line ≠ line.length then some (-1, size0)
  else
    -- line[readSize - 1] = '\0';
    let s := line.dropLast
    -- char *ptr = line + ft_strspn(line, " \t");
    let ptr := s.drop (ft_strspn s)
    if ptr.head? = some '#' ∨ ptr = [] then some (0, size0)
    else
      -- np->size = strtoul(ptr, &ptr, 10);
      let r := strtoul ptr
      -- ptr += ft_strspn(line, " \t");
      let idx := (s.length - r.2.length) + ft_strspn s
      if idx < s.length then
        if load (s.map Char.toNat) idx ≠ '#'.toNat then some (-1, r.1) else some (1, r.1)
      else if idx ≤ s.length + 1 then some (1, r.1)
      else none

/-- The loop of `npuzzle_parse_row` over the pieces of a row,
`for (xLen = 0; xLen < np->size; ++xLen)`: whether it ran to its end (`false` when it
returned -1), the board and `ptr` afterwards. -/
def parseRowLoop (size yLen xLen : Nat) (ptr : List Char) (board : List Nat) :
    Bool × List Nat × List Char :=
  if xLen < size then
    -- uint16_t value = strtoul(ptr, &ptr, 10);
    let r := strtoul ptr
    let value := r.1 % 65536
    if r.2.length = ptr.length then (false, board, r.2)
    else if value ≥ size * size then (false, board, r.2)
    else
      parseRowLoop size yLen (xLen + 1) (r.2.drop (ft_strspn r.2))
        (board.set (yLen * size + xLen) value)
  else (true, board, ptr)
termination_by size - xLen

/-- The function `npuzzle_parse_row(np, line, readSize, yLen)`: the value returned and
the board afterwards. -/
def npuzzle_parse_row (size : Nat) (board : List Nat) (line : List Char) (yLen : Nat) :
    Int × List Nat :=
  if ft_strlen line ≠ line.length then (-1, board)
  else
    let s := line.dropLast
    let ptr := s.drop (ft_strspn s)
    if ptr.head? = some '#' ∨ ptr = [] then (0, board)
    else if yLen = size then (-1, board)
    else
      let r := parseRowLoop size yLen 0 ptr board
      if r.1 = false then (-1, r.2.1)
      else if r.2.2.head? ≠ some '#' ∧ r.2.2 ≠ [] then (-1, r.2.1)
      else (1, r.2.1)

/-- What `npuzzle_init` does: it returns 0 and leaves a state, it returns -1, or it reads
memory outside the line buffer or the board. -/
inductive InitResult where
  | ok (np : NPuzzle)
  | error
  | undefined
deriving DecidableEq, Repr

/-- The first `while (getline ...)` loop of `npuzzle_init`: the lines are parsed as size
lines until one is accepted. The result is `np->size` and the lines not yet read, or
`none` for the `goto npuzzle_init_error`. -/
def sizeLoop : List (List Char) → Nat → Option (Option (Nat × List (List Char)))
  | [], size => some (some (size, []))
  | line :: rest, size =>
    match npuzzle_parse_size size line with
    | none => none
    | some (retval, size1) =>
      if retval = -1 then some none
      else if retval = 1 then some (some (size1, rest))
      else sizeLoop rest size1

/-- The second `while (getline ...)` loop of `npuzzle_init`: every remaining line is
parsed as a row; `yLen` counts the rows accepted. `none` is the
`goto npuzzle_init_error`. -/
def rowLoop (size : Nat) : List (List Char) → List Nat → Nat → Option (List Nat × Nat)
  | [], board, yLen => some (board, yLen)
  | line :: rest, board, yLen =>
    if (npuzzle_parse_row size board line yLen).1 = -1 then none
    else if (npuzzle_parse_row size board line yLen).1 = 1 then
      rowLoop size rest (npuzzle_parse_row size board line yLen).2 (yLen + 1)
    else rowLoop size rest (npuzzle_parse_row size board line yLen).2 yLen

/-- Inner loop of the duplicate check of `npuzzle_init`: whether some square from `sq2`
on holds the entry of `sq1`. -/
def duplicateInner (size : Nat) (board : List Nat) (sq1 sq2 : Nat) : Bool :=
  if sq2 < size * size then
    if load board sq1 = load board sq2 then true
    else duplicateInner size board sq1 (sq2 + 1)
  else false
termination_by size * size - sq2

/-- Outer loop of the duplicate check: whether the check jumps to the error exit. -/
def duplicateOuter (size : Nat) (board : List Nat) (sq1 : Nat) : Bool :=
  if sq1 < size * size then
    if duplicateInner size board sq1 (sq1 + 1) then true
    else duplicateOuter size board (sq1 + 1)
  else false
termination_by size * size - sq1

/-- The search `for (holeIdx = 0; np->board[holeIdx] != 0; ++holeIdx);` of
`npuzzle_init`; `none` when it runs past the end of the board. -/
def holeSearch (board : List Nat) (holeIdx : Nat) : Option Nat :=
  if holeIdx < board.length then
    if load board holeIdx ≠ 0 then holeSearch board (holeIdx + 1) else some holeIdx
  else none
termination_by board.length - holeIdx

/-- The function `npuzzle_init(np, filename)` when the file opens and the allocations
succeed. `lines` are the lines of the file as `getline` returns them, `boardMem` and
`tagMem` are the contents of the two blocks `malloc` returns, by index. -/
def npuzzle_init (lines : List (List Char)) (boardMem tagMem : Nat → Nat) : InitResult :=
  match sizeLoop lines 0 with
  | none => InitResult.undefined
  | some none => InitResult.error
  | some (some (size, rest)) =>
    if size = 0 ∨ size ≥ 256 then InitResult.error
    else
      match rowLoop size rest ((List.range (size * size)).map boardMem) 0 with
      | none => InitResult.error
      | some (board, _) =>
        if duplicateOuter size board 0 then InitResult.error
        else
          match holeSearch board 0 with
          | none => InitResult.undefined
          | some holeIdx =>
            InitResult.ok
              { size := size
                board := npuzzle_init_translate board size
                  ((List.range (size * size)).map tagMem)
                zobrist := 0
                holeIdx := holeIdx
                h := 0
                g := 0
                parent := none }

/-! ## Definitions used in the statements and proofs -/

/-- Writing the successive values of the counter at the squares of a list. -/
def writeSeq : List Nat → List Nat × Nat → List Nat × Nat
  | [], st => st
  | p :: ps, st => writeSeq ps (st.1.set p ((st.2 + 1) % 65536), st.2 + 1)

/-- The squares of ring `L` of a board of side `size`, in the order the four inner loops
visit them. -/
def ringSquares (size L : Nat) : List Nat :=
  (List.range (size - L - 1 + 1 - L)).map (fun i => L * size + (L + i))
    ++ (List.range (size - L - 1 + 1 - (L + 1))).map
        (fun i => (L + 1 + i) * size + (size - L - 1))
    ++ (List.range (size - L - 1 - 1 + 1 - L)).map
        (fun i => (size - L - 1) * size + (size - L - 1 - 1 - i))
    ++ (List.range (size - L - 1 - 1 - L)).map
        (fun i => (size - L - 1 - 1 - i) * size + L)

/-- The squares of `n` successive rings, starting with ring `L`. -/
def ringsFrom (size : Nat) : Nat → Nat → List Nat
  | 0, _ => []
  | n + 1, L => ringSquares size L ++ ringsFrom size n (L + 1)

/-- The ring a square lies on: its distance to the nearest border. -/
def layerOf (size r c : Nat) : Nat :=
  min (min r c) (min (size - 1 - r) (size - 1 - c))

/-- The number the inward clockwise spiral gives to square `p`, counting from 1 at the
top left corner. -/
def spiralLabel (size p : Nat) : Nat :=
  let r := p / size
  let c := p % size
  let L := layerOf size r c
  let base := 4 * L * (size - L)
  let k := size - 2 * L
  if r = L then base + 1 + (c - L)
  else if c = size - 1 - L then base + k + (r - L)
  else if r = size - 1 - L then base + 2 * k - 1 + (size - 1 - L - c)
  else base + 3 * k - 2 + (size - 1 - L - r)

/-- The squares of a list carry, under `f`, the successive numbers `c + 1, c + 2, ...`. -/
def Labelled (f : Nat → Nat) : Nat → List Nat → Prop
  | _, [] => True
  | c, p :: ps => f p = c + 1 ∧ Labelled f (c + 1) ps

/-- The inversions of a state in the words of the spec: the number of pairs of squares
`sq1 < sq2` of the board, both different from `holeIdx`, with
`board[sq1] > board[sq2]`. -/
def inversionCount (np : NPuzzle) : Nat :=
  ((Finset.range (np.size * np.size) ×ˢ Finset.range (np.size * np.size)).filter
    (fun p => p.1 < p.2 ∧ p.1 ≠ np.holeIdx ∧ p.2 ≠ np.holeIdx
      ∧ load np.board p.1 > load np.board p.2)).card

/-- The parity bit of the spec: `1` when `N mod 4` is 2 or 3, else `0`. -/
def parityBit (N : Nat) : Nat := if N % 4 = 2 ∨ N % 4 = 3 then 1 else 0

/-- Indicator of an inversion between squares `a` and `b`. -/
def inversionAt (np : NPuzzle) (a b : Nat) : Nat :=
  if a < b ∧ a ≠ np.holeIdx ∧ b ≠ np.holeIdx ∧ load np.board a > load np.board b then 1
  else 0

/-- The canonical goal state of side `size`: every square holds its own index and
the hole is at the centre square `(size / 2) * size + (size - 1) / 2`, with a zero
fingerprint and zero cost. -/
def goalState (size : Nat) : NPuzzle :=
  { size := size
    board := List.range (size * size)
    zobrist := 0
    holeIdx := (size / 2) * size + (size - 1) / 2
    h := 0
    g := 0
    parent := none }

/-- Applying a sequence of moves: `npuzzle_apply` on each target square in turn. -/
def applyMoves (mz : Nat → Nat → Nat → Nat) (np : NPuzzle) (targets : List Nat) : NPuzzle :=
  targets.foldl (npuzzle_apply mz) np

/-- Square `t` is orthogonally adjacent to square `h` on the grid of side `size`:
left or right neighbour in the same row, or the square above or below. -/
def adjacent (size h t : Nat) : Prop :=
  (t + 1 = h ∧ h % size ≠ 0) ∨ (t = h + 1 ∧ t % size ≠ 0) ∨ t + size = h ∨ t = h + size

/-- A sequence of legal moves from the hole square `h`: every target is a square of the
board and adjacent to the square the hole is on when the move is made. -/
def legalMoves (size : Nat) : Nat → List Nat → Prop
  | _, [] => True
  | h, t :: ts => t < size * size ∧ adjacent size h t ∧ legalMoves size t ts

/-- The exact reverse of a sequence of moves made from hole square `h`: the squares the
hole came from, last move first. -/
def reverseMoves (h : Nat) (targets : List Nat) : List Nat :=
  ((h :: targets).dropLast).reverse

/-- The value of a 16-bit entry when its two bytes are read in memory order, the first
byte being the more significant: the entry itself on a big-endian machine, the entry
with its two bytes exchanged on a little-endian one. -/
def memKey (bigEndian : Bool) (v : Nat) : Nat :=
  if bigEndian then (v / 256 % 256) * 256 + v % 256 else (v % 256) * 256 + v / 256 % 256

/-- Lexicographic order of two sequences under a key: at the first position where the
keys differ, the key of the left sequence is the smaller. -/
def lexLt (k : Nat → Nat) : List Nat → List Nat → Prop
  | a :: as, b :: bs => k a < k b ∨ (k a = k b ∧ lexLt k as bs)
  | _, _ => False

/-- A sample key table for the Zobrist-style `move_zobrist`, used in examples. -/
def sampleKey (piece square : Nat) : Nat := 1000 * piece + square + 1

/-- The goal state of side 2 after one call of `npuzzle_apply` (the piece right of the
hole moved into it), with the sample key table. -/
def movedState : NPuzzle := npuzzle_apply (move_zobrist sampleKey) (goalState 2) 3

/-- The state `npuzzle_init` builds from the puzzle of side 2 with the rows `1 2` and
`3 0`: the translation step turns the raw board `[1, 2, 3, 0]` into `[0, 1, 3, 2]`, the
hole is the square of the raw label 0, the fingerprint and the cost are 0. It has the
board and the hole of `movedState`. -/
def loadedState : NPuzzle :=
  { size := 2
    board := [0, 1, 3, 2]
    zobrist := 0
    holeIdx := 3
    h := 0
    g := 0
    parent := none }

/-- The goal state of side 17 with the entries of squares 1 and 256 exchanged. -/
def swappedState : NPuzzle :=
  { goalState 17 with board := ((List.range (17 * 17)).set 1 256).set 256 1 }

/-- A state with estimate 0 and cost `2 ^ 31`. -/
def deepState : NPuzzle := { goalState 3 with h := 0, g := 2147483648 }

/-- A state with estimate `2 ^ 31` and cost 0. -/
def farState : NPuzzle := { goalState 3 with h := 2147483648, g := 0 }

/-- The goal state of side `size` with the contents of squares `i` and `j` exchanged;
the hole stays at its goal square. -/
def swapState (size i j : Nat) : NPuzzle :=
  { goalState size with board := ((List.range (size * size)).set i j).set j i }

/-- Indicator of an inversion between squares `x` and `y` for a board given as a
function and a hole square. -/
def invAt (b : Nat → Nat) (hole x y : Nat) : Nat :=
  if x < y ∧ x ≠ hole ∧ y ≠ hole ∧ b x > b y then 1 else 0

/-- A state of cost 0 and estimate 2. -/
def nearState : NPuzzle := { goalState 3 with h := 2, g := 0 }

/-- A state of cost 2 and estimate 0: with weight 1 it has the value of `nearState`. -/
def walkedState : NPuzzle := { goalState 3 with h := 0, g := 2 }

/-- XOR of `f 0`, ..., `f (n - 1)`. -/
def xorUpTo (f : Nat → Nat) : Nat → Nat
  | 0 => 0
  | n + 1 => xorUpTo f n ^^^ f n

/-- The Zobrist hash of a position under a key table: the XOR of `key piece square` over
every square of the board except the one the hole is on. -/
def boardHash (key : Nat → Nat → Nat) (np : NPuzzle) : Nat :=
  xorUpTo (fun sq => if sq = np.holeIdx then 0 else key (load np.board sq) sq)
    (np.size * np.size)

/-! ## The spiral tag array -/

theorem writeSeq_append (ps qs : List Nat) (st : List Nat × Nat) :
    writeSeq (ps ++ qs) st = writeSeq qs (writeSeq ps st) := by
  induction ps generalizing st with
  | nil => rfl
  | cons p ps ih => simp [writeSeq, ih]

theorem tagTop_eq (size boxMin boxMax : Nat) : ∀ (n x : Nat) (st : List Nat × Nat),
    boxMax + 1 - x = n →
    tagTop size boxMin boxMax x st
      = writeSeq ((List.range n).map (fun i => boxMin * size + (x + i))) st := by
  intro n
  induction n with
  | zero =>
    intro x st h
    rw [tagTop, if_neg (by omega)]
    rfl
  | succ n ih =>
    intro x st h
    rw [tagTop, if_pos (by omega), ih (x + 1) _ (by omega), List.range_succ_eq_map]
    simp only [List.map_cons, List.map_map, writeSeq, Nat.add_zero]
    congr 2
    funext i
    simp only [Function.comp_apply, Nat.succ_eq_add_one]
    omega

theorem tagRight_eq (size boxMin boxMax : Nat) : ∀ (n y : Nat) (st : List Nat × Nat),
    boxMax + 1 - y = n →
    tagRight size boxMin boxMax y st
      = writeSeq ((List.range n).map (fun i => (y + i) * size + boxMax)) st := by
  intro n
  induction n with
  | zero =>
    intro y st h
    rw [tagRight, if_neg (by omega)]
    rfl
  | succ n ih =>
    intro y st h
    rw [tagRight, if_pos (by omega), ih (y + 1) _ (by omega), List.range_succ_eq_map]
    simp only [List.map_cons, List.map_map, writeSeq, Nat.add_zero]
    congr 2
    funext i
    simp only [Function.comp_apply, Nat.succ_eq_add_one]
    congr 2
    omega

theorem tagBottom_stop (size boxMin boxMax x : Nat) (st : List Nat × Nat)
    (h : ¬ boxMin < (x + 1) % 18446744073709551616) :
    tagBottom size boxMin boxMax x st = st := by
  rw [tagBottom, if_neg h]

theorem tagBottom_step (size boxMin boxMax x x1 : Nat) (st : List Nat × Nat)
    (h : boxMin < (x + 1) % 18446744073709551616)
    (hx : (x + 18446744073709551615) % 18446744073709551616 = x1) :
    tagBottom size boxMin boxMax x st
      = tagBottom size boxMin boxMax x1
          (st.1.set (boxMax * size + x) ((st.2 + 1) % 65536), st.2 + 1) := by
  subst hx
  rw [tagBottom, if_pos h]

theorem tagBottom_eq (size boxMin boxMax : Nat) : ∀ (n x : Nat) (st : List Nat × Nat),
    x + 1 - boxMin = n → x + 1 < 18446744073709551616 →
    tagBottom size boxMin boxMax x st
      = writeSeq ((List.range n).map (fun i => boxMax * size + (x - i))) st := by
  intro n
  induction n with
  | zero =>
    intro x st h hx
    rw [tagBottom_stop _ _ _ _ _ (by omega)]
    rfl
  | succ n ih =>
    intro x st h hx
    rw [List.range_succ_eq_map]
    simp only [List.map_cons, List.map_map, writeSeq, Nat.sub_zero]
    rcases Nat.eq_zero_or_pos x with h0 | h0
    · have hn : n = 0 := by omega
      rw [tagBottom_step size boxMin boxMax x 18446744073709551615 st (by omega) (by omega),
        tagBottom_stop _ _ _ _ _ (by omega), hn]
      rfl
    · rw [tagBottom_step size boxMin boxMax x (x - 1) st (by omega) (by omega),
        ih (x - 1) _ (by omega) (by omega)]
      congr 2
      funext i
      simp only [Function.comp_apply, Nat.succ_eq_add_one]
      omega

theorem tagLeft_eq (size boxMin boxMax : Nat) : ∀ (n y : Nat) (st : List Nat × Nat),
    y - boxMin = n →
    tagLeft size boxMin boxMax y st
      = writeSeq ((List.range n).map (fun i => (y - i) * size + boxMin)) st := by
  intro n
  induction n with
  | zero =>
    intro y st h
    rw [tagLeft, if_neg (by omega)]
    rfl
  | succ n ih =>
    intro y st h
    rw [tagLeft, if_pos (by omega), ih (y - 1) _ (by omega), List.range_succ_eq_map]
    simp only [List.map_cons, List.map_map, writeSeq, Nat.sub_zero]
    congr 2
    funext i
    simp only [Function.comp_apply, Nat.succ_eq_add_one]
    congr 2
    omega

/-- One pass of the layer loop writes the counter along the squares of the ring. -/
theorem tagRing_eq (size L : Nat) (st : List Nat × Nat) (hs : size < 18446744073709551616)
    (_hL : L < size / 2) :
    tagLeft size L (size - L - 1) (size - L - 1 - 1)
      (tagBottom size L (size - L - 1) (size - L - 1 - 1)
        (tagRight size L (size - L - 1) (L + 1)
          (tagTop size L (size - L - 1) L st)))
      = writeSeq (ringSquares size L) st := by
  rw [tagTop_eq size L (size - L - 1) _ L st rfl,
    tagRight_eq size L (size - L - 1) _ (L + 1) _ rfl,
    tagBottom_eq size L (size - L - 1) _ (size - L - 1 - 1) _ rfl (by omega),
    tagLeft_eq size L (size - L - 1) _ (size - L - 1 - 1) _ rfl]
  simp only [ringSquares, writeSeq_append]

theorem tagLayers_eq (size : Nat) (hs : size < 18446744073709551616) :
    ∀ (n L : Nat) (st : List Nat × Nat), size / 2 - L = n →
      tagLayers size L st = writeSeq (ringsFrom size n L) st := by
  intro n
  induction n with
  | zero =>
    intro L st h
    rw [tagLayers, if_neg (by omega)]
    rfl
  | succ n ih =>
    intro L st h
    rw [tagLayers, if_pos (by omega)]
    simp only []
    rw [tagRing_eq size L st hs (by omega), ih (L + 1) _ (by omega)]
    simp only [ringsFrom, writeSeq_append]

theorem Labelled_append (f : Nat → Nat) : ∀ (ps qs : List Nat) (c : Nat),
    Labelled f c (ps ++ qs) ↔ Labelled f c ps ∧ Labelled f (c + ps.length) qs := by
  intro ps
  induction ps with
  | nil => intro qs c; simp [Labelled]
  | cons p ps ih =>
    intro qs c
    have e : c + 1 + ps.length = c + (ps.length + 1) := by omega
    show (f p = c + 1 ∧ Labelled f (c + 1) (ps ++ qs)) ↔
      (f p = c + 1 ∧ Labelled f (c + 1) ps) ∧ Labelled f (c + (ps.length + 1)) qs
    rw [ih qs (c + 1), e, and_assoc]

theorem Labelled_map_range (f g : Nat → Nat) : ∀ (n c : Nat),
    (∀ i, i < n → f (g i) = c + i + 1) → Labelled f c ((List.range n).map g) := by
  intro n
  induction n with
  | zero => intro c _; simp [Labelled]
  | succ n ih =>
    intro c h
    rw [List.range_succ, List.map_append, Labelled_append]
    refine ⟨ih c (fun i hi => h i (by omega)), ?_⟩
    simp only [List.map_cons, List.map_nil, Labelled, List.length_map, List.length_range,
      and_true]
    exact h n (by omega)

theorem Labelled_mem (f : Nat → Nat) : ∀ (ps : List Nat) (c : Nat), Labelled f c ps →
    ∀ p, p ∈ ps → c < f p ∧ f p ≤ c + ps.length := by
  intro ps
  induction ps with
  | nil => intro c _ p hp; simp at hp
  | cons q ps ih =>
    intro c h p hp
    obtain ⟨h1, h2⟩ := h
    rcases List.mem_cons.mp hp with rfl | hp
    · simp only [List.length_cons]; omega
    · have := ih (c + 1) h2 p hp
      simp only [List.length_cons]; omega

/-- Every number from `c + 1` to `c + ps.length` is the label of a square of the list. -/
theorem Labelled_surj (f : Nat → Nat) : ∀ (ps : List Nat) (c : Nat), Labelled f c ps →
    ∀ v, c < v → v ≤ c + ps.length → ∃ p, p ∈ ps ∧ f p = v := by
  intro ps
  induction ps with
  | nil => intro c _ v h1 h2; simp at h2; omega
  | cons q ps ih =>
    intro c h v h1 h2
    obtain ⟨hq, hps⟩ := h
    by_cases hv : v = c + 1
    · exact ⟨q, List.mem_cons_self _ _, by omega⟩
    · simp only [List.length_cons] at h2
      obtain ⟨p, hp, hfp⟩ := ih (c + 1) hps v (by omega) (by omega)
      exact ⟨p, List.mem_cons_of_mem _ hp, hfp⟩

theorem load_set_self (a : List Nat) (i v : Nat) (h : i < a.length) :
    load (a.set i v) i = v := by
  simp [load, List.getD_eq_getElem?_getD, List.getElem?_set, h]

theorem load_set_ne (a : List Nat) (i j v : Nat) (h : i ≠ j) :
    load (a.set i v) j = load a j := by
  simp [load, List.getD_eq_getElem?_getD, List.getElem?_set, h]

/-- What `writeSeq` leaves in the array when the squares of the list carry the
successive counter values under `f`: `f` on the squares of the list, the old content
elsewhere. -/
theorem writeSeq_spec (f : Nat → Nat) : ∀ (ps : List Nat) (t : List Nat) (c : Nat),
    Labelled f c ps → (∀ p, p ∈ ps → p < t.length) →
    (writeSeq ps (t, c)).1.length = t.length
      ∧ (∀ p, p ∈ ps → load (writeSeq ps (t, c)).1 p = f p % 65536)
      ∧ (∀ q, q ∉ ps → load (writeSeq ps (t, c)).1 q = load t q) := by
  intro ps
  induction ps with
  | nil => intro t c _ _; simp [writeSeq]
  | cons p0 ps ih =>
    intro t c hl hb
    obtain ⟨h0, hps⟩ := hl
    have hb0 : p0 < t.length := hb p0 (List.mem_cons_self _ _)
    obtain ⟨i1, i2, i3⟩ := ih (t.set p0 ((c + 1) % 65536)) (c + 1) hps
      (fun p hp => by rw [List.length_set]; exact hb p (List.mem_cons_of_mem _ hp))
    simp only [writeSeq]
    refine ⟨by rw [i1, List.length_set], ?_, ?_⟩
    · intro p hp
      by_cases hmem : p ∈ ps
      · exact i2 p hmem
      · rcases List.mem_cons.mp hp with rfl | hp
        · rw [i3 p hmem, load_set_self _ _ _ hb0, h0]
        · exact absurd hp hmem
    · intro q hq
      have hq1 : q ∉ ps := fun h => hq (List.mem_cons_of_mem _ h)
      have hq2 : p0 ≠ q := fun h => hq (h ▸ List.mem_cons_self _ _)
      rw [i3 q hq1, load_set_ne _ _ _ _ hq2]

theorem square_lt (size r c : Nat) (hr : r < size) (hc : c < size) :
    r * size + c < size * size := by
  have h : (r + 1) * size ≤ size * size := Nat.mul_le_mul_right size hr
  rw [Nat.add_mul, Nat.one_mul] at h
  omega

theorem square_div (size r c : Nat) (hc : c < size) : (r * size + c) / size = r := by
  have hs : 0 < size := by omega
  rw [Nat.add_comm, Nat.add_mul_div_right _ _ hs, Nat.div_eq_of_lt hc, Nat.zero_add]

theorem square_mod (size r c : Nat) (hc : c < size) : (r * size + c) % size = c := by
  rw [Nat.add_comm, Nat.add_mul_mod_self_right, Nat.mod_eq_of_lt hc]

theorem spiralLabel_at (size r c L : Nat) (hc : c < size) (hL : layerOf size r c = L) :
    spiralLabel size (r * size + c) =
      if r = L then 4 * L * (size - L) + 1 + (c - L)
      else if c = size - 1 - L then 4 * L * (size - L) + (size - 2 * L) + (r - L)
      else if r = size - 1 - L then
        4 * L * (size - L) + 2 * (size - 2 * L) - 1 + (size - 1 - L - c)
      else 4 * L * (size - L) + 3 * (size - 2 * L) - 2 + (size - 1 - L - r) := by
  unfold spiralLabel
  simp only [square_div size r c hc, square_mod size r c hc, hL]

theorem spiralLabel_top (size L i : Nat) (hL : L < size / 2) (hi : i < size - 2 * L) :
    spiralLabel size (L * size + (L + i)) = 4 * L * (size - L) + 1 + i := by
  rw [spiralLabel_at size L (L + i) L (by omega) (by unfold layerOf; omega), if_pos rfl]
  omega

theorem spiralLabel_right (size L i : Nat) (hL : L < size / 2) (h1 : 1 ≤ i)
    (hi : i < size - 2 * L) :
    spiralLabel size ((L + i) * size + (size - 1 - L))
      = 4 * L * (size - L) + (size - 2 * L) + i := by
  rw [spiralLabel_at size (L + i) (size - 1 - L) L (by omega) (by unfold layerOf; omega),
    if_neg (by omega), if_pos rfl]
  omega

theorem spiralLabel_bottom (size L i : Nat) (hL : L < size / 2) (h1 : 1 ≤ i)
    (hi : i < size - 2 * L) :
    spiralLabel size ((size - 1 - L) * size + (size - 1 - L - i))
      = 4 * L * (size - L) + 2 * (size - 2 * L) - 1 + i := by
  rw [spiralLabel_at size (size - 1 - L) (size - 1 - L - i) L (by omega)
    (by unfold layerOf; omega), if_neg (by omega), if_neg (by omega), if_pos rfl]
  omega

theorem spiralLabel_left (size L i : Nat) (hL : L < size / 2) (h1 : 1 ≤ i)
    (hi : i + 2 ≤ size - 2 * L) :
    spiralLabel size ((size - 1 - L - i) * size + L)
      = 4 * L * (size - L) + 3 * (size - 2 * L) - 2 + i := by
  rw [spiralLabel_at size (size - 1 - L - i) L L (by omega) (by unfold layerOf; omega),
    if_neg (by omega), if_neg (by omega), if_neg (by omega)]
  omega

theorem ringBase_succ (size L : Nat) (hL : L < size / 2) :
    4 * (L + 1) * (size - (L + 1)) = 4 * L * (size - L) + (4 * (size - 2 * L) - 4) := by
  obtain ⟨m, rfl⟩ : ∃ m, size = 2 * L + 2 + m := ⟨size - (2 * L + 2), by omega⟩
  have h1 : 2 * L + 2 + m - (L + 1) = L + 1 + m := by omega
  have h2 : 2 * L + 2 + m - L = L + 2 + m := by omega
  have h3 : 2 * L + 2 + m - 2 * L = 2 + m := by omega
  rw [h1, h2, h3]
  have : 4 * L * (L + 2 + m) + 4 * (2 + m) = 4 * (L + 1) * (L + 1 + m) + 4 := by ring
  omega

theorem ringSquares_length (size L : Nat) (hL : L < size / 2) :
    (ringSquares size L).length = 4 * (size - 2 * L) - 4 := by
  simp only [ringSquares, List.length_append, List.length_map, List.length_range]
  omega

theorem ringSquares_labelled (size L : Nat) (hL : L < size / 2) :
    Labelled (spiralLabel size) (4 * L * (size - L)) (ringSquares size L) := by
  unfold ringSquares
  simp only [Labelled_append, List.length_map, List.length_range, List.length_append]
  refine ⟨⟨⟨?_, ?_⟩, ?_⟩, ?_⟩
  · apply Labelled_map_range
    intro i hi
    rw [spiralLabel_top size L i hL (by omega)]
    omega
  · apply Labelled_map_range
    intro i hi
    have e : (L + 1 + i) * size + (size - L - 1) = (L + (i + 1)) * size + (size - 1 - L) := by
      rw [show L + 1 + i = L + (i + 1) by omega, show size - L - 1 = size - 1 - L by omega]
    rw [e, spiralLabel_right size L (i + 1) hL (by omega) (by omega)]
    omega
  · apply Labelled_map_range
    intro i hi
    have e : (size - L - 1) * size + (size - L - 1 - 1 - i)
        = (size - 1 - L) * size + (size - 1 - L - (i + 1)) := by
      rw [show size - L - 1 - 1 - i = size - 1 - L - (i + 1) by omega,
        show size - L - 1 = size - 1 - L by omega]
    rw [e, spiralLabel_bottom size L (i + 1) hL (by omega) (by omega)]
    omega
  · apply Labelled_map_range
    intro i hi
    have e : (size - L - 1 - 1 - i) * size + L = (size - 1 - L - (i + 1)) * size + L := by
      rw [show size - L - 1 - 1 - i = size - 1 - L - (i + 1) by omega]
    rw [e, spiralLabel_left size L (i + 1) hL (by omega) (by omega)]
    omega

theorem ringSquares_lt (size L : Nat) (hL : L < size / 2) :
    ∀ p, p ∈ ringSquares size L → p < size * size := by
  intro p hp
  simp only [ringSquares, List.mem_append, List.mem_map, List.mem_range] at hp
  rcases hp with ((⟨i, hi, rfl⟩ | ⟨i, hi, rfl⟩) | ⟨i, hi, rfl⟩) | ⟨i, hi, rfl⟩ <;>
    exact square_lt _ _ _ (by omega) (by omega)

theorem ringsFrom_length (size : Nat) : ∀ (n L : Nat), L + n ≤ size / 2 →
    4 * L * (size - L) + (ringsFrom size n L).length = 4 * (L + n) * (size - (L + n)) := by
  intro n
  induction n with
  | zero => intro L _; simp [ringsFrom]
  | succ n ih =>
    intro L h
    have h1 := ih (L + 1) (by omega)
    have h2 := ringBase_succ size L (by omega)
    have h3 := ringSquares_length size L (by omega)
    have e : L + 1 + n = L + (n + 1) := by omega
    rw [e] at h1
    simp only [ringsFrom, List.length_append]
    omega

theorem ringsFrom_labelled (size : Nat) : ∀ (n L : Nat), L + n ≤ size / 2 →
    Labelled (spiralLabel size) (4 * L * (size - L)) (ringsFrom size n L) := by
  intro n
  induction n with
  | zero => intro L _; simp [ringsFrom, Labelled]
  | succ n ih =>
    intro L h
    simp only [ringsFrom, Labelled_append]
    refine ⟨ringSquares_labelled size L (by omega), ?_⟩
    have h1 := ih (L + 1) (by omega)
    rw [ringBase_succ size L (by omega)] at h1
    rw [ringSquares_length size L (by omega)]
    exact h1

theorem ringsFrom_lt (size : Nat) : ∀ (n L : Nat), L + n ≤ size / 2 →
    ∀ p, p ∈ ringsFrom size n L → p < size * size := by
  intro n
  induction n with
  | zero => intro L _ p hp; simp [ringsFrom] at hp
  | succ n ih =>
    intro L h p hp
    simp only [ringsFrom, List.mem_append] at hp
    rcases hp with hp | hp
    · exact ringSquares_lt size L (by omega) p hp
    · exact ih (L + 1) (by omega) p hp

theorem load_mem (a : List Nat) (i : Nat) (h : i < a.length) : load a i ∈ a := by
  simp only [load, List.getD_eq_getElem?_getD, List.getElem?_eq_getElem h, Option.getD_some]
  exact List.getElem_mem h

theorem ringTotal (size : Nat) :
    4 * (size / 2) * (size - size / 2) + size % 2 = size * size := by
  rcases Nat.even_or_odd' size with ⟨m, rfl | rfl⟩
  · have h1 : 2 * m / 2 = m := by omega
    have h2 : 2 * m - m = m := by omega
    have h3 : 2 * m % 2 = 0 := by omega
    rw [h1, h2, h3]
    ring
  · have h1 : (2 * m + 1) / 2 = m := by omega
    have h2 : 2 * m + 1 - m = m + 1 := by omega
    have h3 : (2 * m + 1) % 2 = 1 := by omega
    rw [h1, h2, h3]
    ring

theorem centre_lt (size : Nat) (h1 : 1 ≤ size) :
    (size / 2) * size + (size - 1) / 2 < size * size :=
  square_lt _ _ _ (by omega) (by omega)

/-- The spiral would give the centre square the last number, `size * size`. -/
theorem spiralLabel_centre (size : Nat) (h1 : 1 ≤ size) :
    spiralLabel size ((size / 2) * size + (size - 1) / 2) = size * size := by
  rcases Nat.even_or_odd' size with ⟨m, rfl | rfl⟩
  · obtain ⟨k, rfl⟩ : ∃ k, m = k + 1 := ⟨m - 1, by omega⟩
    have e1 : 2 * (k + 1) / 2 = k + 1 := by omega
    have e2 : (2 * (k + 1) - 1) / 2 = k := by omega
    rw [e1, e2, spiralLabel_at (2 * (k + 1)) (k + 1) k k (by omega)
      (by unfold layerOf; omega), if_neg (by omega), if_neg (by omega), if_pos (by omega)]
    have e3 : 2 * (k + 1) - k = k + 2 := by omega
    have e4 : 2 * (k + 1) - 2 * k = 2 := by omega
    have e5 : 2 * (k + 1) - 1 - k - k = 1 := by omega
    rw [e3, e4, e5]
    have e6 : 4 * k * (k + 2) + 2 * 2 - 1 + 1 = 4 * k * (k + 2) + 4 := by omega
    rw [e6]
    ring
  · have e1 : (2 * m + 1) / 2 = m := by omega
    have e2 : (2 * m + 1 - 1) / 2 = m := by omega
    rw [e1, e2, spiralLabel_at (2 * m + 1) m m m (by omega)
      (by unfold layerOf; omega), if_pos rfl]
    have e3 : 2 * m + 1 - m = m + 1 := by omega
    rw [e3, Nat.sub_self]
    ring

/-- After the layer loop (before the hole is written) every square of a ring holds its
spiral number; the array keeps its length. -/
theorem tagLayers_spec (size : Nat) (h2 : size < 256) (mem : List Nat)
    (hmem : mem.length = size * size) :
    (tagLayers size 0 (mem, 0)).1.length = size * size
      ∧ ∀ p, p ∈ ringsFrom size (size / 2) 0 →
          load (tagLayers size 0 (mem, 0)).1 p = spiralLabel size p := by
  have hlab := ringsFrom_labelled size (size / 2) 0 (by omega)
  have hlt := ringsFrom_lt size (size / 2) 0 (by omega)
  have hlen := ringsFrom_length size (size / 2) 0 (by omega)
  simp only [Nat.mul_zero, Nat.zero_mul, Nat.zero_add] at hlab hlen
  rw [tagLayers_eq size (by omega) (size / 2) 0 (mem, 0) (by omega)]
  obtain ⟨s1, s2, _⟩ := writeSeq_spec (spiralLabel size) _ mem 0 hlab
    (fun p hp => by rw [hmem]; exact hlt p hp)
  refine ⟨by rw [s1, hmem], ?_⟩
  intro p hp
  have hb := (Labelled_mem _ _ _ hlab p hp).2
  have ht := ringTotal size
  have hsq : size * size ≤ 255 * 255 := Nat.mul_le_mul (by omega) (by omega)
  rw [s2 p hp, Nat.mod_eq_of_lt (by omega)]

/-- Every non-zero label below `size * size` is the spiral number of a ring square. -/
theorem ringsFrom_surj (size v : Nat) (hv1 : 1 ≤ v) (hv2 : v < size * size) :
    ∃ p, p ∈ ringsFrom size (size / 2) 0 ∧ spiralLabel size p = v := by
  have hlab := ringsFrom_labelled size (size / 2) 0 (by omega)
  have hlen := ringsFrom_length size (size / 2) 0 (by omega)
  simp only [Nat.mul_zero, Nat.zero_mul, Nat.zero_add] at hlab hlen
  have ht := ringTotal size
  exact Labelled_surj _ _ 0 hlab v (by omega) (by omega)

theorem tag_array_length (size : Nat) (h2 : size < 256) (mem : List Nat)
    (hmem : mem.length = size * size) :
    (npuzzle_init_tag_array mem size).length = size * size := by
  unfold npuzzle_init_tag_array
  rw [List.length_set, (tagLayers_spec size h2 mem hmem).1]

theorem tag_array_centre (size : Nat) (h1 : 1 ≤ size) (h2 : size < 256) (mem : List Nat)
    (hmem : mem.length = size * size) :
    load (npuzzle_init_tag_array mem size) ((size / 2) * size + (size - 1) / 2) = 0 := by
  unfold npuzzle_init_tag_array
  rw [load_set_self]
  rw [(tagLayers_spec size h2 mem hmem).1]
  exact centre_lt size h1

/-- The content of the tag array at a ring square other than the centre. -/
theorem tag_array_ring (size : Nat) (h2 : size < 256) (mem : List Nat)
    (hmem : mem.length = size * size) (p : Nat) (hp : p ∈ ringsFrom size (size / 2) 0)
    (hc : p ≠ (size / 2) * size + (size - 1) / 2) :
    load (npuzzle_init_tag_array mem size) p = spiralLabel size p := by
  unfold npuzzle_init_tag_array
  rw [load_set_ne _ _ _ _ (Ne.symm hc)]
  exact (tagLayers_spec size h2 mem hmem).2 p hp

/-- Every label below `size * size` occurs in the tag array. -/
theorem tag_array_surj (size : Nat) (h1 : 1 ≤ size) (h2 : size < 256) (mem : List Nat)
    (hmem : mem.length = size * size) (v : Nat) (hv : v < size * size) :
    ∃ sq, sq < size * size ∧ load (npuzzle_init_tag_array mem size) sq = v := by
  by_cases h0 : v = 0
  · exact ⟨_, centre_lt size h1, by rw [h0]; exact tag_array_centre size h1 h2 mem hmem⟩
  · obtain ⟨p, hp, hfp⟩ := ringsFrom_surj size v (by omega) hv
    have hne : p ≠ (size / 2) * size + (size - 1) / 2 := by
      intro h
      rw [h, spiralLabel_centre size h1] at hfp
      omega
    exact ⟨p, ringsFrom_lt size (size / 2) 0 (by omega) p hp,
      by rw [tag_array_ring size h2 mem hmem p hp hne, hfp]⟩

theorem tag_array_perm (size : Nat) (h1 : 1 ≤ size) (h2 : size < 256) (mem : List Nat)
    (hmem : mem.length = size * size) :
    (npuzzle_init_tag_array mem size).Perm (List.range (size * size)) := by
  have hlen := tag_array_length size h2 mem hmem
  have hsub : List.range (size * size) ⊆ npuzzle_init_tag_array mem size := by
    intro v hv
    obtain ⟨sq, hsq, hl⟩ := tag_array_surj size h1 h2 mem hmem v (List.mem_range.mp hv)
    rw [← hl]
    exact load_mem _ _ (by rw [hlen]; exact hsq)
  exact (((List.nodup_range _).subperm hsub).perm_of_length_le
    (by rw [hlen, List.length_range])).symm

theorem ringSquares_subset_ringsFrom (size : Nat) : ∀ (n L0 L : Nat), L0 ≤ L → L < L0 + n →
    ∀ p, p ∈ ringSquares size L → p ∈ ringsFrom size n L0 := by
  intro n
  induction n with
  | zero => intro L0 L h1 h2; omega
  | succ n ih =>
    intro L0 L h1 h2 p hp
    simp only [ringsFrom, List.mem_append]
    by_cases h : L = L0
    · left; rw [← h]; exact hp
    · right; exact ih (L0 + 1) L (by omega) (by omega) p hp

theorem top_mem_ring (size L i : Nat) (hi : i < size - 2 * L) :
    L * size + (L + i) ∈ ringSquares size L := by
  simp only [ringSquares, List.mem_append, List.mem_map, List.mem_range]
  exact Or.inl (Or.inl (Or.inl ⟨i, by omega, rfl⟩))

theorem right_mem_ring (size L i : Nat) (h1 : 1 ≤ i) (hi : i < size - 2 * L) :
    (L + i) * size + (size - 1 - L) ∈ ringSquares size L := by
  simp only [ringSquares, List.mem_append, List.mem_map, List.mem_range]
  refine Or.inl (Or.inl (Or.inr ⟨i - 1, by omega, ?_⟩))
  rw [show L + 1 + (i - 1) = L + i by omega, show size - L - 1 = size - 1 - L by omega]

theorem bottom_mem_ring (size L i : Nat) (h1 : 1 ≤ i) (hi : i < size - 2 * L) :
    (size - 1 - L) * size + (size - 1 - L - i) ∈ ringSquares size L := by
  simp only [ringSquares, List.mem_append, List.mem_map, List.mem_range]
  refine Or.inl (Or.inr ⟨i - 1, by omega, ?_⟩)
  rw [show size - L - 1 - 1 - (i - 1) = size - 1 - L - i by omega,
    show size - L - 1 = size - 1 - L by omega]

theorem left_mem_ring (size L i : Nat) (h1 : 1 ≤ i) (hi : i + 2 ≤ size - 2 * L) :
    (size - 1 - L - i) * size + L ∈ ringSquares size L := by
  simp only [ringSquares, List.mem_append, List.mem_map, List.mem_range]
  refine Or.inr ⟨i - 1, by omega, ?_⟩
  rw [show size - L - 1 - 1 - (i - 1) = size - 1 - L - i by omega]

/-- The content of the tag array at a square of ring `L` other than the centre. -/
theorem tag_array_ringSquare (size : Nat) (h2 : size < 256) (mem : List Nat)
    (hmem : mem.length = size * size) (L : Nat) (hL : L < size / 2) (p : Nat)
    (hp : p ∈ ringSquares size L) (hc : p ≠ (size / 2) * size + (size - 1) / 2) :
    load (npuzzle_init_tag_array mem size) p = spiralLabel size p :=
  tag_array_ring size h2 mem hmem p
    (ringSquares_subset_ringsFrom size (size / 2) 0 L (by omega) (by omega) p hp) hc

theorem tag_array_nodup (size : Nat) (h1 : 1 ≤ size) (h2 : size < 256) (mem : List Nat)
    (hmem : mem.length = size * size) : (npuzzle_init_tag_array mem size).Nodup :=
  (tag_array_perm size h1 h2 mem hmem).nodup_iff.mpr (List.nodup_range _)

theorem load_inj_of_nodup (a : List Nat) (hnd : a.Nodup) (i j : Nat) (hi : i < a.length)
    (hj : j < a.length) (h : load a i = load a j) : i = j := by
  simp only [load, List.getD_eq_getElem?_getD, List.getElem?_eq_getElem hi,
    List.getElem?_eq_getElem hj, Option.getD_some] at h
  exact (List.Nodup.getElem_inj_iff hnd).mp h

/-- Two squares of the board holding the same label are the same square. -/
theorem tag_array_inj (size : Nat) (h1 : 1 ≤ size) (h2 : size < 256) (mem : List Nat)
    (hmem : mem.length = size * size) (i j : Nat) (hi : i < size * size)
    (hj : j < size * size)
    (h : load (npuzzle_init_tag_array mem size) i = load (npuzzle_init_tag_array mem size) j) :
    i = j :=
  load_inj_of_nodup _ (tag_array_nodup size h1 h2 mem hmem) i j
    (by rw [tag_array_length size h2 mem hmem]; exact hi)
    (by rw [tag_array_length size h2 mem hmem]; exact hj) h

theorem tag_array_lt (size : Nat) (h1 : 1 ≤ size) (h2 : size < 256) (mem : List Nat)
    (hmem : mem.length = size * size) (sq : Nat) (hsq : sq < size * size) :
    load (npuzzle_init_tag_array mem size) sq < size * size := by
  have hm := load_mem (npuzzle_init_tag_array mem size) sq
    (by rw [tag_array_length size h2 mem hmem]; exact hsq)
  exact List.mem_range.mp ((tag_array_perm size h1 h2 mem hmem).subset hm)

/-- C1: for every side length `size` with `1 ≤ size < 256`, whatever the memory held
before, the array filled by `npuzzle_init_tag_array` has `size * size` entries and is a
bijection between the squares and the labels `0 .. size * size - 1`: it is a
rearrangement of these labels, every label occurs exactly once, no entry is
`≥ size * size`, two different squares hold different labels, and label `0` is at
square `(size / 2) * size + (size - 1) / 2`. -/
theorem tag_array_bijection (size : Nat) (h1 : 1 ≤ size) (h2 : size < 256) (mem : List Nat)
    (hmem : mem.length = size * size) :
    (npuzzle_init_tag_array mem size).length = size * size
      ∧ (npuzzle_init_tag_array mem size).Perm (List.range (size * size))
      ∧ (∀ v, v < size * size → (npuzzle_init_tag_array mem size).count v = 1)
      ∧ (∀ sq, sq < size * size → load (npuzzle_init_tag_array mem size) sq < size * size)
      ∧ (∀ sq1 sq2, sq1 < size * size → sq2 < size * size →
          load (npuzzle_init_tag_array mem size) sq1
            = load (npuzzle_init_tag_array mem size) sq2 → sq1 = sq2)
      ∧ load (npuzzle_init_tag_array mem size) ((size / 2) * size + (size - 1) / 2) = 0 := by
  have hperm := tag_array_perm size h1 h2 mem hmem
  refine ⟨tag_array_length size h2 mem hmem, hperm, ?_, tag_array_lt size h1 h2 mem hmem,
    tag_array_inj size h1 h2 mem hmem, tag_array_centre size h1 h2 mem hmem⟩
  intro v hv
  exact List.count_eq_one_of_mem (tag_array_nodup size h1 h2 mem hmem)
    (hperm.symm.subset (List.mem_range.mpr hv))

theorem tag_array_bijection_witness :
    (1 ≤ 3 ∧ 3 < 256 ∧ (List.replicate 9 0).length = 3 * 3)
      ∧ (npuzzle_init_tag_array (List.replicate 9 0) 3).Perm (List.range (3 * 3))
      ∧ load (npuzzle_init_tag_array (List.replicate 9 0) 3) ((3 / 2) * 3 + (3 - 1) / 2) = 0 :=
  have h := tag_array_bijection 3 (by decide) (by decide) (List.replicate 9 0) (by decide)
  ⟨by decide, h.2.1, h.2.2.2.2.2⟩

/-- C2: for every `size` with `1 ≤ size < 256`, whatever the memory held before,
`npuzzle_init_tag_array` produces the inward clockwise spiral: for every ring
`L < size / 2`, with `k = size - 2 * L` and `base = 4 * L * (size - L)`, the top edge
holds `base + 1 + i` at `L * size + L + i` (`0 ≤ i ≤ k - 1`), the right edge
`base + k + i` at `(L + i) * size + (size - 1 - L)` (`1 ≤ i ≤ k - 1`), the bottom edge
`base + 2 * k - 1 + i` at `(size - 1 - L) * size + (size - 1 - L - i)` (`1 ≤ i ≤ k - 1`),
the left edge `base + 3 * k - 2 + i` at `(size - 1 - L - i) * size + L`
(`1 ≤ i ≤ k - 2`), except that the centre square `(size / 2) * size + (size - 1) / 2`
holds `0`; for `size = 1` the array is `[0]`, for `size = 3` it is
`[1,2,3, 8,0,4, 7,6,5]` and for `size = 4` it is
`[1,2,3,4, 12,13,14,5, 11,0,15,6, 10,9,8,7]`. -/
theorem tag_array_spiral (size : Nat) (h1 : 1 ≤ size) (h2 : size < 256) (mem : List Nat)
    (hmem : mem.length = size * size) :
    (∀ L, L < size / 2 →
      (∀ i, i ≤ size - 2 * L - 1 →
        L * size + (L + i) ≠ (size / 2) * size + (size - 1) / 2 →
        load (npuzzle_init_tag_array mem size) (L * size + (L + i))
          = 4 * L * (size - L) + 1 + i)
      ∧ (∀ i, 1 ≤ i → i ≤ size - 2 * L - 1 →
        (L + i) * size + (size - 1 - L) ≠ (size / 2) * size + (size - 1) / 2 →
        load (npuzzle_init_tag_array mem size) ((L + i) * size + (size - 1 - L))
          = 4 * L * (size - L) + (size - 2 * L) + i)
      ∧ (∀ i, 1 ≤ i → i ≤ size - 2 * L - 1 →
        (size - 1 - L) * size + (size - 1 - L - i) ≠ (size / 2) * size + (size - 1) / 2 →
        load (npuzzle_init_tag_array mem size) ((size - 1 - L) * size + (size - 1 - L - i))
          = 4 * L * (size - L) + 2 * (size - 2 * L) - 1 + i)
      ∧ (∀ i, 1 ≤ i → i ≤ size - 2 * L - 2 →
        (size - 1 - L - i) * size + L ≠ (size / 2) * size + (size - 1) / 2 →
        load (npuzzle_init_tag_array mem size) ((size - 1 - L - i) * size + L)
          = 4 * L * (size - L) + 3 * (size - 2 * L) - 2 + i))
    ∧ load (npuzzle_init_tag_array mem size) ((size / 2) * size + (size - 1) / 2) = 0
    ∧ (size = 1 → npuzzle_init_tag_array mem size = [0])
    ∧ (size = 3 → npuzzle_init_tag_array mem size = [1, 2, 3, 8, 0, 4, 7, 6, 5])
    ∧ (size = 4 → npuzzle_init_tag_array mem size
        = [1, 2, 3, 4, 12, 13, 14, 5, 11, 0, 15, 6, 10, 9, 8, 7]) := by
  refine ⟨?_, tag_array_centre size h1 h2 mem hmem, ?_, ?_, ?_⟩
  · intro L hL
    refine ⟨?_, ?_, ?_, ?_⟩
    · intro i hi hc
      rw [tag_array_ringSquare size h2 mem hmem L hL _ (top_mem_ring size L i (by omega)) hc,
        spiralLabel_top size L i hL (by omega)]
    · intro i hi1 hi hc
      rw [tag_array_ringSquare size h2 mem hmem L hL _
        (right_mem_ring size L i hi1 (by omega)) hc,
        spiralLabel_right size L i hL hi1 (by omega)]
    · intro i hi1 hi hc
      rw [tag_array_ringSquare size h2 mem hmem L hL _
        (bottom_mem_ring size L i hi1 (by omega)) hc,
        spiralLabel_bottom size L i hL hi1 (by omega)]
    · intro i hi1 hi hc
      rw [tag_array_ringSquare size h2 mem hmem L hL _
        (left_mem_ring size L i hi1 (by omega)) hc,
        spiralLabel_left size L i hL hi1 (by omega)]
  · intro hs
    subst hs
    match mem, hmem with
    | [a], _ => simp [npuzzle_init_tag_array, tagLayers]
  · intro hs
    subst hs
    match mem, hmem with
    | [_, _, _, _, _, _, _, _, _], _ =>
      simp [npuzzle_init_tag_array, tagLayers, tagTop, tagRight, tagBottom, tagLeft]
  · intro hs
    subst hs
    match mem, hmem with
    | [_, _, _, _, _, _, _, _, _, _, _, _, _, _, _, _], _ =>
      simp [npuzzle_init_tag_array, tagLayers, tagTop, tagRight, tagBottom, tagLeft]

theorem tag_array_spiral_witness :
    (1 ≤ 4 ∧ 4 < 256 ∧ (List.replicate 16 9).length = 4 * 4)
      ∧ npuzzle_init_tag_array (List.replicate 16 9) 4
        = [1, 2, 3, 4, 12, 13, 14, 5, 11, 0, 15, 6, 10, 9, 8, 7] :=
  ⟨by decide,
    (tag_array_spiral 4 (by decide) (by decide) (List.replicate 16 9) (by decide)).2.2.2.2 rfl⟩

/-! ## The translation step of the loader -/

theorem translateScan_spec (size : Nat) (tag : List Nat) (sq : Nat) (board : List Nat) :
    ∀ (n asq : Nat), size * size - asq = n →
      (∃ a, asq ≤ a ∧ a < size * size ∧ load tag a = load board sq) →
      ∃ a, a < size * size ∧ load tag a = load board sq
        ∧ translateScan size tag sq asq board = board.set sq (a % 65536) := by
  intro n
  induction n with
  | zero =>
    intro asq h ⟨a, ha1, ha2, _⟩
    omega
  | succ n ih =>
    intro asq h ⟨a, ha1, ha2, ha3⟩
    rw [translateScan, if_pos (by omega)]
    by_cases hm : load board sq = load tag asq
    · rw [if_pos hm]
      exact ⟨asq, by omega, hm.symm, rfl⟩
    · rw [if_neg hm]
      have hne : asq ≠ a := by
        intro e
        rw [e] at hm
        exact hm ha3.symm
      exact ih (asq + 1) (by omega) ⟨a, by omega, ha2, ha3⟩

theorem translateLoop_spec (size : Nat) (hs : size < 256) (tag : List Nat)
    (hsurj : ∀ v, v < size * size → ∃ a, a < size * size ∧ load tag a = v) :
    ∀ (n sq : Nat) (board : List Nat), size * size - sq = n →
      board.length = size * size →
      (∀ s, sq ≤ s → s < size * size → load board s < size * size) →
      (translateLoop size tag sq board).length = size * size
        ∧ (∀ s, s < sq → load (translateLoop size tag sq board) s = load board s)
        ∧ (∀ s, sq ≤ s → s < size * size →
            load (translateLoop size tag sq board) s < size * size
              ∧ load tag (load (translateLoop size tag sq board) s) = load board s) := by
  have hsq : size * size ≤ 255 * 255 := Nat.mul_le_mul (by omega) (by omega)
  intro n
  induction n with
  | zero =>
    intro sq board h hlen _
    rw [translateLoop, if_neg (by omega)]
    exact ⟨hlen, fun _ _ => rfl, fun s h1 h2 => by omega⟩
  | succ n ih =>
    intro sq board h hlen hb
    rw [translateLoop, if_pos (by omega)]
    obtain ⟨a, ha1, ha2, ha3⟩ := translateScan_spec size tag sq board _ 0 rfl
      (by
        obtain ⟨a, ha1, ha2⟩ := hsurj (load board sq) (hb sq (Nat.le_refl _) (by omega))
        exact ⟨a, Nat.zero_le _, ha1, ha2⟩)
    rw [ha3, Nat.mod_eq_of_lt (by omega)]
    obtain ⟨i1, i2, i3⟩ := ih (sq + 1) (board.set sq a) (by omega)
      (by rw [List.length_set]; exact hlen)
      (fun s h1 h2 => by rw [load_set_ne _ _ _ _ (by omega)]; exact hb s (by omega) h2)
    refine ⟨i1, ?_, ?_⟩
    · intro s hs1
      rw [i2 s (by omega), load_set_ne _ _ _ _ (by omega)]
    · intro s hs1 hs2
      by_cases e : s = sq
      · subst e
        rw [i2 s (by omega), load_set_self _ _ _ (by omega)]
        exact ⟨ha1, ha2⟩
      · have := i3 s (by omega) hs2
        rw [load_set_ne _ _ _ _ (Ne.symm e)] at this
        exact this

theorem eq_range_of_load (a : List Nat) (n : Nat) (hlen : a.length = n)
    (h : ∀ i, i < n → load a i = i) : a = List.range n := by
  apply List.ext_getElem
  · rw [hlen, List.length_range]
  · intro i h1 h2
    have := h i (by omega)
    simp only [load, List.getD_eq_getElem?_getD, List.getElem?_eq_getElem h1,
      Option.getD_some] at this
    rw [this, List.getElem_range]

theorem load_range (n i : Nat) (h : i < n) : load (List.range n) i = i := by
  simp [load, List.getD_eq_getElem?_getD, List.getElem?_range h]

theorem solvedFrom_identity (np : NPuzzle)
    (h : ∀ sq, sq < np.size * np.size → load np.board sq = sq) :
    ∀ (n sq : Nat), np.size * np.size - sq = n → solvedFrom np sq = true := by
  intro n
  induction n with
  | zero =>
    intro sq hn
    rw [solvedFrom, if_neg (by omega)]
  | succ n ih =>
    intro sq hn
    rw [solvedFrom, if_pos (by omega), if_neg (by simp [h sq (by omega)])]
    exact ih (sq + 1) (by omega)

/-- C3: load round trip. For every `size` with `1 ≤ size < 256` and every raw board
that is a permutation of `0 .. size * size - 1`, the translation step of `npuzzle_init`
yields a board whose entries are squares and such that the tag array, read at the
entry of square `sq`, is the raw label that stood at `sq`; the raw board equal to the
tag array itself is translated to the identity board, and `npuzzle_solved` returns 1 on
every state of that size with that board. -/
theorem load_round_trip (size : Nat) (h1 : 1 ≤ size) (h2 : size < 256) (mem : List Nat)
    (hmem : mem.length = size * size) (raw : List Nat)
    (hraw : raw.Perm (List.range (size * size))) :
    (∀ sq, sq < size * size →
        load (npuzzle_init_translate raw size mem) sq < size * size
          ∧ load (npuzzle_init_tag_array mem size) (load (npuzzle_init_translate raw size mem) sq)
            = load raw sq)
      ∧ npuzzle_init_translate (npuzzle_init_tag_array mem size) size mem
          = List.range (size * size)
      ∧ (∀ np : NPuzzle, np.size = size →
          np.board = npuzzle_init_translate (npuzzle_init_tag_array mem size) size mem →
          npuzzle_solved np = true) := by
  have hsurj := tag_array_surj size h1 h2 mem hmem
  have hid : npuzzle_init_translate (npuzzle_init_tag_array mem size) size mem
      = List.range (size * size) := by
    obtain ⟨i1, _, i3⟩ := translateLoop_spec size h2 (npuzzle_init_tag_array mem size) hsurj
      _ 0 (npuzzle_init_tag_array mem size) rfl (tag_array_length size h2 mem hmem)
      (fun s _ hs => tag_array_lt size h1 h2 mem hmem s hs)
    apply eq_range_of_load _ _ i1
    intro i hi
    obtain ⟨j1, j2⟩ := i3 i (Nat.zero_le _) hi
    exact tag_array_inj size h1 h2 mem hmem _ _ j1 hi j2
  refine ⟨?_, hid, ?_⟩
  · have hlen : raw.length = size * size := by rw [hraw.length_eq, List.length_range]
    obtain ⟨_, _, i3⟩ := translateLoop_spec size h2 (npuzzle_init_tag_array mem size) hsurj
      _ 0 raw rfl hlen
      (fun s _ hs => List.mem_range.mp (hraw.subset (load_mem raw s (by rw [hlen]; exact hs))))
    intro sq hsq
    exact i3 sq (Nat.zero_le _) hsq
  · intro np hsize hboard
    apply solvedFrom_identity np _ _ 0 rfl
    intro sq hsq
    rw [hboard, hid, load_range _ _ (by rw [← hsize]; exact hsq)]

theorem load_round_trip_witness :
    (1 ≤ 2 ∧ 2 < 256 ∧ [7, 7, 7, 7].length = 2 * 2 ∧ [3, 1, 0, 2].Perm (List.range (2 * 2)))
      ∧ (∀ sq, sq < 2 * 2 →
          load (npuzzle_init_translate [3, 1, 0, 2] 2 [7, 7, 7, 7]) sq < 2 * 2
            ∧ load (npuzzle_init_tag_array [7, 7, 7, 7] 2)
                (load (npuzzle_init_translate [3, 1, 0, 2] 2 [7, 7, 7, 7]) sq)
              = load [3, 1, 0, 2] sq) :=
  ⟨by decide,
    (load_round_trip 2 (by decide) (by decide) [7, 7, 7, 7] (by decide) [3, 1, 0, 2]
      (by decide)).1⟩

/-! ## The solvability classifier -/

theorem inversionsInner_eq (np : NPuzzle) (sq1 : Nat) (h1 : sq1 ≠ np.holeIdx) :
    ∀ (n sq2 acc : Nat), np.size * np.size - sq2 = n → sq1 < sq2 →
      inversionsInner np sq1 sq2 acc
        = acc + ∑ b ∈ Finset.Ico sq2 (np.size * np.size), inversionAt np sq1 b := by
  intro n
  induction n with
  | zero =>
    intro sq2 acc h hlt
    rw [inversionsInner, if_neg (by omega), Finset.Ico_eq_empty (by omega)]
    simp
  | succ n ih =>
    intro sq2 acc h hlt
    have hsplit := @Finset.sum_eq_sum_Ico_succ_bot Nat _ sq2 (np.size * np.size) (by omega)
      (fun b => inversionAt np sq1 b)
    rw [inversionsInner, if_pos (by omega), ih (sq2 + 1) _ (by omega) (by omega), hsplit]
    have e : (if sq2 ≠ np.holeIdx then
          acc + (if load np.board sq1 > load np.board sq2 then 1 else 0) else acc)
        = acc + inversionAt np sq1 sq2 := by
      unfold inversionAt
      by_cases hh : sq2 = np.holeIdx
      · simp [hh]
      · by_cases hg : load np.board sq1 > load np.board sq2
        · simp [hh, hg, hlt, h1]
        · simp [hh, hg]
    rw [e]
    omega

theorem inversionsOuter_eq (np : NPuzzle) :
    ∀ (n sq1 acc : Nat), np.size * np.size - sq1 = n →
      inversionsOuter np sq1 acc
        = acc + ∑ a ∈ Finset.Ico sq1 (np.size * np.size),
            ∑ b ∈ Finset.Ico (a + 1) (np.size * np.size), inversionAt np a b := by
  intro n
  induction n with
  | zero =>
    intro sq1 acc h
    rw [inversionsOuter, if_neg (by omega), Finset.Ico_eq_empty (by omega)]
    simp
  | succ n ih =>
    intro sq1 acc h
    have hsplit := @Finset.sum_eq_sum_Ico_succ_bot Nat _ sq1 (np.size * np.size) (by omega)
      (fun a => ∑ b ∈ Finset.Ico (a + 1) (np.size * np.size), inversionAt np a b)
    rw [inversionsOuter, if_pos (by omega), hsplit]
    by_cases hh : sq1 = np.holeIdx
    · rw [if_pos hh, ih (sq1 + 1) _ (by omega)]
      have z : ∑ b ∈ Finset.Ico (sq1 + 1) (np.size * np.size), inversionAt np sq1 b = 0 := by
        apply Finset.sum_eq_zero
        intro b _
        simp [inversionAt, hh]
      rw [z]
      omega
    · rw [if_neg hh, ih (sq1 + 1) _ (by omega),
        inversionsInner_eq np sq1 hh _ (sq1 + 1) acc rfl (by omega)]
      omega

theorem inversionCount_eq_sum (np : NPuzzle) :
    inversionCount np
      = ∑ a ∈ Finset.Ico 0 (np.size * np.size),
          ∑ b ∈ Finset.Ico (a + 1) (np.size * np.size), inversionAt np a b := by
  unfold inversionCount
  rw [Finset.card_filter, Finset.sum_product, Finset.range_eq_Ico]
  apply Finset.sum_congr rfl
  intro a ha
  have ha2 : a < np.size * np.size := (Finset.mem_Ico.mp ha).2
  rw [← Finset.sum_Ico_consecutive _ (Nat.zero_le (a + 1)) (by omega : a + 1 ≤ np.size * np.size)]
  have z : ∑ b ∈ Finset.Ico 0 (a + 1),
      (if a < b ∧ a ≠ np.holeIdx ∧ b ≠ np.holeIdx ∧ load np.board a > load np.board b
        then 1 else 0) = 0 := by
    apply Finset.sum_eq_zero
    intro b hb
    have : ¬ a < b := by have := (Finset.mem_Ico.mp hb).2; omega
    simp [this]
  rw [z, Nat.zero_add]
  rfl

/-- The two loops of `npuzzle_is_solvable` count the inversions of the spec. -/
theorem inversionsOuter_count (np : NPuzzle) : inversionsOuter np 0 0 = inversionCount np := by
  rw [inversionsOuter_eq np _ 0 0 rfl, inversionCount_eq_sum, Nat.zero_add]

theorem and_two_ne_zero (n : Nat) : n &&& 2 ≠ 0 ↔ (n % 4 = 2 ∨ n % 4 = 3) := by
  have h := Nat.and_two_pow n 1
  simp only [pow_one] at h
  rw [h, Nat.testBit_to_div_mod]
  simp only [pow_one]
  by_cases h2 : n / 2 % 2 = 1
  · simp [h2]; omega
  · simp [h2]; omega

/-- C4: for every state (of a size `1 ≤ size < 256`), `npuzzle_is_solvable` is the
parity rule of the spec, with `inversionCount` the number of pairs of squares
`sq1 < sq2`, both different from `holeIdx`, with `board[sq1] > board[sq2]`: for odd
`size` the result is true iff that number is even; for even `size` it is true iff
`(holeIdx / size + parityBit + inversions) mod 2 = 0`, where `parityBit` is 1 when
`size mod 4` is 2 or 3 and 0 otherwise. -/
theorem is_solvable_parity_rule (np : NPuzzle) (_h1 : 1 ≤ np.size) (_h2 : np.size < 256) :
    (np.size % 2 = 1 → (npuzzle_is_solvable np = true ↔ inversionCount np % 2 = 0))
      ∧ (np.size % 2 = 0 →
          (npuzzle_is_solvable np = true ↔
            (np.holeIdx / np.size + parityBit np.size + inversionCount np) % 2 = 0)) := by
  unfold npuzzle_is_solvable
  simp only [inversionsOuter_count, Nat.and_one_is_mod]
  constructor
  · intro hodd
    rw [if_pos (by omega)]
    simp only [Bool.not_eq_true', decide_eq_false_iff_not, ne_eq, not_not]
  · intro heven
    rw [if_neg (by omega)]
    simp only [decide_eq_true_eq, parityBit]
    by_cases hp : np.size &&& 2 ≠ 0
    · rw [if_pos hp, if_pos ((and_two_ne_zero _).mp hp)]
      omega
    · rw [if_neg hp, if_neg (fun h => hp ((and_two_ne_zero _).mpr h))]
      omega

theorem is_solvable_parity_rule_witness :
    (1 ≤ (goalState 4).size ∧ (goalState 4).size < 256)
      ∧ (npuzzle_is_solvable (goalState 4) = true ↔
          ((goalState 4).holeIdx / (goalState 4).size + parityBit (goalState 4).size
            + inversionCount (goalState 4)) % 2 = 0) :=
  ⟨by decide,
    (is_solvable_parity_rule (goalState 4) (by decide) (by decide)).2 (by decide)⟩

theorem inversionsOuter_identity (np : NPuzzle)
    (hb : ∀ sq, sq < np.size * np.size → load np.board sq = sq) :
    inversionsOuter np 0 0 = 0 := by
  rw [inversionsOuter_eq np _ 0 0 rfl, Nat.zero_add]
  apply Finset.sum_eq_zero
  intro a ha
  apply Finset.sum_eq_zero
  intro b hb2
  have h1 := (Finset.mem_Ico.mp ha).2
  have h2 := Finset.mem_Ico.mp hb2
  unfold inversionAt
  rw [hb a h1, hb b h2.2, if_neg (by omega)]

/-- C5: for every `size` with `1 ≤ size < 256`, `npuzzle_is_solvable` returns true on
the canonical goal state, the state with `board[sq] = sq` for every square and
`holeIdx = (size / 2) * size + (size - 1) / 2` (the state `npuzzle_init_rand` starts
from and `npuzzle_solved` accepts). -/
theorem is_solvable_goal (size : Nat) (h1 : 1 ≤ size) (_h2 : size < 256) (np : NPuzzle)
    (hsize : np.size = size)
    (hboard : ∀ sq, sq < size * size → load np.board sq = sq)
    (hhole : np.holeIdx = (size / 2) * size + (size - 1) / 2) :
    npuzzle_is_solvable np = true := by
  unfold npuzzle_is_solvable
  rw [inversionsOuter_identity np (by rw [hsize]; exact hboard)]
  simp only [Nat.and_one_is_mod]
  by_cases hodd : np.size % 2 ≠ 0
  · rw [if_pos hodd]
    simp
  · rw [if_neg hodd, hhole, hsize, square_div size _ _ (by omega)]
    simp only [decide_eq_true_eq]
    rw [hsize] at hodd
    by_cases hp : size &&& 2 ≠ 0
    · rw [if_pos hp]
      have := (and_two_ne_zero _).mp hp
      omega
    · rw [if_neg hp]
      have h4 : ¬ (size % 4 = 2 ∨ size % 4 = 3) := fun h => hp ((and_two_ne_zero _).mpr h)
      have h5 : size % 2 = 0 := by omega
      omega

theorem is_solvable_goal_witness :
    (1 ≤ 4 ∧ 4 < 256) ∧ npuzzle_is_solvable (goalState 4) = true :=
  ⟨by decide,
    is_solvable_goal 4 (by decide) (by decide) (goalState 4) rfl (by decide) rfl⟩

/-! ## The move applicator -/

theorem load_eq_getElem? (a : List Nat) (i : Nat) : load a i = (a[i]?).getD 0 := by
  simp [load, List.getD_eq_getElem?_getD]

/-- What `npuzzle_apply` does to the board and the hole depends on these two only. -/
theorem apply_board_congr (mz : Nat → Nat → Nat → Nat) (a b : NPuzzle) (t : Nat)
    (hb : a.board = b.board) (hh : a.holeIdx = b.holeIdx) :
    (npuzzle_apply mz a t).board = (npuzzle_apply mz b t).board
      ∧ (npuzzle_apply mz a t).holeIdx = (npuzzle_apply mz b t).holeIdx := by
  simp [npuzzle_apply, hb, hh]

theorem apply_zobrist_congr (mz : Nat → Nat → Nat → Nat) (a b : NPuzzle) (t : Nat)
    (hb : a.board = b.board) (hh : a.holeIdx = b.holeIdx) (hz : a.zobrist = b.zobrist) :
    (npuzzle_apply mz a t).zobrist = (npuzzle_apply mz b t).zobrist := by
  simp [npuzzle_apply, hb, hh, hz]

/-- Moving the piece of square `t` into the hole and moving it back restores the board
and the hole. -/
theorem apply_undo_board (mz : Nat → Nat → Nat → Nat) (np : NPuzzle) (t : Nat)
    (hh : np.holeIdx < np.board.length) (ht : t < np.board.length) :
    (npuzzle_apply mz (npuzzle_apply mz np t) np.holeIdx).board = np.board
      ∧ (npuzzle_apply mz (npuzzle_apply mz np t) np.holeIdx).holeIdx = np.holeIdx := by
  refine ⟨?_, rfl⟩
  simp only [npuzzle_apply]
  apply List.ext_getElem?
  intro i
  simp only [load_eq_getElem?, List.getElem?_set, List.length_set]
  by_cases h1 : np.holeIdx = i
  · subst h1
    simp [hh, ht]
  · by_cases h2 : t = i
    · subst h2
      simp [hh, ht, h1]
      by_cases h3 : t = np.holeIdx
      · exact absurd h3.symm h1
      · simp [h3]
    · simp [h1, h2]

/-- The piece that the second of the two moves carries is the piece of the first. -/
theorem apply_undo_zobrist (mz : Nat → Nat → Nat → Nat) (np : NPuzzle) (t : Nat)
    (hh : np.holeIdx < np.board.length) (ht : t < np.board.length) :
    (npuzzle_apply mz (npuzzle_apply mz np t) np.holeIdx).zobrist
      = np.zobrist ^^^ mz (load np.board t) t np.holeIdx
          ^^^ mz (load np.board t) np.holeIdx t := by
  simp only [npuzzle_apply]
  congr 2
  simp only [load_eq_getElem?, List.getElem?_set, List.length_set]
  by_cases h3 : t = np.holeIdx
  · simp [h3, hh]
  · simp [h3, hh, ht]

theorem apply_length (mz : Nat → Nat → Nat → Nat) (np : NPuzzle) (t : Nat) :
    (npuzzle_apply mz np t).board.length = np.board.length := by
  simp [npuzzle_apply]

theorem applyMoves_append (mz : Nat → Nat → Nat → Nat) (np : NPuzzle) (ts us : List Nat) :
    applyMoves mz np (ts ++ us) = applyMoves mz (applyMoves mz np ts) us := by
  simp [applyMoves, List.foldl_append]

theorem reverseMoves_cons (h t : Nat) (ts : List Nat) :
    reverseMoves h (t :: ts) = reverseMoves t ts ++ [h] := by
  simp [reverseMoves, List.dropLast]

/-- A sequence of legal moves followed by its exact reverse restores the board and the
hole, and the fingerprint as well when `mz` does not depend on the direction of the
move. -/
theorem applyMoves_undo (mz : Nat → Nat → Nat → Nat) : ∀ (ts : List Nat) (np : NPuzzle),
    np.board.length = np.size * np.size → np.holeIdx < np.size * np.size →
    legalMoves np.size np.holeIdx ts →
    (applyMoves mz (applyMoves mz np ts) (reverseMoves np.holeIdx ts)).board = np.board
      ∧ (applyMoves mz (applyMoves mz np ts) (reverseMoves np.holeIdx ts)).holeIdx
          = np.holeIdx
      ∧ ((∀ p a b, mz p a b = mz p b a) →
          (applyMoves mz (applyMoves mz np ts) (reverseMoves np.holeIdx ts)).zobrist
            = np.zobrist) := by
  intro ts
  induction ts with
  | nil =>
    intro np _ _ _
    simp [applyMoves, reverseMoves]
  | cons t ts ih =>
    intro np hlen hh hl
    obtain ⟨ht, _, hl2⟩ := hl
    have hsize : (npuzzle_apply mz np t).size = np.size := rfl
    have hhole : (npuzzle_apply mz np t).holeIdx = t := rfl
    obtain ⟨i1, i2, i3⟩ := ih (npuzzle_apply mz np t)
      (by rw [apply_length, hsize]; exact hlen) (by rw [hhole, hsize]; exact ht)
      (by rw [hhole, hsize]; exact hl2)
    rw [hhole] at i1 i2 i3
    have e : applyMoves mz (applyMoves mz np (t :: ts)) (reverseMoves np.holeIdx (t :: ts))
        = npuzzle_apply mz
            (applyMoves mz (applyMoves mz (npuzzle_apply mz np t) ts) (reverseMoves t ts))
            np.holeIdx := by
      rw [reverseMoves_cons, applyMoves_append]
      rfl
    rw [e]
    have u := apply_undo_board mz np t (by rw [hlen]; exact hh) (by rw [hlen]; exact ht)
    have c := apply_board_congr mz _ (npuzzle_apply mz np t) np.holeIdx i1 (i2.trans hhole.symm)
    refine ⟨by rw [c.1, u.1], by rw [c.2, u.2], ?_⟩
    intro hsym
    rw [apply_zobrist_congr mz _ (npuzzle_apply mz np t) np.holeIdx i1 (i2.trans hhole.symm)
      (i3 hsym), apply_undo_zobrist mz np t (by rw [hlen]; exact hh) (by rw [hlen]; exact ht),
      hsym (load np.board t) np.holeIdx t, Nat.xor_assoc, Nat.xor_self, Nat.xor_zero]

/-- C6: for every state whose `holeIdx` is in range and every sequence of legal moves
(each target square in range and orthogonally adjacent to the current hole), applying
the sequence with `npuzzle_apply` and then the exact reverse sequence (each move undone
by `npuzzle_apply` on the square the hole came from) returns `board` and `holeIdx` to
their original values, whatever `move_zobrist` computes. -/
theorem apply_reverse_restores_board (mz : Nat → Nat → Nat → Nat) (np : NPuzzle)
    (targets : List Nat) (hlen : np.board.length = np.size * np.size)
    (hhole : np.holeIdx < np.size * np.size)
    (hlegal : legalMoves np.size np.holeIdx targets) :
    (applyMoves mz (applyMoves mz np targets) (reverseMoves np.holeIdx targets)).board
        = np.board
      ∧ (applyMoves mz (applyMoves mz np targets) (reverseMoves np.holeIdx targets)).holeIdx
        = np.holeIdx :=
  ⟨(applyMoves_undo mz targets np hlen hhole hlegal).1,
    (applyMoves_undo mz targets np hlen hhole hlegal).2.1⟩

theorem apply_reverse_restores_board_witness :
    ((goalState 3).board.length = (goalState 3).size * (goalState 3).size
        ∧ (goalState 3).holeIdx < (goalState 3).size * (goalState 3).size
        ∧ legalMoves (goalState 3).size (goalState 3).holeIdx [1, 0, 3])
      ∧ (applyMoves (fun p a b => p + a + b)
            (applyMoves (fun p a b => p + a + b) (goalState 3) [1, 0, 3])
            (reverseMoves (goalState 3).holeIdx [1, 0, 3])).board = (goalState 3).board :=
  have hl : legalMoves (goalState 3).size (goalState 3).holeIdx [1, 0, 3] := by
    simp [legalMoves, adjacent, goalState]
  ⟨⟨by decide, by decide, hl⟩,
    (apply_reverse_restores_board (fun p a b => p + a + b) (goalState 3) [1, 0, 3]
      (by decide) (by decide) hl).1⟩

theorem move_zobrist_symm (key : Nat → Nat → Nat) (p a b : Nat) :
    move_zobrist key p a b = move_zobrist key p b a := by
  unfold move_zobrist
  exact Nat.xor_comm _ _

/-- C7: for every state (board of `size * size` entries, hole in range) and every
sequence of legal adjacent moves, applying the sequence with `npuzzle_apply` and then
its exact reverse sequence returns the zobrist fingerprint to its original value, for
the Zobrist-style `move_zobrist` of the spec; `npuzzle_apply(t)` followed by
`npuzzle_apply(previous hole square h)` XORs `move_zobrist(piece, t, h)` and
`move_zobrist(piece, h, t)` into the fingerprint (for any `move_zobrist`), and these two
values cancel. -/
theorem apply_reverse_restores_zobrist (key : Nat → Nat → Nat) (np : NPuzzle)
    (targets : List Nat) (hlen : np.board.length = np.size * np.size)
    (hhole : np.holeIdx < np.size * np.size)
    (hlegal : legalMoves np.size np.holeIdx targets) :
    (applyMoves (move_zobrist key) (applyMoves (move_zobrist key) np targets)
        (reverseMoves np.holeIdx targets)).zobrist = np.zobrist
      ∧ (∀ (mz : Nat → Nat → Nat → Nat) (t : Nat), t < np.size * np.size →
          (npuzzle_apply mz (npuzzle_apply mz np t) np.holeIdx).zobrist
            = np.zobrist ^^^ mz (load np.board t) t np.holeIdx
                ^^^ mz (load np.board t) np.holeIdx t)
      ∧ (∀ piece t h, move_zobrist key piece t h ^^^ move_zobrist key piece h t = 0) := by
  refine ⟨(applyMoves_undo (move_zobrist key) targets np hlen hhole hlegal).2.2
    (move_zobrist_symm key), ?_, ?_⟩
  · intro mz t ht
    exact apply_undo_zobrist mz np t (by rw [hlen]; exact hhole) (by rw [hlen]; exact ht)
  · intro piece t h
    rw [move_zobrist_symm key piece h t, Nat.xor_self]

theorem apply_reverse_restores_zobrist_witness :
    ((goalState 3).board.length = (goalState 3).size * (goalState 3).size
        ∧ (goalState 3).holeIdx < (goalState 3).size * (goalState 3).size
        ∧ legalMoves (goalState 3).size (goalState 3).holeIdx [5, 8, 7])
      ∧ (applyMoves (move_zobrist (fun p s => 1000 * p + s))
            (applyMoves (move_zobrist (fun p s => 1000 * p + s)) (goalState 3) [5, 8, 7])
            (reverseMoves (goalState 3).holeIdx [5, 8, 7])).zobrist = (goalState 3).zobrist :=
  have hl : legalMoves (goalState 3).size (goalState 3).holeIdx [5, 8, 7] := by
    simp [legalMoves, adjacent, goalState]
  ⟨⟨by decide, by decide, hl⟩,
    (apply_reverse_restores_zobrist (fun p s => 1000 * p + s) (goalState 3) [5, 8, 7]
      (by decide) (by decide) hl).1⟩

/-! ## The state comparator -/

theorem load_cons_zero (a : Nat) (as : List Nat) : load (a :: as) 0 = a := rfl

theorem load_cons_succ (a : Nat) (as : List Nat) (i : Nat) :
    load (a :: as) (i + 1) = load as i := rfl

theorem lexLt_iff (k : Nat → Nat) : ∀ (as bs : List Nat), as.length = bs.length →
    (lexLt k as bs ↔ ∃ sq, sq < as.length
      ∧ (∀ s, s < sq → k (load as s) = k (load bs s)) ∧ k (load as sq) < k (load bs sq)) := by
  intro as
  induction as with
  | nil =>
    intro bs _
    simp [lexLt]
  | cons a as ih =>
    intro bs hlen
    cases bs with
    | nil => simp at hlen
    | cons b bs =>
      have hlen2 : as.length = bs.length := by simpa using hlen
      simp only [lexLt, ih bs hlen2, List.length_cons]
      constructor
      · rintro (h | ⟨h, sq, h1, h2, h3⟩)
        · exact ⟨0, by omega, fun s hs => by omega, h⟩
        · refine ⟨sq + 1, by omega, ?_, h3⟩
          intro s hs
          cases s with
          | zero => exact h
          | succ s => exact h2 s (by omega)
      · rintro ⟨sq, h1, h2, h3⟩
        cases sq with
        | zero => exact Or.inl h3
        | succ sq =>
          exact Or.inr ⟨h2 0 (by omega), sq, by omega,
            fun s hs => h2 (s + 1) (by omega), h3⟩

theorem ft_memcmp_cons (bigEndian : Bool) (a b : Nat) (as bs : List Nat) (n : Nat) :
    (memKey bigEndian a = memKey bigEndian b →
        ft_memcmp (boardBytes bigEndian (a :: as)) (boardBytes bigEndian (b :: bs))
            (2 * (n + 1))
          = ft_memcmp (boardBytes bigEndian as) (boardBytes bigEndian bs) (2 * n))
      ∧ (memKey bigEndian a < memKey bigEndian b →
        ft_memcmp (boardBytes bigEndian (a :: as)) (boardBytes bigEndian (b :: bs))
            (2 * (n + 1)) < 0)
      ∧ (memKey bigEndian b < memKey bigEndian a →
        0 < ft_memcmp (boardBytes bigEndian (a :: as)) (boardBytes bigEndian (b :: bs))
            (2 * (n + 1))) := by
  have e : 2 * (n + 1) = 2 * n + 1 + 1 := by omega
  rw [e]
  cases bigEndian
  · simp only [boardBytes, bytes16, memKey, Bool.false_eq_true, if_false, List.cons_append,
      List.nil_append, ft_memcmp]
    refine ⟨?_, ?_, ?_⟩
    · intro h
      rw [if_neg (by omega), if_neg (by omega)]
      rfl
    · intro h
      by_cases h1 : a % 256 = b % 256
      · rw [if_neg (by omega), if_pos (by omega)]; omega
      · rw [if_pos h1]; omega
    · intro h
      by_cases h1 : a % 256 = b % 256
      · rw [if_neg (by omega), if_pos (by omega)]; omega
      · rw [if_pos h1]; omega
  · simp only [boardBytes, bytes16, memKey, if_true, List.cons_append,
      List.nil_append, ft_memcmp]
    refine ⟨?_, ?_, ?_⟩
    · intro h
      rw [if_neg (by omega), if_neg (by omega)]
      rfl
    · intro h
      by_cases h1 : a / 256 % 256 = b / 256 % 256
      · rw [if_neg (by omega), if_pos (by omega)]; omega
      · rw [if_pos h1]; omega
    · intro h
      by_cases h1 : a / 256 % 256 = b / 256 % 256
      · rw [if_neg (by omega), if_pos (by omega)]; omega
      · rw [if_pos h1]; omega

/-- The sign of `ft_memcmp` on the memory images of two boards of one length. -/
theorem ft_memcmp_boards (bigEndian : Bool) : ∀ (as bs : List Nat), as.length = bs.length →
    (ft_memcmp (boardBytes bigEndian as) (boardBytes bigEndian bs) (2 * as.length) < 0
        ↔ lexLt (memKey bigEndian) as bs)
      ∧ (0 < ft_memcmp (boardBytes bigEndian as) (boardBytes bigEndian bs) (2 * as.length)
        ↔ lexLt (memKey bigEndian) bs as) := by
  intro as
  induction as with
  | nil =>
    intro bs _
    simp [lexLt, boardBytes, ft_memcmp]
  | cons a as ih =>
    intro bs hlen
    cases bs with
    | nil => simp at hlen
    | cons b bs =>
      have hlen2 : as.length = bs.length := by simpa using hlen
      obtain ⟨c1, c2, c3⟩ := ft_memcmp_cons bigEndian a b as bs as.length
      obtain ⟨i1, i2⟩ := ih bs hlen2
      simp only [lexLt, List.length_cons]
      rcases Nat.lt_trichotomy (memKey bigEndian a) (memKey bigEndian b) with h | h | h
      · have := c2 h
        constructor
        · exact ⟨fun _ => Or.inl h, fun _ => this⟩
        · constructor
          · intro h0; omega
          · rintro (h' | ⟨h', _⟩) <;> omega
      · rw [c1 h]
        constructor
        · rw [i1]
          exact ⟨fun h' => Or.inr ⟨h, h'⟩, fun h' => by
            rcases h' with h' | ⟨_, h'⟩
            · omega
            · exact h'⟩
        · rw [i2]
          exact ⟨fun h' => Or.inr ⟨h.symm, h'⟩, fun h' => by
            rcases h' with h' | ⟨_, h'⟩
            · omega
            · exact h'⟩
      · have := c3 h
        constructor
        · constructor
          · intro h0; omega
          · rintro (h' | ⟨h', _⟩) <;> omega
        · exact ⟨fun _ => Or.inl h, fun _ => this⟩

theorem ft_memcmp_self : ∀ (s : List Nat) (n : Nat), ft_memcmp s s n = 0 := by
  intro s
  induction s with
  | nil => intro n; simp [ft_memcmp]
  | cons a s ih =>
    intro n
    cases n with
    | zero => simp [ft_memcmp]
    | succ n => simp [ft_memcmp, ih]

theorem memKey_inj (bigEndian : Bool) (u v : Nat) (hu : u < 65536) (hv : v < 65536)
    (h : memKey bigEndian u = memKey bigEndian v) : u = v := by
  cases bigEndian <;> simp only [memKey, Bool.false_eq_true, if_false, if_true] at h <;> omega

theorem memKey_bigEndian (v : Nat) (hv : v < 65536) : memKey true v = v := by
  simp only [memKey, if_true]
  omega

theorem byte_count (size : Nat) : 2 * size * size = 2 * (size * size) := by ring

theorem lexLt_neither (k : Nat → Nat) : ∀ (as bs : List Nat), as.length = bs.length →
    ¬ lexLt k as bs → ¬ lexLt k bs as →
    ∀ s, s < as.length → k (load as s) = k (load bs s) := by
  intro as
  induction as with
  | nil => intro bs _ _ _ s hs; simp at hs
  | cons a as ih =>
    intro bs hlen h1 h2 s hs
    cases bs with
    | nil => simp at hlen
    | cons b bs =>
      have hlen2 : as.length = bs.length := by simpa using hlen
      simp only [lexLt, not_or, not_and] at h1 h2
      have hk : k a = k b := by omega
      cases s with
      | zero => exact hk
      | succ s =>
        exact ih bs hlen2 (h1.2 hk) (h2.2 hk.symm) s (by simpa using hs)

/-- The first differing square, stated on the entries, when they are 16-bit values. -/
theorem lexLt_memKey_iff (bigEndian : Bool) (as bs : List Nat) (n : Nat)
    (ha : as.length = n) (hb : bs.length = n)
    (ta : ∀ v, v ∈ as → v < 65536) (tb : ∀ v, v ∈ bs → v < 65536) :
    lexLt (memKey bigEndian) as bs ↔ ∃ sq, sq < n
      ∧ (∀ s, s < sq → load as s = load bs s)
      ∧ memKey bigEndian (load as sq) < memKey bigEndian (load bs sq) := by
  rw [lexLt_iff _ as bs (by rw [ha, hb]), ha]
  constructor
  · rintro ⟨sq, h1, h2, h3⟩
    refine ⟨sq, h1, ?_, h3⟩
    intro s hs
    exact memKey_inj bigEndian _ _ (ta _ (load_mem as s (by omega)))
      (tb _ (load_mem bs s (by omega))) (h2 s hs)
  · rintro ⟨sq, h1, h2, h3⟩
    exact ⟨sq, h1, fun s hs => by rw [h2 s hs], h3⟩

/-- On two states with identical boards the comparator is decided by the fingerprints
alone: it returns 0 exactly when they are equal, and -1 or 1 otherwise. -/
theorem comp_state_same_board (bigEndian : Bool) (A B : NPuzzle) (_hsize : A.size = B.size)
    (hboard : A.board = B.board) :
    (npuzzle_comp_state bigEndian A B = 0 ↔ A.zobrist = B.zobrist)
      ∧ (A.zobrist < B.zobrist → npuzzle_comp_state bigEndian A B = -1)
      ∧ (B.zobrist < A.zobrist → npuzzle_comp_state bigEndian A B = 1) := by
  unfold npuzzle_comp_state
  rw [hboard, ft_memcmp_self]
  refine ⟨?_, ?_, ?_⟩
  · by_cases h1 : A.zobrist < B.zobrist
    · rw [if_pos h1]
      constructor
      · intro h; omega
      · intro h; omega
    · rw [if_neg h1]
      by_cases h2 : A.zobrist > B.zobrist
      · rw [if_pos h2]
        constructor
        · intro h; omega
        · intro h; omega
      · rw [if_neg h2]
        constructor
        · intro _; omega
        · intro _; rfl
  · intro h
    rw [if_pos h]
  · intro h
    rw [if_neg (by omega), if_pos h]

/-- C9: for all states A and B of the same size `N` (boards of `N * N` 16-bit entries)
whose board contents differ in at least one square, `npuzzle_comp_state(A, B) != 0`,
also when their zobrist fingerprints are equal, on either byte order. -/
theorem comp_state_differ (bigEndian : Bool) (A B : NPuzzle) (N : Nat) (_h1 : 1 ≤ N)
    (_h2 : N < 256) (hA : A.size = N) (_hB : B.size = N)
    (lenA : A.board.length = N * N) (lenB : B.board.length = N * N)
    (tyA : ∀ v, v ∈ A.board → v < 65536) (tyB : ∀ v, v ∈ B.board → v < 65536)
    (hdiff : ∃ sq, sq < N * N ∧ load A.board sq ≠ load B.board sq) :
    npuzzle_comp_state bigEndian A B ≠ 0 := by
  obtain ⟨sq, hsq, hne⟩ := hdiff
  unfold npuzzle_comp_state
  by_cases z1 : A.zobrist < B.zobrist
  · rw [if_pos z1]; omega
  · rw [if_neg z1]
    by_cases z2 : A.zobrist > B.zobrist
    · rw [if_pos z2]; omega
    · have hbytes : 2 * A.size * A.size = 2 * A.board.length := by
        rw [hA, byte_count, lenA]
      rw [if_neg z2, hbytes]
      obtain ⟨m1, m2⟩ := ft_memcmp_boards bigEndian A.board B.board (by rw [lenA, lenB])
      intro h0
      have n1 : ¬ lexLt (memKey bigEndian) A.board B.board := fun h => by
        have := m1.mpr h
        omega
      have n2 : ¬ lexLt (memKey bigEndian) B.board A.board := fun h => by
        have := m2.mpr h
        omega
      have hk := lexLt_neither _ A.board B.board (by rw [lenA, lenB]) n1 n2 sq
        (by rw [lenA]; exact hsq)
      exact hne (memKey_inj bigEndian _ _
        (tyA _ (load_mem _ _ (by rw [lenA]; exact hsq)))
        (tyB _ (load_mem _ _ (by rw [lenB]; exact hsq))) hk)

theorem comp_state_differ_witness :
    (1 ≤ 2 ∧ 2 < 256 ∧ loadedState.size = 2 ∧ (goalState 2).size = 2
        ∧ loadedState.board.length = 2 * 2 ∧ (goalState 2).board.length = 2 * 2
        ∧ (∀ v, v ∈ loadedState.board → v < 65536)
        ∧ (∀ v, v ∈ (goalState 2).board → v < 65536)
        ∧ loadedState.zobrist = (goalState 2).zobrist
        ∧ ∃ sq, sq < 2 * 2 ∧ load loadedState.board sq ≠ load (goalState 2).board sq)
      ∧ npuzzle_comp_state false loadedState (goalState 2) ≠ 0 :=
  have hd : ∃ sq, sq < 2 * 2 ∧ load loadedState.board sq ≠ load (goalState 2).board sq :=
    ⟨2, by decide, by decide⟩
  ⟨⟨by decide, by decide, by decide, by decide, by decide, by decide, by decide, by decide,
      by decide, hd⟩,
    comp_state_differ false loadedState (goalState 2) 2 (by decide) (by decide)
      (by decide) (by decide) (by decide) (by decide) (by decide) (by decide) hd⟩

/-- C10 (as the code has it): for all states A and B of the same size `N`
(`1 ≤ N < 256`, boards of `N * N` 16-bit entries), `npuzzle_comp_state(A, B)` is
negative when `A.zobrist < B.zobrist` and positive when `A.zobrist > B.zobrist`; when
the fingerprints are equal its sign is that of the comparison of the two memory images
byte by byte: it is negative (positive) iff at the first square where the boards differ
the entry of A is the smaller (larger) one when the two bytes of each entry are read in
memory order (`memKey`). On a big-endian machine that is the numerical order of the
entries; on either byte order it is the numerical order when both entries are below
256. -/
theorem comp_state_order (bigEndian : Bool) (A B : NPuzzle) (N : Nat) (_h1 : 1 ≤ N)
    (_h2 : N < 256) (hA : A.size = N) (_hB : B.size = N)
    (lenA : A.board.length = N * N) (lenB : B.board.length = N * N)
    (tyA : ∀ v, v ∈ A.board → v < 65536) (tyB : ∀ v, v ∈ B.board → v < 65536) :
    (A.zobrist < B.zobrist → npuzzle_comp_state bigEndian A B < 0)
      ∧ (B.zobrist < A.zobrist → 0 < npuzzle_comp_state bigEndian A B)
      ∧ (A.zobrist = B.zobrist →
          (npuzzle_comp_state bigEndian A B < 0 ↔ ∃ sq, sq < N * N
            ∧ (∀ s, s < sq → load A.board s = load B.board s)
            ∧ memKey bigEndian (load A.board sq) < memKey bigEndian (load B.board sq))
          ∧ (0 < npuzzle_comp_state bigEndian A B ↔ ∃ sq, sq < N * N
            ∧ (∀ s, s < sq → load B.board s = load A.board s)
            ∧ memKey bigEndian (load B.board sq) < memKey bigEndian (load A.board sq)))
      ∧ (bigEndian = true → ∀ v, v < 65536 → memKey bigEndian v = v)
      ∧ (∀ u v, u < 256 → v < 256 → (memKey bigEndian u < memKey bigEndian v ↔ u < v)) := by
  refine ⟨?_, ?_, ?_, ?_, ?_⟩
  · intro h
    unfold npuzzle_comp_state
    rw [if_pos h]
    omega
  · intro h
    unfold npuzzle_comp_state
    rw [if_neg (by omega), if_pos h]
    omega
  · intro h
    unfold npuzzle_comp_state
    have hbytes : 2 * A.size * A.size = 2 * A.board.length := by rw [hA, byte_count, lenA]
    rw [if_neg (by omega), if_neg (by omega), hbytes]
    obtain ⟨m1, m2⟩ := ft_memcmp_boards bigEndian A.board B.board (by rw [lenA, lenB])
    rw [m1, m2, lexLt_memKey_iff bigEndian A.board B.board (N * N) lenA lenB tyA tyB,
      lexLt_memKey_iff bigEndian B.board A.board (N * N) lenB lenA tyB tyA]
    exact ⟨Iff.rfl, Iff.rfl⟩
  · intro hb v hv
    rw [hb]
    exact memKey_bigEndian v hv
  · intro u v hu hv
    cases bigEndian <;> simp only [memKey, Bool.false_eq_true, if_false, if_true] <;> omega

theorem goalState_length (size : Nat) : (goalState size).board.length = size * size :=
  List.length_range _

theorem goalState_entries (size : Nat) : ∀ v, v ∈ (goalState size).board → v < size * size :=
  fun _ hv => List.mem_range.mp hv

theorem swappedState_length : swappedState.board.length = 17 * 17 := by
  show (((List.range (17 * 17)).set 1 256).set 256 1).length = 17 * 17
  rw [List.length_set, List.length_set, List.length_range]

theorem swappedState_entries : ∀ v, v ∈ swappedState.board → v < 65536 := by
  intro v hv
  have h1 : v ∈ 1 :: (List.range (17 * 17)).set 1 256 := List.mem_or_eq_of_mem_set hv |>.elim
    (fun h => List.mem_cons_of_mem _ h) (fun h => h ▸ List.mem_cons_self _ _)
  rcases List.mem_cons.mp h1 with rfl | h2
  · omega
  · rcases List.mem_or_eq_of_mem_set h2 with h3 | rfl
    · have := List.mem_range.mp h3
      omega
    · omega

theorem comp_state_order_witness :
    (1 ≤ 17 ∧ 17 < 256 ∧ swappedState.size = 17 ∧ (goalState 17).size = 17
        ∧ swappedState.zobrist = (goalState 17).zobrist)
      ∧ (npuzzle_comp_state false swappedState (goalState 17) < 0 ↔ ∃ sq, sq < 17 * 17
          ∧ (∀ s, s < sq → load swappedState.board s = load (goalState 17).board s)
          ∧ memKey false (load swappedState.board sq)
              < memKey false (load (goalState 17).board sq)) :=
  ⟨by decide,
    ((comp_state_order false swappedState (goalState 17) 17 (by decide) (by decide)
      (by decide) (by decide) swappedState_length (goalState_length 17)
      swappedState_entries
      (fun v hv => by
        have := goalState_entries 17 v hv
        omega)).2.2.1 (by decide)).1⟩

/-- C10, counterexample: on a little-endian machine, for the goal state of side 17 and
the same state with the entries of squares 1 and 256 exchanged (equal fingerprints), the
boards first differ at square 1, where the exchanged state holds 256 and the goal state
holds 1; the entry of the exchanged state is the numerically larger one, and
`npuzzle_comp_state` is negative all the same. -/
theorem comp_state_order_counterexample :
    swappedState.size = (goalState 17).size
      ∧ swappedState.zobrist = (goalState 17).zobrist
      ∧ load swappedState.board 0 = load (goalState 17).board 0
      ∧ load swappedState.board 1 = 256
      ∧ load (goalState 17).board 1 = 1
      ∧ npuzzle_comp_state false swappedState (goalState 17) < 0 := by
  refine ⟨by decide, by decide, by decide, by decide, by decide, by decide⟩

/-! ## The priority comparator -/

theorem toInt32_small (x : Nat) (h : x < 2147483648) : toInt32 x = (x : Int) := by
  unfold toInt32
  rw [Nat.mod_eq_of_lt (by omega), if_pos h]

theorem subInt32_small (a b : Nat) (ha : a < 2147483648) (hb : b < 2147483648) :
    subInt32 (a : Int) (b : Int) = (a : Int) - (b : Int) := by
  unfold subInt32
  split_ifs <;> omega

/-- C11 (as the code has it): for all states L and R and every weight,
`npuzzle_comp_value` is negative when `node_value(L.h, L.g, Weight)` is below
`node_value(R.h, R.g, Weight)` and positive when it is above, whatever the two `g` are;
when the two values are equal and both `g` are below `2 ^ 31`, the range in which the
conversion to `int` is exact, the tie is broken by ascending `g`: the result is negative
iff `L.g < R.g`, positive iff `L.g > R.g` and zero iff `L.g = R.g`. -/
theorem comp_value_order (nv : Nat → Nat → Nat → Nat) (Weight : Nat) (L R : NPuzzle) :
    (nv L.h L.g Weight < nv R.h R.g Weight → npuzzle_comp_value nv Weight L R < 0)
      ∧ (nv L.h L.g Weight > nv R.h R.g Weight → 0 < npuzzle_comp_value nv Weight L R)
      ∧ (nv L.h L.g Weight = nv R.h R.g Weight → L.g < 2147483648 → R.g < 2147483648 →
          (npuzzle_comp_value nv Weight L R < 0 ↔ L.g < R.g)
            ∧ (0 < npuzzle_comp_value nv Weight L R ↔ L.g > R.g)
            ∧ (npuzzle_comp_value nv Weight L R = 0 ↔ L.g = R.g)) := by
  unfold npuzzle_comp_value
  simp only []
  refine ⟨?_, ?_, ?_⟩
  · intro h
    rw [if_pos h]
    omega
  · intro h
    rw [if_neg (by omega), if_pos h]
    omega
  · intro h hL hR
    rw [if_neg (by omega), if_neg (by omega), toInt32_small _ hL, toInt32_small _ hR,
      subInt32_small _ _ hL hR]
    omega

theorem comp_value_order_witness :
    (node_value nearState.h nearState.g 1 = node_value walkedState.h walkedState.g 1
        ∧ nearState.g < 2147483648 ∧ walkedState.g < 2147483648
        ∧ nearState.g < walkedState.g
        ∧ node_value deepState.h deepState.g 1 > node_value nearState.h nearState.g 1)
      ∧ npuzzle_comp_value node_value 1 nearState walkedState < 0
      ∧ 0 < npuzzle_comp_value node_value 1 walkedState nearState
      ∧ 0 < npuzzle_comp_value node_value 1 deepState nearState :=
  ⟨by decide,
    ((comp_value_order node_value 1 nearState walkedState).2.2 (by decide) (by decide)
      (by decide)).1.mpr (by decide),
    ((comp_value_order node_value 1 walkedState nearState).2.2 (by decide) (by decide)
      (by decide)).2.1.mpr (by decide),
    (comp_value_order node_value 1 deepState nearState).2.1 (by decide)⟩

/-- C11, counterexample: with `node_value = weight * h + g` and weight 1, the state of
cost `2 ^ 31` and estimate 0 and the state of cost 0 and estimate `2 ^ 31` have the
same value; the first has the larger `g`, and `npuzzle_comp_value` is negative on them:
`(int)` turns `2 ^ 31` into `-2 ^ 31`. The two states exist when the field `g` holds 32
bits or more, as the `uint64_t` value computed from it and the casts to `int` indicate. -/
theorem comp_value_order_counterexample :
    node_value deepState.h deepState.g 1 = node_value farState.h farState.g 1
      ∧ deepState.g > farState.g
      ∧ npuzzle_comp_value node_value 1 deepState farState = -2147483648
      ∧ npuzzle_comp_value node_value 1 deepState farState < 0 := by
  refine ⟨by decide, by decide, by decide, by decide⟩

/-! ## Frame and permutation invariant of the move applicator -/

theorem apply_load (mz : Nat → Nat → Nat → Nat) (np : NPuzzle) (t : Nat)
    (hh : np.holeIdx < np.board.length) (ht : t < np.board.length) (sq : Nat) :
    load (npuzzle_apply mz np t).board sq
      = if sq = t then load np.board np.holeIdx
        else if sq = np.holeIdx then load np.board t
        else load np.board sq := by
  simp only [npuzzle_apply]
  by_cases h1 : sq = t
  · subst h1
    rw [if_pos rfl, load_set_self _ _ _ (by rw [List.length_set]; exact ht)]
  · rw [if_neg h1, load_set_ne _ _ _ _ (Ne.symm h1)]
    by_cases h2 : sq = np.holeIdx
    · subst h2
      rw [if_pos rfl, load_set_self _ _ _ hh]
    · rw [if_neg h2, load_set_ne _ _ _ _ (Ne.symm h2)]

theorem applyMoves_g (mz : Nat → Nat → Nat → Nat) : ∀ (ts : List Nat) (np : NPuzzle),
    (applyMoves mz np ts).g = np.g + ts.length := by
  intro ts
  induction ts with
  | nil => intro np; rfl
  | cons t ts ih =>
    intro np
    have e : applyMoves mz np (t :: ts) = applyMoves mz (npuzzle_apply mz np t) ts := rfl
    rw [e, ih]
    simp only [npuzzle_apply, List.length_cons]
    omega

/-- C15: for every state with `holeIdx = h` in range and every target square `t` in
range, `npuzzle_apply(state, t)` yields a state whose board has `board[h] = old board[t]`
and `board[t] = old board[h]` and is unchanged at every other square, whose `holeIdx` is
`t`, whose `g` is the old `g` plus 1, whose zobrist is the old zobrist XOR
`move_zobrist(old board[t], t, h)`, and whose `size`, `h` and `parent` are unchanged;
after `k` calls `g` has grown by exactly `k`. -/
theorem apply_effect (mz : Nat → Nat → Nat → Nat) (np : NPuzzle) (t : Nat)
    (hlen : np.board.length = np.size * np.size)
    (hhole : np.holeIdx < np.size * np.size) (ht : t < np.size * np.size) :
    load (npuzzle_apply mz np t).board np.holeIdx = load np.board t
      ∧ load (npuzzle_apply mz np t).board t = load np.board np.holeIdx
      ∧ (∀ sq, sq ≠ np.holeIdx → sq ≠ t →
          load (npuzzle_apply mz np t).board sq = load np.board sq)
      ∧ (npuzzle_apply mz np t).board.length = np.board.length
      ∧ (npuzzle_apply mz np t).holeIdx = t
      ∧ (npuzzle_apply mz np t).g = np.g + 1
      ∧ (npuzzle_apply mz np t).zobrist
          = np.zobrist ^^^ mz (load np.board t) t np.holeIdx
      ∧ (npuzzle_apply mz np t).size = np.size
      ∧ (npuzzle_apply mz np t).h = np.h
      ∧ (npuzzle_apply mz np t).parent = np.parent
      ∧ (∀ targets : List Nat, (applyMoves mz np targets).g = np.g + targets.length) := by
  have hh : np.holeIdx < np.board.length := by rw [hlen]; exact hhole
  have ht2 : t < np.board.length := by rw [hlen]; exact ht
  refine ⟨?_, ?_, ?_, apply_length mz np t, rfl, rfl, rfl, rfl, rfl, rfl,
    fun ts => applyMoves_g mz ts np⟩
  · rw [apply_load mz np t hh ht2]
    by_cases e : np.holeIdx = t
    · rw [if_pos e, e]
    · rw [if_neg e, if_pos rfl]
  · rw [apply_load mz np t hh ht2, if_pos rfl]
  · intro sq h1 h2
    rw [apply_load mz np t hh ht2, if_neg h2, if_neg h1]

theorem apply_effect_witness :
    ((goalState 3).board.length = (goalState 3).size * (goalState 3).size
        ∧ (goalState 3).holeIdx < (goalState 3).size * (goalState 3).size
        ∧ 5 < (goalState 3).size * (goalState 3).size)
      ∧ load (npuzzle_apply (move_zobrist sampleKey) (goalState 3) 5).board
          (goalState 3).holeIdx = load (goalState 3).board 5
      ∧ (npuzzle_apply (move_zobrist sampleKey) (goalState 3) 5).g = (goalState 3).g + 1 :=
  have h := apply_effect (move_zobrist sampleKey) (goalState 3) 5 (by decide) (by decide)
    (by decide)
  ⟨by decide, h.1, h.2.2.2.2.2.1⟩

theorem mem_of_load (a : List Nat) (v : Nat) (h : v ∈ a) :
    ∃ i, i < a.length ∧ load a i = v := by
  obtain ⟨i, hi, e⟩ := List.getElem_of_mem h
  refine ⟨i, hi, ?_⟩
  simp only [load, List.getD_eq_getElem?_getD, List.getElem?_eq_getElem hi, Option.getD_some]
  exact e

/-- Exchanging two entries of a rearrangement of `0 .. n - 1` leaves one. -/
theorem apply_perm (mz : Nat → Nat → Nat → Nat) (np : NPuzzle) (t n : Nat)
    (hperm : np.board.Perm (List.range n)) (hhole : np.holeIdx < n) (ht : t < n) :
    (npuzzle_apply mz np t).board.Perm (List.range n) := by
  have hlen : np.board.length = n := by rw [hperm.length_eq, List.length_range]
  have hlen2 : (npuzzle_apply mz np t).board.length = n := by rw [apply_length, hlen]
  have hsub : List.range n ⊆ (npuzzle_apply mz np t).board := by
    intro v hv
    obtain ⟨i, hi, e⟩ := mem_of_load np.board v (hperm.symm.subset hv)
    have hl := apply_load mz np t (by omega) (by omega)
    by_cases h1 : i = np.holeIdx
    · have hv2 : load (npuzzle_apply mz np t).board t = v := by
        rw [hl t, if_pos rfl, ← h1]; exact e
      rw [← hv2]
      exact load_mem (npuzzle_apply mz np t).board t (by omega)
    · by_cases h2 : i = t
      · have hv2 : load (npuzzle_apply mz np t).board np.holeIdx = v := by
          rw [hl np.holeIdx, if_neg (fun h => h1 (h2.trans h.symm)), if_pos rfl, ← h2]
          exact e
        rw [← hv2]
        exact load_mem (npuzzle_apply mz np t).board np.holeIdx (by omega)
      · have hv2 : load (npuzzle_apply mz np t).board i = v := by
          rw [hl i, if_neg h2, if_neg h1]; exact e
        rw [← hv2]
        exact load_mem (npuzzle_apply mz np t).board i (by omega)
  exact (((List.nodup_range _).subperm hsub).perm_of_length_le
    (by rw [hlen2, List.length_range])).symm

theorem applyMoves_perm (mz : Nat → Nat → Nat → Nat) (size : Nat) :
    ∀ (ts : List Nat) (np : NPuzzle), np.size = size →
      np.board.Perm (List.range (size * size)) → np.holeIdx < size * size →
      legalMoves size np.holeIdx ts →
      (applyMoves mz np ts).board.Perm (List.range (size * size))
        ∧ (applyMoves mz np ts).holeIdx < size * size
        ∧ (applyMoves mz np ts).size = size := by
  intro ts
  induction ts with
  | nil => intro np hs hp hh _; exact ⟨hp, hh, hs⟩
  | cons t ts ih =>
    intro np hs hp hh hl
    obtain ⟨ht, _, hl2⟩ := hl
    exact ih (npuzzle_apply mz np t) hs (apply_perm mz np t _ hp hh ht) ht hl2

/-- The board the translation step makes of a raw permutation is a permutation. -/
theorem translate_perm (size : Nat) (h1 : 1 ≤ size) (h2 : size < 256) (mem : List Nat)
    (hmem : mem.length = size * size) (raw : List Nat)
    (hraw : raw.Perm (List.range (size * size))) :
    (npuzzle_init_translate raw size mem).Perm (List.range (size * size)) := by
  have hlen : raw.length = size * size := by rw [hraw.length_eq, List.length_range]
  have hnd : raw.Nodup := hraw.nodup_iff.mpr (List.nodup_range _)
  obtain ⟨i1, _, i3⟩ := translateLoop_spec size h2 (npuzzle_init_tag_array mem size)
    (tag_array_surj size h1 h2 mem hmem) _ 0 raw rfl hlen
    (fun s _ hs => List.mem_range.mp (hraw.subset (load_mem raw s (by rw [hlen]; exact hs))))
  have hlenT : (npuzzle_init_translate raw size mem).length = size * size := i1
  have hsub : npuzzle_init_translate raw size mem ⊆ List.range (size * size) := by
    intro v hv
    obtain ⟨i, hi, e⟩ := mem_of_load _ v hv
    rw [← e]
    exact List.mem_range.mpr (i3 i (Nat.zero_le _) (by omega)).1
  have hnd2 : (npuzzle_init_translate raw size mem).Nodup := by
    rw [List.nodup_iff_injective_get]
    intro a b hab
    have ha : a.1 < size * size := by have := a.2; omega
    have hb : b.1 < size * size := by have := b.2; omega
    have la : load (npuzzle_init_translate raw size mem) a.1
        = load (npuzzle_init_translate raw size mem) b.1 := by
      simp only [load, List.getD_eq_getElem?_getD, List.getElem?_eq_getElem a.2,
        List.getElem?_eq_getElem b.2, Option.getD_some]
      simpa [List.get_eq_getElem] using hab
    have e1 : load (npuzzle_init_tag_array mem size)
        (load (npuzzle_init_translate raw size mem) a.1) = load raw a.1 :=
      (i3 a.1 (Nat.zero_le _) ha).2
    have e2 : load (npuzzle_init_tag_array mem size)
        (load (npuzzle_init_translate raw size mem) b.1) = load raw b.1 :=
      (i3 b.1 (Nat.zero_le _) hb).2
    rw [la, e2] at e1
    exact Fin.ext (load_inj_of_nodup raw hnd _ _ (by omega) (by omega) e1.symm)
  exact (hnd2.subperm hsub).perm_of_length_le (by rw [List.length_range, hlenT])

/-- The permutation invariant of the move applicator. If `board` is a permutation of
`0 .. N * N - 1` and `holeIdx` and the target square are in range, then after
`npuzzle_apply` the board is still a permutation of `0 .. N * N - 1`; hence every state
reached by a sequence of legal moves from such a state has a permutation board, in
particular every state reached from the goal state and every state reached from a
state whose board is the translation of a raw permutation. -/
theorem apply_keeps_permutation (mz : Nat → Nat → Nat → Nat) (np : NPuzzle) (t : Nat)
    (hperm : np.board.Perm (List.range (np.size * np.size)))
    (hhole : np.holeIdx < np.size * np.size) (ht : t < np.size * np.size) :
    (npuzzle_apply mz np t).board.Perm (List.range (np.size * np.size))
      ∧ (∀ targets, legalMoves np.size np.holeIdx targets →
          (applyMoves mz np targets).board.Perm (List.range (np.size * np.size)))
      ∧ (∀ size targets, 1 ≤ size → legalMoves size (goalState size).holeIdx targets →
          (applyMoves mz (goalState size) targets).board.Perm (List.range (size * size)))
      ∧ (∀ (size : Nat) (raw mem : List Nat) (loaded : NPuzzle) (targets : List Nat),
          1 ≤ size → size < 256 → mem.length = size * size →
          raw.Perm (List.range (size * size)) → loaded.size = size →
          loaded.board = npuzzle_init_translate raw size mem →
          loaded.holeIdx < size * size → legalMoves size loaded.holeIdx targets →
          (applyMoves mz loaded targets).board.Perm (List.range (size * size))) := by
  refine ⟨apply_perm mz np t _ hperm hhole ht, ?_, ?_, ?_⟩
  · intro ts hl
    exact (applyMoves_perm mz np.size ts np rfl hperm hhole hl).1
  · intro size ts h1 hl
    exact (applyMoves_perm mz size ts (goalState size) rfl (List.Perm.refl _)
      (centre_lt size h1) hl).1
  · intro size raw mem loaded ts h1 h2 hmem hraw hs hb hh hl
    exact (applyMoves_perm mz size ts loaded hs
      (by rw [hb]; exact translate_perm size h1 h2 mem hmem raw hraw) hh hl).1

theorem apply_keeps_permutation_witness :
    ((goalState 3).board.Perm (List.range ((goalState 3).size * (goalState 3).size))
        ∧ (goalState 3).holeIdx < (goalState 3).size * (goalState 3).size
        ∧ 5 < (goalState 3).size * (goalState 3).size)
      ∧ (npuzzle_apply (move_zobrist sampleKey) (goalState 3) 5).board.Perm
          (List.range ((goalState 3).size * (goalState 3).size)) :=
  ⟨by decide,
    (apply_keeps_permutation (move_zobrist sampleKey) (goalState 3) 5 (by decide) (by decide)
      (by decide)).1⟩

/-! ## The state comparator as an order -/

theorem lexLt_trans (k : Nat → Nat) : ∀ (as bs cs : List Nat),
    lexLt k as bs → lexLt k bs cs → lexLt k as cs := by
  intro as
  induction as with
  | nil => intro bs cs h _; simp [lexLt] at h
  | cons a as ih =>
    intro bs cs h1 h2
    cases bs with
    | nil => simp [lexLt] at h1
    | cons b bs =>
      cases cs with
      | nil => simp [lexLt] at h2
      | cons c cs =>
        simp only [lexLt] at h1 h2 ⊢
        rcases h1 with h1 | ⟨e1, h1⟩
        · rcases h2 with h2 | ⟨e2, _⟩
          · exact Or.inl (by omega)
          · exact Or.inl (by omega)
        · rcases h2 with h2 | ⟨e2, h2⟩
          · exact Or.inl (by omega)
          · exact Or.inr ⟨by omega, ih bs cs h1 h2⟩

/-- The sign of `npuzzle_comp_state` on two states of one size. -/
theorem comp_state_sign (bigEndian : Bool) (A B : NPuzzle) (N : Nat) (hA : A.size = N)
    (lenA : A.board.length = N * N) (lenB : B.board.length = N * N) :
    (npuzzle_comp_state bigEndian A B < 0 ↔
        A.zobrist < B.zobrist
          ∨ (A.zobrist = B.zobrist ∧ lexLt (memKey bigEndian) A.board B.board))
      ∧ (0 < npuzzle_comp_state bigEndian A B ↔
        B.zobrist < A.zobrist
          ∨ (A.zobrist = B.zobrist ∧ lexLt (memKey bigEndian) B.board A.board)) := by
  have hbytes : 2 * A.size * A.size = 2 * A.board.length := by rw [hA, byte_count, lenA]
  obtain ⟨m1, m2⟩ := ft_memcmp_boards bigEndian A.board B.board (by rw [lenA, lenB])
  unfold npuzzle_comp_state
  by_cases z1 : A.zobrist < B.zobrist
  · rw [if_pos z1]
    constructor
    · exact ⟨fun _ => Or.inl z1, fun _ => by omega⟩
    · constructor
      · intro h; omega
      · rintro (h | ⟨h, _⟩) <;> omega
  · rw [if_neg z1]
    by_cases z2 : A.zobrist > B.zobrist
    · rw [if_pos z2]
      constructor
      · constructor
        · intro h; omega
        · rintro (h | ⟨h, _⟩) <;> omega
      · exact ⟨fun _ => Or.inl z2, fun _ => by omega⟩
    · rw [if_neg z2, hbytes, m1, m2]
      have e : A.zobrist = B.zobrist := by omega
      constructor
      · exact ⟨fun h => Or.inr ⟨e, h⟩, fun h => by
          rcases h with h | ⟨_, h⟩
          · omega
          · exact h⟩
      · exact ⟨fun h => Or.inr ⟨e, h⟩, fun h => by
          rcases h with h | ⟨_, h⟩
          · omega
          · exact h⟩

/-- C20: `npuzzle_comp_state` is a total order on the states of one fixed size `N`
(boards of `N * N` entries), on either byte order: for all such states A, B, C the sign
of `npuzzle_comp_state(A, B)` is the opposite of the sign of `npuzzle_comp_state(B, A)`,
`npuzzle_comp_state(A, A) == 0`, and `npuzzle_comp_state(A, B) < 0` together with
`npuzzle_comp_state(B, C) < 0` implies `npuzzle_comp_state(A, C) < 0`. -/
theorem comp_state_total_order (bigEndian : Bool) (A B C : NPuzzle) (N : Nat)
    (hA : A.size = N) (hB : B.size = N) (_hC : C.size = N)
    (lenA : A.board.length = N * N) (lenB : B.board.length = N * N)
    (lenC : C.board.length = N * N) :
    (npuzzle_comp_state bigEndian A B < 0 ↔ 0 < npuzzle_comp_state bigEndian B A)
      ∧ (0 < npuzzle_comp_state bigEndian A B ↔ npuzzle_comp_state bigEndian B A < 0)
      ∧ (npuzzle_comp_state bigEndian A B = 0 ↔ npuzzle_comp_state bigEndian B A = 0)
      ∧ npuzzle_comp_state bigEndian A A = 0
      ∧ (npuzzle_comp_state bigEndian A B < 0 → npuzzle_comp_state bigEndian B C < 0 →
          npuzzle_comp_state bigEndian A C < 0) := by
  obtain ⟨ab1, ab2⟩ := comp_state_sign bigEndian A B N hA lenA lenB
  obtain ⟨ba1, ba2⟩ := comp_state_sign bigEndian B A N hB lenB lenA
  obtain ⟨bc1, _⟩ := comp_state_sign bigEndian B C N hB lenB lenC
  obtain ⟨ac1, _⟩ := comp_state_sign bigEndian A C N hA lenA lenC
  have p1 : npuzzle_comp_state bigEndian A B < 0 ↔ 0 < npuzzle_comp_state bigEndian B A := by
    rw [ab1, ba2]
    constructor
    · rintro (h | ⟨e, h⟩)
      · exact Or.inl h
      · exact Or.inr ⟨e.symm, h⟩
    · rintro (h | ⟨e, h⟩)
      · exact Or.inl h
      · exact Or.inr ⟨e.symm, h⟩
  have p2 : 0 < npuzzle_comp_state bigEndian A B ↔ npuzzle_comp_state bigEndian B A < 0 := by
    rw [ab2, ba1]
    constructor
    · rintro (h | ⟨e, h⟩)
      · exact Or.inl h
      · exact Or.inr ⟨e.symm, h⟩
    · rintro (h | ⟨e, h⟩)
      · exact Or.inl h
      · exact Or.inr ⟨e.symm, h⟩
  refine ⟨p1, p2, ?_, ?_, ?_⟩
  · constructor
    · intro h
      have n1 : ¬ npuzzle_comp_state bigEndian A B < 0 := by omega
      have n2 : ¬ 0 < npuzzle_comp_state bigEndian A B := by omega
      rw [p1] at n1
      rw [p2] at n2
      omega
    · intro h
      have n1 : ¬ npuzzle_comp_state bigEndian B A < 0 := by omega
      have n2 : ¬ 0 < npuzzle_comp_state bigEndian B A := by omega
      rw [← p2] at n1
      rw [← p1] at n2
      omega
  · unfold npuzzle_comp_state
    rw [if_neg (by omega), if_neg (by omega), ft_memcmp_self]
  · intro h1 h2
    rw [ab1] at h1
    rw [bc1] at h2
    rw [ac1]
    rcases h1 with h1 | ⟨e1, h1⟩
    · rcases h2 with h2 | ⟨e2, _⟩
      · exact Or.inl (by omega)
      · exact Or.inl (by omega)
    · rcases h2 with h2 | ⟨e2, h2⟩
      · exact Or.inl (by omega)
      · exact Or.inr ⟨by omega, lexLt_trans _ _ _ _ h1 h2⟩

theorem comp_state_total_order_witness :
    (loadedState.size = 2 ∧ (goalState 2).size = 2 ∧ movedState.size = 2
        ∧ loadedState.board.length = 2 * 2 ∧ (goalState 2).board.length = 2 * 2
        ∧ movedState.board.length = 2 * 2)
      ∧ (npuzzle_comp_state false loadedState (goalState 2) < 0
          ↔ 0 < npuzzle_comp_state false (goalState 2) loadedState)
      ∧ npuzzle_comp_state false loadedState loadedState = 0 :=
  have h := comp_state_total_order false loadedState (goalState 2) movedState 2 (by decide)
    (by decide) (by decide) (by decide) (by decide) (by decide)
  ⟨by decide, h.1, h.2.2.2.1⟩

/-! ## Solvability of the goal state with two pieces exchanged -/

theorem swapState_load (size i j x : Nat) (hi : i < size * size) (hj : j < size * size)
    (hx : x < size * size) :
    load (swapState size i j).board x = if x = j then i else if x = i then j else x := by
  show load (((List.range (size * size)).set i j).set j i) x = _
  by_cases h1 : x = j
  · subst h1
    rw [if_pos rfl, load_set_self _ _ _ (by rw [List.length_set, List.length_range]; exact hx)]
  · rw [if_neg h1, load_set_ne _ _ _ _ (Ne.symm h1)]
    by_cases h2 : x = i
    · subst h2
      rw [if_pos rfl, load_set_self _ _ _ (by rw [List.length_range]; exact hx)]
    · rw [if_neg h2, load_set_ne _ _ _ _ (Ne.symm h2), load_range _ _ hx]

/-- The inversions of the goal state with squares `i < j` exchanged: the pair `(i, j)`
and two for every non-hole square strictly between them. -/
theorem swapState_inversions (size i j : Nat) (hij : i < j) (hj : j < size * size)
    (hic : i ≠ (size / 2) * size + (size - 1) / 2)
    (hjc : j ≠ (size / 2) * size + (size - 1) / 2) :
    inversionCount (swapState size i j)
      = 1 + 2 * ((Finset.range (size * size)).filter
          (fun k => i < k ∧ k < j ∧ k ≠ (size / 2) * size + (size - 1) / 2)).card := by
  have hi : i < size * size := by omega
  have hset : (Finset.range (size * size) ×ˢ Finset.range (size * size)).filter
      (fun p => p.1 < p.2 ∧ p.1 ≠ (swapState size i j).holeIdx
        ∧ p.2 ≠ (swapState size i j).holeIdx
        ∧ load (swapState size i j).board p.1 > load (swapState size i j).board p.2)
      = insert (i, j)
          (((Finset.range (size * size)).filter
              (fun k => i < k ∧ k < j ∧ k ≠ (size / 2) * size + (size - 1) / 2)).image
              (fun k => (i, k))
            ∪ ((Finset.range (size * size)).filter
              (fun k => i < k ∧ k < j ∧ k ≠ (size / 2) * size + (size - 1) / 2)).image
              (fun k => (k, j))) := by
    ext ⟨a, b⟩
    have hhole : (swapState size i j).holeIdx = (size / 2) * size + (size - 1) / 2 := rfl
    simp only [Finset.mem_filter, Finset.mem_product, Finset.mem_range, Finset.mem_insert,
      Finset.mem_union, Finset.mem_image, Prod.mk.injEq, hhole]
    constructor
    · rintro ⟨⟨ha, hb⟩, hab, hac, hbc, hgt⟩
      rw [swapState_load size i j a hi hj ha, swapState_load size i j b hi hj hb] at hgt
      by_cases e1 : a = i
      · by_cases e2 : b = j
        · exact Or.inl ⟨e1, e2⟩
        · refine Or.inr (Or.inl ⟨b, ⟨hb, ?_, ?_, hbc⟩, e1.symm, rfl⟩)
          · omega
          · split_ifs at hgt <;> omega
      · by_cases e2 : b = j
        · refine Or.inr (Or.inr ⟨a, ⟨ha, ?_, ?_, hac⟩, rfl, e2.symm⟩)
          · split_ifs at hgt <;> omega
          · omega
        · exfalso
          split_ifs at hgt <;> omega
    · rintro (⟨e1, e2⟩ | ⟨k, ⟨hk, h1, h2, h3⟩, e1, e2⟩ | ⟨k, ⟨hk, h1, h2, h3⟩, e1, e2⟩)
      · subst e1 e2
        refine ⟨⟨hi, hj⟩, hij, hic, hjc, ?_⟩
        rw [swapState_load size a b a hi hj hi, swapState_load size a b b hi hj hj]
        split_ifs <;> omega
      · subst e1 e2
        refine ⟨⟨hi, hk⟩, h1, hic, h3, ?_⟩
        rw [swapState_load size i j i hi hj hi, swapState_load size i j k hi hj hk]
        split_ifs <;> omega
      · subst e1 e2
        refine ⟨⟨hk, hj⟩, h2, h3, hjc, ?_⟩
        rw [swapState_load size i j k hi hj hk, swapState_load size i j j hi hj hj]
        split_ifs <;> omega
  unfold inversionCount
  have hsz : (swapState size i j).size = size := rfl
  rw [hsz, hset, Finset.card_insert_of_not_mem, Finset.card_union_of_disjoint,
    Finset.card_image_of_injective, Finset.card_image_of_injective]
  · omega
  · intro x y h
    simpa using h
  · intro x y h
    simpa using h
  · rw [Finset.disjoint_left]
    intro p h1 h2
    simp only [Finset.mem_image, Finset.mem_filter, Finset.mem_range] at h1 h2
    obtain ⟨k, ⟨_, hk1, _, _⟩, rfl⟩ := h1
    obtain ⟨k2, ⟨_, hk2, _, _⟩, e⟩ := h2
    simp only [Prod.mk.injEq] at e
    omega
  · intro hmem
    rcases Finset.mem_union.mp hmem with h | h
    · obtain ⟨k, hk, e⟩ := Finset.mem_image.mp h
      have := (Finset.mem_filter.mp hk).2
      simp only [Prod.mk.injEq] at e
      omega
    · obtain ⟨k, hk, e⟩ := Finset.mem_image.mp h
      have := (Finset.mem_filter.mp hk).2
      simp only [Prod.mk.injEq] at e
      omega

/-- The classifier on a state of side `size ≥ 1` with the hole at its goal square, in
terms of the parity of the inversions. -/
theorem is_solvable_hole_at_goal (size : Nat) (h1 : 1 ≤ size) (np : NPuzzle)
    (hsize : np.size = size) (hhole : np.holeIdx = (size / 2) * size + (size - 1) / 2) :
    npuzzle_is_solvable np = decide (inversionCount np % 2 = 0) := by
  unfold npuzzle_is_solvable
  simp only [inversionsOuter_count, Nat.and_one_is_mod]
  by_cases hodd : np.size % 2 ≠ 0
  · rw [if_pos hodd]
    by_cases hp : inversionCount np % 2 = 0
    · simp [hp]
    · simp [hp]
  · rw [if_neg hodd, hhole, hsize, square_div size _ _ (by omega)]
    rw [hsize] at hodd
    have h5 : size % 2 = 0 := by omega
    congr 1
    apply propext
    by_cases hp : size &&& 2 ≠ 0
    · rw [if_pos hp]
      have := (and_two_ne_zero _).mp hp
      omega
    · rw [if_neg hp]
      have h4 : ¬ (size % 4 = 2 ∨ size % 4 = 3) := fun h => hp ((and_two_ne_zero _).mpr h)
      omega

theorem goalState_inversions (size : Nat) : inversionCount (goalState size) = 0 := by
  rw [← inversionsOuter_count]
  exact inversionsOuter_identity _ (fun sq hsq => load_range _ _ hsq)

theorem swapState_comm (size i j : Nat) (h : i ≠ j) :
    swapState size i j = swapState size j i := by
  have hb : ((List.range (size * size)).set i j).set j i
      = ((List.range (size * size)).set j i).set i j := by
    apply List.ext_getElem?
    intro x
    simp only [List.getElem?_set, List.length_set, List.length_range]
    by_cases h1 : j = x
    · by_cases h2 : i = x
      · omega
      · simp [h1, h2]
    · by_cases h2 : i = x
      · simp [h1, h2]
      · simp [h1, h2]
  unfold swapState
  rw [hb]

/-- C17: for every `size` with `2 ≤ size < 256`, the state obtained from the canonical
goal state by exchanging the contents of two distinct non-hole squares (hole left at its
goal square) is classified not solvable by `npuzzle_is_solvable`, while the goal state
itself, which has no inversion, is classified solvable; the board of side 4 with the
first two entries exchanged has exactly one inversion and is classified not
solvable. -/
theorem swapped_goal_not_solvable (size i j : Nat) (h1 : 2 ≤ size) (_h2 : size < 256)
    (hi : i < size * size) (hj : j < size * size) (hij : i ≠ j)
    (hic : i ≠ (size / 2) * size + (size - 1) / 2)
    (hjc : j ≠ (size / 2) * size + (size - 1) / 2) :
    npuzzle_is_solvable (swapState size i j) = false
      ∧ inversionCount (goalState size) = 0
      ∧ npuzzle_is_solvable (goalState size) = true
      ∧ inversionCount (swapState 4 0 1) = 1
      ∧ npuzzle_is_solvable (swapState 4 0 1) = false := by
  have key : ∀ a b, a < b → b < size * size → a ≠ (size / 2) * size + (size - 1) / 2 →
      b ≠ (size / 2) * size + (size - 1) / 2 →
      npuzzle_is_solvable (swapState size a b) = false := by
    intro a b hab hb hac hbc
    rw [is_solvable_hole_at_goal size (by omega) _ rfl rfl,
      swapState_inversions size a b hab hb hac hbc]
    simp only [decide_eq_false_iff_not]
    omega
  refine ⟨?_, goalState_inversions size, ?_, ?_, ?_⟩
  · rcases Nat.lt_or_gt_of_ne hij with h | h
    · exact key i j h hj hic hjc
    · rw [swapState_comm size i j hij]
      exact key j i h hi hjc hic
  · rw [is_solvable_hole_at_goal size (by omega) _ rfl rfl, goalState_inversions]
    rfl
  · rw [swapState_inversions 4 0 1 (by decide) (by decide) (by decide) (by decide)]
    have : (Finset.range (4 * 4)).filter
        (fun k => 0 < k ∧ k < 1 ∧ k ≠ (4 / 2) * 4 + (4 - 1) / 2) = ∅ := by
      apply Finset.filter_false_of_mem
      intro k _ h
      omega
    rw [this]
    rfl
  · rw [is_solvable_hole_at_goal 4 (by decide) _ rfl rfl,
      swapState_inversions 4 0 1 (by decide) (by decide) (by decide) (by decide)]
    simp only [decide_eq_false_iff_not]
    omega

theorem swapped_goal_not_solvable_witness :
    (2 ≤ 4 ∧ 4 < 256 ∧ 3 < 4 * 4 ∧ 14 < 4 * 4 ∧ 3 ≠ 14
        ∧ 3 ≠ (4 / 2) * 4 + (4 - 1) / 2 ∧ 14 ≠ (4 / 2) * 4 + (4 - 1) / 2)
      ∧ npuzzle_is_solvable (swapState 4 3 14) = false :=
  ⟨by decide,
    (swapped_goal_not_solvable 4 3 14 (by decide) (by decide) (by decide) (by decide)
      (by decide) (by decide) (by decide)).1⟩

/-! ## Solvability is invariant under a legal move -/

theorem inversionCount_eq_invAt (np : NPuzzle) :
    inversionCount np
      = ∑ x ∈ Finset.range (np.size * np.size), ∑ y ∈ Finset.range (np.size * np.size),
          invAt (load np.board) np.holeIdx x y := by
  unfold inversionCount
  rw [Finset.card_filter, Finset.sum_product]
  rfl

theorem sum_split (n h t : Nat) (G : Nat → Nat) (hh : h < n) (ht : t < n) (hne : h ≠ t) :
    ∑ x ∈ Finset.range n, G x
      = G h + G t + ∑ x ∈ ((Finset.range n).erase h).erase t, G x := by
  rw [← Finset.add_sum_erase (Finset.range n) G (Finset.mem_range.mpr hh),
    ← Finset.add_sum_erase ((Finset.range n).erase h) G
      (Finset.mem_erase.mpr ⟨Ne.symm hne, Finset.mem_range.mpr ht⟩)]
  omega

/-- The inversions of a board, sorted by whether they involve square `t`. -/
theorem inv_sum_decomp (n h t : Nat) (b : Nat → Nat) (hh : h < n) (ht : t < n)
    (hne : h ≠ t) :
    ∑ x ∈ Finset.range n, ∑ y ∈ Finset.range n, invAt b h x y
      = ∑ y ∈ ((Finset.range n).erase h).erase t, invAt b h t y
        + ∑ x ∈ ((Finset.range n).erase h).erase t, invAt b h x t
        + ∑ x ∈ ((Finset.range n).erase h).erase t,
            ∑ y ∈ ((Finset.range n).erase h).erase t, invAt b h x y := by
  rw [sum_split n h t (fun x => ∑ y ∈ Finset.range n, invAt b h x y) hh ht hne]
  have g_h : ∑ y ∈ Finset.range n, invAt b h h y = 0 :=
    Finset.sum_eq_zero (fun y _ => by simp [invAt])
  have g_t : ∑ y ∈ Finset.range n, invAt b h t y
      = ∑ y ∈ ((Finset.range n).erase h).erase t, invAt b h t y := by
    rw [sum_split n h t (fun y => invAt b h t y) hh ht hne]
    have z1 : invAt b h t h = 0 := by simp [invAt]
    have z2 : invAt b h t t = 0 := by simp [invAt]
    omega
  have g_x : ∀ x ∈ ((Finset.range n).erase h).erase t,
      ∑ y ∈ Finset.range n, invAt b h x y
        = invAt b h x t + ∑ y ∈ ((Finset.range n).erase h).erase t, invAt b h x y := by
    intro x _
    rw [sum_split n h t (fun y => invAt b h x y) hh ht hne]
    have z1 : invAt b h x h = 0 := by simp [invAt]
    omega
  rw [g_h, g_t, Finset.sum_congr rfl g_x, Finset.sum_add_distrib]
  omega

/-- Moving the piece of square `t` into the hole `h` changes the parity of the
inversions by the number of squares strictly between `h` and `t`. -/
theorem inv_move_parity (n h t : Nat) (b b2 : Nat → Nat) (hh : h < n) (ht : t < n)
    (hne : h ≠ t) (hb2h : b2 h = b t) (hb2 : ∀ x, x ≠ h → x ≠ t → b2 x = b x)
    (hinj : ∀ y, y < n → y ≠ t → b y ≠ b t) :
    (∑ x ∈ Finset.range n, ∑ y ∈ Finset.range n, invAt b h x y
        + ∑ x ∈ Finset.range n, ∑ y ∈ Finset.range n, invAt b2 t x y) % 2
      = (max h t - min h t - 1) % 2 := by
  have hU : ∀ y, y ∈ ((Finset.range n).erase h).erase t ↔ y ≠ t ∧ y ≠ h ∧ y < n := by
    intro y
    simp only [Finset.mem_erase, Finset.mem_range]
  have hcomm : ((Finset.range n).erase t).erase h = ((Finset.range n).erase h).erase t :=
    Finset.erase_right_comm
  rw [inv_sum_decomp n h t b hh ht hne, inv_sum_decomp n t h b2 ht hh (Ne.symm hne), hcomm]
  have hC : ∑ x ∈ ((Finset.range n).erase h).erase t,
        ∑ y ∈ ((Finset.range n).erase h).erase t, invAt b2 t x y
      = ∑ x ∈ ((Finset.range n).erase h).erase t,
        ∑ y ∈ ((Finset.range n).erase h).erase t, invAt b h x y := by
    apply Finset.sum_congr rfl
    intro x hx
    apply Finset.sum_congr rfl
    intro y hy
    obtain ⟨x1, x2, _⟩ := (hU x).mp hx
    obtain ⟨y1, y2, _⟩ := (hU y).mp hy
    simp only [invAt, hb2 x x2 x1, hb2 y y2 y1, x1, x2, y1, y2, ne_eq, not_false_eq_true,
      true_and]
  rw [hC]
  have hD : (∑ y ∈ ((Finset.range n).erase h).erase t,
        (invAt b h t y + invAt b h y t + invAt b2 t h y + invAt b2 t y h)) % 2
      = (∑ y ∈ ((Finset.range n).erase h).erase t,
          if min h t < y ∧ y < max h t then 1 else 0) % 2 := by
    rw [Finset.sum_nat_mod]
    conv_rhs => rw [Finset.sum_nat_mod]
    congr 1
    apply Finset.sum_congr rfl
    intro y hy
    obtain ⟨y1, y2, y3⟩ := (hU y).mp hy
    have hp := hinj y y3 y1
    simp only [invAt, hb2h, hb2 y y2 y1]
    split_ifs <;> omega
  have hcard : (∑ y ∈ ((Finset.range n).erase h).erase t,
        if min h t < y ∧ y < max h t then 1 else 0) = max h t - min h t - 1 := by
    rw [← Finset.card_filter]
    have : (((Finset.range n).erase h).erase t).filter (fun y => min h t < y ∧ y < max h t)
        = Finset.Ioo (min h t) (max h t) := by
      ext y
      simp only [Finset.mem_filter, Finset.mem_erase, Finset.mem_range, Finset.mem_Ioo]
      omega
    rw [this, Nat.card_Ioo]
  rw [← hcard, ← hD]
  simp only [Finset.sum_add_distrib]
  omega

theorem pred_div_of_mod_ne_zero (h N : Nat) (hN : 1 ≤ N) (hm : h % N ≠ 0) :
    (h - 1) / N = h / N := by
  have e : h - 1 = (h % N - 1) + N * (h / N) := by
    have := Nat.div_add_mod h N
    omega
  have hlt : h % N - 1 < N := by
    have := Nat.mod_lt h (by omega : N > 0)
    omega
  rw [e, Nat.add_mul_div_left _ _ (by omega : 0 < N), Nat.div_eq_of_lt hlt, Nat.zero_add]

theorem is_solvable_eq (np : NPuzzle) :
    npuzzle_is_solvable np
      = if np.size % 2 ≠ 0 then !(decide (inversionCount np % 2 ≠ 0))
        else decide ((np.holeIdx / np.size
          + (if np.size % 4 = 2 ∨ np.size % 4 = 3 then 1 else 0)) % 2
            = inversionCount np % 2) := by
  unfold npuzzle_is_solvable
  simp only [inversionsOuter_count, Nat.and_one_is_mod]
  by_cases hp : np.size &&& 2 ≠ 0
  · rw [if_pos hp, if_pos ((and_two_ne_zero _).mp hp)]
  · rw [if_neg hp, if_neg (fun h => hp ((and_two_ne_zero _).mpr h))]

/-- One legal move does not change the verdict of the classifier. -/
theorem is_solvable_apply (mz : Nat → Nat → Nat → Nat) (np : NPuzzle) (t : Nat)
    (h1 : 1 ≤ np.size) (hlen : np.board.length = np.size * np.size)
    (hdist : ∀ x y, x < np.size * np.size → y < np.size * np.size → x ≠ y →
      load np.board x ≠ load np.board y)
    (hhole : np.holeIdx < np.size * np.size) (ht : t < np.size * np.size)
    (hadj : adjacent np.size np.holeIdx t) :
    npuzzle_is_solvable (npuzzle_apply mz np t) = npuzzle_is_solvable np := by
  have hsz : (npuzzle_apply mz np t).size = np.size := rfl
  have hho : (npuzzle_apply mz np t).holeIdx = t := rfl
  have hne : np.holeIdx ≠ t := by
    unfold adjacent at hadj
    omega
  have hl := apply_load mz np t (by rw [hlen]; exact hhole) (by rw [hlen]; exact ht)
  have hpar := inv_move_parity (np.size * np.size) np.holeIdx t (load np.board)
    (load (npuzzle_apply mz np t).board) hhole ht hne
    (by rw [hl, if_neg hne, if_pos rfl])
    (fun x x1 x2 => by rw [hl, if_neg x2, if_neg x1])
    (fun y y1 y2 => hdist y t y1 ht y2)
  rw [← inversionCount_eq_invAt np] at hpar
  have e2 := inversionCount_eq_invAt (npuzzle_apply mz np t)
  rw [hsz, hho] at e2
  rw [← e2] at hpar
  rw [is_solvable_eq, is_solvable_eq np, hsz, hho]
  unfold adjacent at hadj
  rcases hadj with ⟨e, hm⟩ | ⟨e, hm⟩ | e | e
  · have hd : t / np.size = np.holeIdx / np.size := by
      have := pred_div_of_mod_ne_zero np.holeIdx np.size h1 hm
      rw [← this]
      congr 1
      omega
    have hk : max np.holeIdx t - min np.holeIdx t - 1 = 0 := by omega
    rw [hk] at hpar
    rw [hd]
    have hq : inversionCount (npuzzle_apply mz np t) % 2 = inversionCount np % 2 := by omega
    rw [hq]
  · have hd : t / np.size = np.holeIdx / np.size := by
      have := pred_div_of_mod_ne_zero t np.size h1 hm
      rw [← this]
      congr 1
      omega
    have hk : max np.holeIdx t - min np.holeIdx t - 1 = 0 := by omega
    rw [hk] at hpar
    rw [hd]
    have hq : inversionCount (npuzzle_apply mz np t) % 2 = inversionCount np % 2 := by omega
    rw [hq]
  · have hd : np.holeIdx / np.size = t / np.size + 1 := by
      rw [← e, Nat.add_div_right _ (by omega : 0 < np.size)]
    have hk : max np.holeIdx t - min np.holeIdx t - 1 = np.size - 1 := by omega
    rw [hk] at hpar
    rw [hd]
    by_cases hodd : np.size % 2 ≠ 0
    · rw [if_pos hodd, if_pos hodd]
      have hq : inversionCount (npuzzle_apply mz np t) % 2 = inversionCount np % 2 := by
        omega
      rw [hq]
    · rw [if_neg hodd, if_neg hodd]
      congr 1
      apply propext
      split_ifs <;> omega
  · have hd : t / np.size = np.holeIdx / np.size + 1 := by
      rw [e, Nat.add_div_right _ (by omega : 0 < np.size)]
    have hk : max np.holeIdx t - min np.holeIdx t - 1 = np.size - 1 := by omega
    rw [hk] at hpar
    rw [hd]
    by_cases hodd : np.size % 2 ≠ 0
    · rw [if_pos hodd, if_pos hodd]
      have hq : inversionCount (npuzzle_apply mz np t) % 2 = inversionCount np % 2 := by
        omega
      rw [hq]
    · rw [if_neg hodd, if_neg hodd]
      congr 1
      apply propext
      split_ifs <;> omega

theorem perm_distinct (b : List Nat) (n : Nat) (hperm : b.Perm (List.range n)) :
    ∀ x y, x < n → y < n → x ≠ y → load b x ≠ load b y := by
  intro x y hx hy hne h
  have hlen : b.length = n := by rw [hperm.length_eq, List.length_range]
  exact hne (load_inj_of_nodup b (hperm.nodup_iff.mpr (List.nodup_range _)) x y
    (by omega) (by omega) h)

/-- A sequence of legal moves does not change the verdict of the classifier. -/
theorem applyMoves_solvable (mz : Nat → Nat → Nat → Nat) (size : Nat) (h1 : 1 ≤ size) :
    ∀ (ts : List Nat) (np : NPuzzle), np.size = size →
      np.board.Perm (List.range (size * size)) → np.holeIdx < size * size →
      legalMoves size np.holeIdx ts →
      npuzzle_is_solvable (applyMoves mz np ts) = npuzzle_is_solvable np := by
  intro ts
  induction ts with
  | nil => intro np _ _ _ _; rfl
  | cons t ts ih =>
    intro np hs hp hh hl
    obtain ⟨ht, hadj, hl2⟩ := hl
    have e : applyMoves mz np (t :: ts) = applyMoves mz (npuzzle_apply mz np t) ts := rfl
    rw [e, ih (npuzzle_apply mz np t) hs (apply_perm mz np t _ hp hh ht) ht hl2]
    subst hs
    exact is_solvable_apply mz np t h1 (by rw [hp.length_eq, List.length_range])
      (perm_distinct _ _ hp) hh ht hadj

theorem goalState_solvable (size : Nat) (h1 : 1 ≤ size) :
    npuzzle_is_solvable (goalState size) = true := by
  rw [is_solvable_hole_at_goal size h1 _ rfl rfl, goalState_inversions]
  rfl

/-- C18: solvability is invariant under a legal move. For every `size` with
`1 ≤ size < 256`, every state whose board entries are pairwise distinct and whose
`holeIdx` is in range, and every target square `t` in range and orthogonally adjacent to
`holeIdx` on the grid (`t = holeIdx - 1` or `holeIdx + 1` in the same row, or
`t = holeIdx - size` or `holeIdx + size`), `npuzzle_is_solvable` gives the same result
after `npuzzle_apply(t)` as before; hence every state reached from the goal state by
legal moves is classified solvable. -/
theorem solvable_invariant_under_move (mz : Nat → Nat → Nat → Nat) (np : NPuzzle)
    (t size : Nat) (h1 : 1 ≤ size) (_h2 : size < 256) (hsize : np.size = size)
    (hlen : np.board.length = size * size)
    (hdist : ∀ x y, x < size * size → y < size * size → x ≠ y →
      load np.board x ≠ load np.board y)
    (hhole : np.holeIdx < size * size) (ht : t < size * size)
    (hadj : adjacent size np.holeIdx t) :
    npuzzle_is_solvable (npuzzle_apply mz np t) = npuzzle_is_solvable np
      ∧ (∀ targets, legalMoves size (goalState size).holeIdx targets →
          npuzzle_is_solvable (applyMoves mz (goalState size) targets) = true) := by
  subst hsize
  refine ⟨is_solvable_apply mz np t h1 hlen hdist hhole ht hadj, ?_⟩
  intro ts hl
  rw [applyMoves_solvable mz np.size h1 ts (goalState np.size) rfl (List.Perm.refl _)
    (centre_lt np.size h1) hl]
  exact goalState_solvable np.size h1

theorem solvable_invariant_under_move_witness :
    (1 ≤ 3 ∧ 3 < 256 ∧ (goalState 3).size = 3 ∧ (goalState 3).board.length = 3 * 3
        ∧ (goalState 3).holeIdx < 3 * 3 ∧ 5 < 3 * 3 ∧ adjacent 3 (goalState 3).holeIdx 5)
      ∧ npuzzle_is_solvable (npuzzle_apply (move_zobrist sampleKey) (goalState 3) 5)
          = npuzzle_is_solvable (goalState 3) :=
  have ha : adjacent 3 (goalState 3).holeIdx 5 := by
    simp [adjacent, goalState]
  ⟨⟨by decide, by decide, rfl, by decide, by decide, by decide, ha⟩,
    (solvable_invariant_under_move (move_zobrist sampleKey) (goalState 3) 5 3 (by decide)
      (by decide) rfl (by decide)
      (perm_distinct _ _ (List.Perm.refl _)) (by decide) (by decide) ha).1⟩

/-! ## The random generator -/

theorem succ_mod_ne_zero (h N : Nat) (hN : 1 ≤ N) (hm : h % N ≠ N - 1) :
    (h + 1) % N ≠ 0 := by
  have hlt := Nat.mod_lt h (by omega : N > 0)
  rw [Nat.add_mod]
  by_cases h1 : N = 1
  · subst h1
    omega
  · have e1 : 1 % N = 1 := Nat.mod_eq_of_lt (by omega)
    rw [e1, Nat.mod_eq_of_lt (by omega)]
    omega

/-- Every square the shuffle hands to `npuzzle_apply` is on the board and next to the
hole. -/
theorem shuffleTarget_legal (np : NPuzzle) (seed size t : Nat) (h1 : 1 ≤ size)
    (h2 : size < 256) (hs : np.size = size) (hh : np.holeIdx < size * size)
    (h : shuffleTarget np seed = some t) :
    t < size * size ∧ adjacent size np.holeIdx t := by
  have hsq : size * size ≤ 255 * 255 := Nat.mul_le_mul (by omega) (by omega)
  unfold shuffleTarget at h
  rw [hs] at h
  simp only [] at h
  split_ifs at h with c0 c1 c2 c3
  · have e : t = np.holeIdx - 1 := by
      have := Option.some.inj h
      rw [Nat.mod_eq_of_lt (by omega)] at this
      exact this.symm
    have hpos : 1 ≤ np.holeIdx := by
      rcases Nat.eq_zero_or_pos np.holeIdx with z | z
      · rw [z] at c0
        simp at c0
      · exact z
    exact ⟨by omega, Or.inl ⟨by omega, c0.2⟩⟩
  · have e : t = np.holeIdx + 1 := by
      have := Option.some.inj h
      rw [Nat.mod_eq_of_lt (by omega)] at this
      exact this.symm
    have hm := succ_mod_ne_zero np.holeIdx size h1 c1.2
    have hlt : np.holeIdx + 1 < size * size := by
      rcases Nat.lt_or_ge (np.holeIdx + 1) (size * size) with l | l
      · exact l
      · have e2 : np.holeIdx + 1 = size * size := by omega
        rw [e2, Nat.mul_mod_left] at hm
        exact absurd rfl hm
    subst e
    exact ⟨hlt, Or.inr (Or.inl ⟨rfl, hm⟩)⟩
  · have e : t = np.holeIdx - size := by
      have := Option.some.inj h
      rw [Nat.mod_eq_of_lt (by omega)] at this
      exact this.symm
    have hge : size ≤ np.holeIdx := by
      rcases Nat.lt_or_ge np.holeIdx size with l | l
      · exact absurd (Nat.div_eq_of_lt l) c2.2
      · exact l
    exact ⟨by omega, Or.inr (Or.inr (Or.inl (by omega)))⟩
  · have hrow : np.holeIdx / size < size := Nat.div_lt_of_lt_mul hh
    have hrow2 : np.holeIdx / size < size - 1 := by
      have := c3.2
      omega
    have hlt : np.holeIdx < (size - 1) * size :=
      (Nat.div_lt_iff_lt_mul (by omega : 0 < size)).mp hrow2
    have hmul : (size - 1) * size + size = size * size := by
      have : (size - 1 + 1) * size = size * size := by rw [Nat.sub_add_cancel h1]
      rw [Nat.add_mul, Nat.one_mul] at this
      exact this
    have e : t = np.holeIdx + size := by
      have := Option.some.inj h
      rw [Nat.mod_eq_of_lt (by omega)] at this
      exact this.symm
    exact ⟨by omega, Or.inr (Or.inr (Or.inr e))⟩

theorem applyMoves_holeIdx_snoc (mz : Nat → Nat → Nat → Nat) (np : NPuzzle) (ts : List Nat)
    (t : Nat) : applyMoves mz np (ts ++ [t]) = npuzzle_apply mz (applyMoves mz np ts) t := by
  rw [applyMoves_append]
  rfl

theorem legalMoves_snoc (mz : Nat → Nat → Nat → Nat) (size : Nat) :
    ∀ (ts : List Nat) (np : NPuzzle) (t : Nat), legalMoves size np.holeIdx ts →
      t < size * size → adjacent size (applyMoves mz np ts).holeIdx t →
      legalMoves size np.holeIdx (ts ++ [t]) := by
  intro ts
  induction ts with
  | nil =>
    intro np t _ ht ha
    exact ⟨ht, ha, trivial⟩
  | cons u us ih =>
    intro np t hl ht ha
    obtain ⟨hu, hua, hl2⟩ := hl
    exact ⟨hu, hua, ih (npuzzle_apply mz np u) t hl2 ht ha⟩

/-- The shuffle loop keeps the state equal to the start state moved along the recorded
calls, and the recorded calls legal. -/
theorem shuffleLoop_spec (mz : Nat → Nat → Nat → Nat) (size : Nat) (h1 : 1 ≤ size)
    (h2 : size < 256) (start : NPuzzle) (hs0 : start.size = size)
    (hp0 : start.board.Perm (List.range (size * size)))
    (hh0 : start.holeIdx < size * size) :
    ∀ (n i : Nat) (np : NPuzzle) (seed : Nat) (calls : List Nat),
      size * size * 8 - i = n → np = applyMoves mz start calls →
      legalMoves size start.holeIdx calls →
      (shuffleLoop mz i np seed calls).1
          = applyMoves mz start (shuffleLoop mz i np seed calls).2.2
        ∧ legalMoves size start.holeIdx (shuffleLoop mz i np seed calls).2.2 := by
  intro n
  induction n with
  | zero =>
    intro i np seed calls hn hnp hl
    have hsz : np.size = size := by
      rw [hnp]; exact (applyMoves_perm mz size calls start hs0 hp0 hh0 hl).2.2
    rw [shuffleLoop, if_neg (by rw [hsz]; omega)]
    exact ⟨hnp, hl⟩
  | succ n ih =>
    intro i np seed calls hn hnp hl
    obtain ⟨_, hh, hsz⟩ := applyMoves_perm mz size calls start hs0 hp0 hh0 hl
    rw [← hnp] at hh hsz
    rw [shuffleLoop, if_pos (by rw [hsz]; omega)]
    cases hst : shuffleTarget np (nextSeed seed) with
    | none => exact ih (i + 1) np (nextSeed seed) calls (by omega) hnp hl
    | some t =>
      obtain ⟨ht, hadj⟩ := shuffleTarget_legal np (nextSeed seed) size t h1 h2 hsz hh hst
      exact ih (i + 1) (npuzzle_apply mz np t) (nextSeed seed) (calls ++ [t]) (by omega)
        (by rw [applyMoves_holeIdx_snoc, hnp])
        (legalMoves_snoc mz size calls start t hl ht (by rw [← hnp]; exact hadj))

theorem is_solvable_congr (a b : NPuzzle) (hs : a.size = b.size) (hb : a.board = b.board)
    (hh : a.holeIdx = b.holeIdx) : npuzzle_is_solvable a = npuzzle_is_solvable b := by
  have hc : inversionCount a = inversionCount b := by
    unfold inversionCount
    rw [hs, hb, hh]
  rw [is_solvable_eq a, is_solvable_eq b, hs, hh, hc]

theorem init_rand_start (size : Nat) (h2 : size < 256) :
    ({ size := size
       board := (List.range (size * size)).map (fun i => i % 65536)
       zobrist := 0
       holeIdx := (size / 2) * size + (size - 1) / 2
       h := 0
       g := 0
       parent := none } : NPuzzle) = goalState size := by
  have hsq : size * size ≤ 255 * 255 := Nat.mul_le_mul (by omega) (by omega)
  have hb : (List.range (size * size)).map (fun i => i % 65536) = List.range (size * size) := by
    conv_rhs => rw [← List.map_id (List.range (size * size))]
    apply List.map_congr_left
    intro i hi
    have := List.mem_range.mp hi
    simp only [id]
    omega
  unfold goalState
  rw [hb]

theorem init_rand_eq (mz : Nat → Nat → Nat → Nat) (size seed : Nat) (h2 : size < 256) :
    npuzzle_init_rand mz size seed
      = ({ (shuffleLoop mz 0 (goalState size) seed []).1 with zobrist := 0, g := 0 },
          (shuffleLoop mz 0 (goalState size) seed []).2.2) := by
  unfold npuzzle_init_rand
  rw [init_rand_start size h2]

/-- C19: for every `size` with `1 ≤ size < 256` and every 64-bit seed, the shuffle loop
of `npuzzle_init_rand` only ever calls `npuzzle_apply` on a square that is inside the
board and orthogonally adjacent to the current `holeIdx` (the recorded calls are a
legal sequence from the goal hole, and the state is the goal state moved along them),
and the state it produces has a permutation board and is classified solvable by
`npuzzle_is_solvable`, with `zobrist = 0` and `g = 0`. -/
theorem init_rand_shuffle (mz : Nat → Nat → Nat → Nat) (size seed : Nat) (h1 : 1 ≤ size)
    (h2 : size < 256) (_hseed : seed < 18446744073709551616) :
    legalMoves size ((size / 2) * size + (size - 1) / 2) (npuzzle_init_rand mz size seed).2
      ∧ (npuzzle_init_rand mz size seed).1.board
          = (applyMoves mz (goalState size) (npuzzle_init_rand mz size seed).2).board
      ∧ (npuzzle_init_rand mz size seed).1.holeIdx
          = (applyMoves mz (goalState size) (npuzzle_init_rand mz size seed).2).holeIdx
      ∧ (npuzzle_init_rand mz size seed).1.size = size
      ∧ (npuzzle_init_rand mz size seed).1.board.Perm (List.range (size * size))
      ∧ npuzzle_is_solvable (npuzzle_init_rand mz size seed).1 = true
      ∧ (npuzzle_init_rand mz size seed).1.zobrist = 0
      ∧ (npuzzle_init_rand mz size seed).1.g = 0 := by
  rw [init_rand_eq mz size seed h2]
  obtain ⟨e, hl⟩ := shuffleLoop_spec mz size h1 h2 (goalState size) rfl (List.Perm.refl _)
    (centre_lt size h1) _ 0 (goalState size) seed [] rfl rfl trivial
  obtain ⟨hp, _, hsz⟩ := applyMoves_perm mz size _ (goalState size) rfl (List.Perm.refl _)
    (centre_lt size h1) hl
  have hsolv := applyMoves_solvable mz size h1 _ (goalState size) rfl (List.Perm.refl _)
    (centre_lt size h1) hl
  rw [goalState_solvable size h1] at hsolv
  have eb : (shuffleLoop mz 0 (goalState size) seed []).1.board
      = (applyMoves mz (goalState size) (shuffleLoop mz 0 (goalState size) seed []).2.2).board :=
    congrArg NPuzzle.board e
  have eh : (shuffleLoop mz 0 (goalState size) seed []).1.holeIdx
      = (applyMoves mz (goalState size)
          (shuffleLoop mz 0 (goalState size) seed []).2.2).holeIdx :=
    congrArg NPuzzle.holeIdx e
  have es : (shuffleLoop mz 0 (goalState size) seed []).1.size
      = (applyMoves mz (goalState size) (shuffleLoop mz 0 (goalState size) seed []).2.2).size :=
    congrArg NPuzzle.size e
  refine ⟨hl, eb, eh, es.trans hsz, ?_, ?_, rfl, rfl⟩
  · show (shuffleLoop mz 0 (goalState size) seed []).1.board.Perm (List.range (size * size))
    rw [eb]
    exact hp
  · rw [← hsolv]
    exact is_solvable_congr
      { (shuffleLoop mz 0 (goalState size) seed []).1 with zobrist := 0, g := 0 }
      (applyMoves mz (goalState size) (shuffleLoop mz 0 (goalState size) seed []).2.2)
      es eb eh

theorem init_rand_shuffle_witness :
    (1 ≤ 3 ∧ 3 < 256 ∧ 1700000000 < 18446744073709551616)
      ∧ npuzzle_is_solvable (npuzzle_init_rand (move_zobrist sampleKey) 3 1700000000).1 = true
      ∧ (npuzzle_init_rand (move_zobrist sampleKey) 3 1700000000).1.zobrist = 0 :=
  have h := init_rand_shuffle (move_zobrist sampleKey) 3 1700000000 (by decide) (by decide)
    (by decide)
  ⟨by decide, h.2.2.2.2.2.1, h.2.2.2.2.2.2.1⟩

/-! ## The parser and the loader -/

theorem tag_array_two (a b c d : Nat) : npuzzle_init_tag_array [a, b, c, d] 2 = [1, 2, 0, 3] := by
  simp [npuzzle_init_tag_array, tagLayers, tagTop, tagRight, tagBottom, tagLeft]

/-- C12, the code at a failing input: for side 2, the first token of the row `65536 1`
denotes 65536, which is not below 4; `npuzzle_parse_row` stores it as 0 (the value is
converted to `uint16_t` before the range test) and returns 1, and the load of the
puzzle with the rows `65536 1` and `2 3` succeeds. -/
theorem parse_row_accepts_out_of_range :
    strtoul "65536 1".toList = (65536, " 1".toList)
      ∧ npuzzle_parse_row 2 [0, 0, 0, 0] "65536 1\n".toList 0 = (1, [0, 1, 0, 0])
      ∧ npuzzle_init ["2\n".toList, "65536 1\n".toList, "2 3\n".toList]
          (fun _ => 0) (fun _ => 0)
        = InitResult.ok
            { size := 2, board := [2, 0, 1, 3], zobrist := 0, holeIdx := 0, h := 0, g := 0,
              parent := none } := by
  have hrow1 : npuzzle_parse_row 2 [0, 0, 0, 0] "65536 1\n".toList 0 = (1, [0, 1, 0, 0]) := by
    simp [npuzzle_parse_row, parseRowLoop]
    decide
  have hrow2 : npuzzle_parse_row 2 [0, 1, 0, 0] "2 3\n".toList 1 = (1, [0, 1, 2, 3]) := by
    simp [npuzzle_parse_row, parseRowLoop]
    decide
  refine ⟨by decide, hrow1, ?_⟩
  have hsl : sizeLoop ["2\n".toList, "65536 1\n".toList, "2 3\n".toList] 0
      = some (some (2, ["65536 1\n".toList, "2 3\n".toList])) := by decide
  have hboard : List.map (fun _ => 0) (List.range (2 * 2)) = [0, 0, 0, 0] := by decide
  have hrl : rowLoop 2 ["65536 1\n".toList, "2 3\n".toList] [0, 0, 0, 0] 0
      = some ([0, 1, 2, 3], 2) := by
    simp only [rowLoop, hrow1, hrow2]
    decide
  have hdup : duplicateOuter 2 [0, 1, 2, 3] 0 = false := by
    simp [duplicateOuter, duplicateInner, load]
  have hhole : holeSearch [0, 1, 2, 3] 0 = some 0 := by
    simp [holeSearch, load]
  have htr : npuzzle_init_translate [0, 1, 2, 3] 2 [0, 0, 0, 0] = [2, 0, 1, 3] := by
    simp [npuzzle_init_translate, tag_array_two, translateLoop, translateScan, load]
  unfold npuzzle_init
  rw [hsl]
  simp only [hboard, hrl, hdup, hhole, htr]
  decide

/-- C13, the code at a failing input: the size line `3` followed by a blank, and the
size line `3 # comment`, are refused with -1 (after the number `npuzzle_parse_size` skips
as many characters as the line has blanks at its start, here none, instead of the blanks
that follow the number), while the line `3` alone is accepted with size 3. -/
theorem parse_size_rejects_trailing_blank :
    npuzzle_parse_size 0 "3 \n".toList = some (-1, 3)
      ∧ npuzzle_parse_size 0 "3 # comment\n".toList = some (-1, 3)
      ∧ npuzzle_parse_size 0 "3\n".toList = some (1, 3)
      ∧ npuzzle_parse_size 0 "3# comment\n".toList = some (1, 3) := by
  refine ⟨by decide, by decide, by decide, by decide⟩

/-- The loader on a file with the size line `2` and the single row `0 1`, when the rest
of the allocated board holds 7 and 9: it returns success. -/
theorem init_missing_row_eval :
    npuzzle_init ["2\n".toList, "0 1\n".toList]
        (fun i => if i = 2 then 7 else if i = 3 then 9 else 0) (fun _ => 0)
      = InitResult.ok
          { size := 2, board := [2, 0, 7, 9], zobrist := 0, holeIdx := 0, h := 0, g := 0,
            parent := none } := by
  have hrow : npuzzle_parse_row 2 [0, 0, 7, 9] "0 1\n".toList 0 = (1, [0, 1, 7, 9]) := by
    simp [npuzzle_parse_row, parseRowLoop]
    decide
  have hsl : sizeLoop ["2\n".toList, "0 1\n".toList] 0
      = some (some (2, ["0 1\n".toList])) := by decide
  have hboard : List.map (fun i => if i = 2 then 7 else if i = 3 then 9 else 0)
      (List.range (2 * 2)) = [0, 0, 7, 9] := by decide
  have htag : List.map (fun _ => 0) (List.range (2 * 2)) = [0, 0, 0, 0] := by decide
  have hrl : rowLoop 2 ["0 1\n".toList] [0, 0, 7, 9] 0 = some ([0, 1, 7, 9], 1) := by
    simp only [rowLoop, hrow]
    decide
  have hdup : duplicateOuter 2 [0, 1, 7, 9] 0 = false := by
    simp [duplicateOuter, duplicateInner, load]
  have hhole : holeSearch [0, 1, 7, 9] 0 = some 0 := by
    simp [holeSearch, load]
  have htr : npuzzle_init_translate [0, 1, 7, 9] 2 [0, 0, 0, 0] = [2, 0, 7, 9] := by
    simp [npuzzle_init_translate, tag_array_two, translateLoop, translateScan, load]
  unfold npuzzle_init
  rw [hsl]
  simp only [hboard, htag, hrl, hdup, hhole, htr]
  decide

/-- C14, the code at two failing inputs. A file with the size line `1` and no row at
all yields success when the allocated board holds 0. A file with the size line `2` and
the single row `0 1` yields success when the rest of the allocated board holds 7 and 9,
and the board of the resulting state, `[2, 0, 7, 9]`, is not a permutation of
`0 .. 3`. -/
theorem init_accepts_missing_rows :
    npuzzle_init ["1\n".toList] (fun _ => 0) (fun _ => 0)
        = InitResult.ok
            { size := 1, board := [0], zobrist := 0, holeIdx := 0, h := 0, g := 0,
              parent := none }
      ∧ npuzzle_init ["2\n".toList, "0 1\n".toList]
          (fun i => if i = 2 then 7 else if i = 3 then 9 else 0) (fun _ => 0)
        = InitResult.ok
            { size := 2, board := [2, 0, 7, 9], zobrist := 0, holeIdx := 0, h := 0, g := 0,
              parent := none }
      ∧ ¬ [2, 0, 7, 9].Perm (List.range (2 * 2)) := by
  refine ⟨?_, init_missing_row_eval, by decide⟩
  have hsl : sizeLoop ["1\n".toList] 0 = some (some (1, [])) := by decide
  have hboard : List.map (fun _ => 0) (List.range (1 * 1)) = [0] := by decide
  have hdup : duplicateOuter 1 [0] 0 = false := by
    simp [duplicateOuter, duplicateInner, load]
  have hhole : holeSearch [0] 0 = some 0 := by
    simp [holeSearch, load]
  have htr : npuzzle_init_translate [0] 1 [0] = [0] := by
    simp [npuzzle_init_translate, npuzzle_init_tag_array, tagLayers, translateLoop,
      translateScan, load]
  unfold npuzzle_init
  rw [hsl]
  simp only [hboard, rowLoop, hdup, hhole, htr]
  decide

/-- C16, the code at a failing input: the state `npuzzle_init` returns with success for
the file with the size line `2` and the single row `0 1` (rest of the allocated board
holding 7 and 9) has holeIdx 0 in range and a board that is not a permutation of
`0 .. 3`; after the legal move of the piece right of the hole, made with
`npuzzle_apply`, the board is `[0, 2, 7, 9]`, not a permutation either. -/
theorem loaded_state_not_permutation :
    npuzzle_init ["2\n".toList, "0 1\n".toList]
        (fun i => if i = 2 then 7 else if i = 3 then 9 else 0) (fun _ => 0)
      = InitResult.ok
          { size := 2, board := [2, 0, 7, 9], zobrist := 0, holeIdx := 0, h := 0, g := 0,
            parent := none }
      ∧ legalMoves 2 0 [1]
      ∧ (applyMoves (move_zobrist sampleKey)
            { size := 2, board := [2, 0, 7, 9], zobrist := 0, holeIdx := 0, h := 0, g := 0,
              parent := none } [1]).board = [0, 2, 7, 9]
      ∧ ¬ [0, 2, 7, 9].Perm (List.range (2 * 2)) := by
  refine ⟨init_missing_row_eval, ?_, by decide, by decide⟩
  simp [legalMoves, adjacent]

/-! ## The fingerprint does not depend on the move history -/

theorem xorUpTo_congr (f g : Nat → Nat) : ∀ n, (∀ i, i < n → f i = g i) →
    xorUpTo f n = xorUpTo g n := by
  intro n
  induction n with
  | zero => intro _; rfl
  | succ n ih =>
    intro h
    simp only [xorUpTo]
    rw [ih (fun i hi => h i (by omega)), h n (by omega)]

/-- Changing one term of an XOR: the old term is cancelled and the new one combined in. -/
theorem xorUpTo_update (f g : Nat → Nat) (j : Nat) : ∀ n, (∀ i, i < n → i ≠ j → f i = g i) →
    j < n → xorUpTo g n = xorUpTo f n ^^^ f j ^^^ g j := by
  intro n
  induction n with
  | zero => intro _ hj; omega
  | succ n ih =>
    intro h hj
    simp only [xorUpTo]
    by_cases e : j = n
    · subst e
      rw [← xorUpTo_congr f g j (fun i hi => h i (by omega) (by omega))]
      rw [Nat.xor_cancel_right]
    · rw [ih (fun i hi hne => h i (by omega) hne) (by omega), ← h n (by omega) (Ne.symm e)]
      ac_rfl

/-- One call of `npuzzle_apply` changes the fingerprint by exactly the change of the
Zobrist hash of the position: the fingerprint XOR the hash is the same before and after. -/
theorem apply_boardHash (key : Nat → Nat → Nat) (np : NPuzzle) (t : Nat)
    (hlen : np.board.length = np.size * np.size)
    (hhole : np.holeIdx < np.size * np.size) (ht : t < np.size * np.size) :
    (npuzzle_apply (move_zobrist key) np t).zobrist
        ^^^ boardHash key (npuzzle_apply (move_zobrist key) np t)
      = np.zobrist ^^^ boardHash key np := by
  have hl := apply_load (move_zobrist key) np t (by omega) (by omega)
  have hz : (npuzzle_apply (move_zobrist key) np t).zobrist
      = np.zobrist ^^^ (key (load np.board t) t ^^^ key (load np.board t) np.holeIdx) := rfl
  have hs : (npuzzle_apply (move_zobrist key) np t).size = np.size := rfl
  have hh : (npuzzle_apply (move_zobrist key) np t).holeIdx = t := rfl
  by_cases hne : t = np.holeIdx
  · -- the target is the hole square itself: nothing changes
    have hb : boardHash key (npuzzle_apply (move_zobrist key) np t) = boardHash key np := by
      unfold boardHash
      rw [hs, hh]
      apply xorUpTo_congr
      intro i _
      rw [hl i, ← hne]
      by_cases e : i = t
      · rw [if_pos e, if_pos e]
      · rw [if_neg e, if_neg e, if_neg e, if_neg e]
    rw [hb, hz, ← hne, Nat.xor_self, Nat.xor_zero]
  · -- the intermediate table: the moved piece entered on the old hole square
    have e1 := xorUpTo_update
      (fun sq => if sq = np.holeIdx then 0 else key (load np.board sq) sq)
      (fun sq => if sq = np.holeIdx then key (load np.board t) np.holeIdx
        else key (load np.board sq) sq)
      np.holeIdx (np.size * np.size)
      (fun i _ hi => by simp only [if_neg hi]) hhole
    have e2 := xorUpTo_update
      (fun sq => if sq = np.holeIdx then key (load np.board t) np.holeIdx
        else key (load np.board sq) sq)
      (fun sq => if sq = t then 0
        else key (load (npuzzle_apply (move_zobrist key) np t).board sq) sq)
      t (np.size * np.size)
      (fun i _ hi => by
        simp only [if_neg hi]
        rw [hl i, if_neg hi]
        by_cases e : i = np.holeIdx
        · rw [if_pos e, if_pos e, e]
        · rw [if_neg e, if_neg e]) ht
    simp only [if_pos, if_neg hne] at e1 e2
    unfold boardHash
    rw [hz, hs, hh, e2, e1]
    simp only [if_true, Nat.xor_zero]
    generalize xorUpTo _ _ = X
    generalize key (load np.board t) t = a
    generalize key (load np.board t) np.holeIdx = b
    calc np.zobrist ^^^ (a ^^^ b) ^^^ (X ^^^ b ^^^ a)
        = (np.zobrist ^^^ X) ^^^ ((a ^^^ a) ^^^ (b ^^^ b)) := by ac_rfl
      _ = np.zobrist ^^^ X := by rw [Nat.xor_self, Nat.xor_self, Nat.xor_zero, Nat.xor_zero]

/-- Along any sequence of `npuzzle_apply` calls on squares of the board, the board stays
a rearrangement of the canonical indices, the hole stays on the board, the fingerprint
XOR the Zobrist hash of the position does not change, and the entry on the hole square
is always the same one. -/
theorem applyMoves_boardHash (key : Nat → Nat → Nat) (size : Nat) :
    ∀ (ts : List Nat) (np : NPuzzle), np.size = size →
    np.board.Perm (List.range (size * size)) → np.holeIdx < size * size →
    (∀ t, t ∈ ts → t < size * size) →
    (applyMoves (move_zobrist key) np ts).size = size
      ∧ (applyMoves (move_zobrist key) np ts).board.Perm (List.range (size * size))
      ∧ (applyMoves (move_zobrist key) np ts).holeIdx < size * size
      ∧ (applyMoves (move_zobrist key) np ts).zobrist
            ^^^ boardHash key (applyMoves (move_zobrist key) np ts)
          = np.zobrist ^^^ boardHash key np
      ∧ load (applyMoves (move_zobrist key) np ts).board
          (applyMoves (move_zobrist key) np ts).holeIdx = load np.board np.holeIdx := by
  intro ts
  induction ts with
  | nil => intro np hs hp hh _; exact ⟨hs, hp, hh, rfl, rfl⟩
  | cons t ts ih =>
    intro np hs hp hh hr
    have ht : t < size * size := hr t (List.mem_cons_self _ _)
    subst hs
    have hlen : np.board.length = np.size * np.size := by
      rw [hp.length_eq, List.length_range]
    have e : applyMoves (move_zobrist key) np (t :: ts)
        = applyMoves (move_zobrist key) (npuzzle_apply (move_zobrist key) np t) ts := rfl
    obtain ⟨i1, i2, i3, i4, i5⟩ := ih (npuzzle_apply (move_zobrist key) np t) rfl
      (apply_perm (move_zobrist key) np t _ hp hh ht) ht
      (fun u hu => hr u (List.mem_cons_of_mem _ hu))
    rw [e]
    refine ⟨i1, i2, i3, ?_, ?_⟩
    · rw [i4]
      exact apply_boardHash key np t hlen hh ht
    · rw [i5]
      have hl := apply_load (move_zobrist key) np t (by omega) (by omega) t
      rw [if_pos rfl] at hl
      exact hl

/-- Two states with the same board and the same fingerprint compare equal. -/
theorem comp_state_eq_zero (bigEndian : Bool) (A B : NPuzzle) (hboard : A.board = B.board)
    (hz : A.zobrist = B.zobrist) : npuzzle_comp_state bigEndian A B = 0 := by
  unfold npuzzle_comp_state
  rw [hboard, ft_memcmp_self, hz, if_neg (by omega), if_neg (by omega)]

/-- C8: for all states A and B of the same size with identical board contents,
regardless of the move history that produced them, `npuzzle_comp_state(A, B) == 0`, on
either byte order. The histories start from one root state: a state of any side whose
board is a rearrangement of the canonical indices `0 .. size * size - 1` and whose hole
is on the board, with any fingerprint (0 for a freshly loaded or freshly generated
state); A and B are reached from it by any two sequences of `npuzzle_apply` calls on
squares of the board, of any lengths, the empty one included. When the two boards are
identical, the hole squares and the fingerprints are identical too and the comparator
returns 0; so a state that has come back to the board of the root has the fingerprint of
the root again and compares equal to it. The fingerprint update is the Zobrist-style
`move_zobrist`, for every key table. -/
theorem comp_state_same_board_histories (key : Nat → Nat → Nat) (bigEndian : Bool)
    (root : NPuzzle) (ts1 ts2 : List Nat)
    (hperm : root.board.Perm (List.range (root.size * root.size)))
    (hhole : root.holeIdx < root.size * root.size)
    (hr1 : ∀ t, t ∈ ts1 → t < root.size * root.size)
    (hr2 : ∀ t, t ∈ ts2 → t < root.size * root.size)
    (hboard : (applyMoves (move_zobrist key) root ts1).board
      = (applyMoves (move_zobrist key) root ts2).board) :
    (applyMoves (move_zobrist key) root ts1).size
        = (applyMoves (move_zobrist key) root ts2).size
      ∧ (applyMoves (move_zobrist key) root ts1).holeIdx
        = (applyMoves (move_zobrist key) root ts2).holeIdx
      ∧ (applyMoves (move_zobrist key) root ts1).zobrist
        = (applyMoves (move_zobrist key) root ts2).zobrist
      ∧ npuzzle_comp_state bigEndian (applyMoves (move_zobrist key) root ts1)
          (applyMoves (move_zobrist key) root ts2) = 0
      ∧ ((applyMoves (move_zobrist key) root ts2).board = root.board →
          (applyMoves (move_zobrist key) root ts2).zobrist = root.zobrist
            ∧ npuzzle_comp_state bigEndian root (applyMoves (move_zobrist key) root ts2) = 0
            ∧ npuzzle_comp_state bigEndian (applyMoves (move_zobrist key) root ts2) root
                = 0) := by
  -- identical boards reached from one root have identical fingerprints
  have main : ∀ us vs : List Nat, (∀ t, t ∈ us → t < root.size * root.size) →
      (∀ t, t ∈ vs → t < root.size * root.size) →
      (applyMoves (move_zobrist key) root us).board
        = (applyMoves (move_zobrist key) root vs).board →
      (applyMoves (move_zobrist key) root us).size
          = (applyMoves (move_zobrist key) root vs).size
        ∧ (applyMoves (move_zobrist key) root us).holeIdx
          = (applyMoves (move_zobrist key) root vs).holeIdx
        ∧ (applyMoves (move_zobrist key) root us).zobrist
          = (applyMoves (move_zobrist key) root vs).zobrist := by
    intro us vs hu hv hb
    obtain ⟨s1, p1, q1, i1, c1⟩ :=
      applyMoves_boardHash key root.size us root rfl hperm hhole hu
    obtain ⟨s2, _, q2, i2, c2⟩ :=
      applyMoves_boardHash key root.size vs root rfl hperm hhole hv
    have hsize : (applyMoves (move_zobrist key) root us).size
        = (applyMoves (move_zobrist key) root vs).size := by rw [s1, s2]
    have hidx : (applyMoves (move_zobrist key) root us).holeIdx
        = (applyMoves (move_zobrist key) root vs).holeIdx := by
      have hlen1 : (applyMoves (move_zobrist key) root us).board.length
          = root.size * root.size := by rw [p1.length_eq, List.length_range]
      refine load_inj_of_nodup _ (p1.nodup_iff.mpr (List.nodup_range _)) _ _ (by omega)
        (by omega) ?_
      rw [c1, ← c2, hb]
    have hhash : boardHash key (applyMoves (move_zobrist key) root us)
        = boardHash key (applyMoves (move_zobrist key) root vs) := by
      unfold boardHash
      rw [hb, hidx, hsize]
    refine ⟨hsize, hidx, ?_⟩
    apply Nat.xor_left_inj.mp
    rw [i2, ← hhash, i1]
  obtain ⟨hsize, hidx, hz⟩ := main ts1 ts2 hr1 hr2 hboard
  refine ⟨hsize, hidx, hz, comp_state_eq_zero bigEndian _ _ hboard hz, ?_⟩
  intro hback
  have h0 := (main ts2 [] hr2 (fun t ht => by simp at ht) hback).2.2
  exact ⟨h0, comp_state_eq_zero bigEndian _ _ hback.symm h0.symm,
    comp_state_eq_zero bigEndian _ _ hback h0⟩

theorem comp_state_same_board_histories_witness :
    ((goalState 3).board.Perm (List.range ((goalState 3).size * (goalState 3).size))
        ∧ (goalState 3).holeIdx < (goalState 3).size * (goalState 3).size
        ∧ legalMoves (goalState 3).size (goalState 3).holeIdx [5, 8, 7, 4, 5, 8, 7, 4]
        ∧ legalMoves (goalState 3).size (goalState 3).holeIdx [7, 8, 5, 4]
        ∧ (applyMoves (move_zobrist sampleKey) (goalState 3) [5, 8, 7, 4, 5, 8, 7, 4]).board
          = (applyMoves (move_zobrist sampleKey) (goalState 3) [7, 8, 5, 4]).board
        ∧ (applyMoves (move_zobrist sampleKey) (goalState 3) [7, 8, 5, 4]).board
          ≠ (goalState 3).board)
      ∧ (applyMoves (move_zobrist sampleKey) (goalState 3) [5, 8, 7, 4, 5, 8, 7, 4]).zobrist
          = (applyMoves (move_zobrist sampleKey) (goalState 3) [7, 8, 5, 4]).zobrist
      ∧ npuzzle_comp_state false
          (applyMoves (move_zobrist sampleKey) (goalState 3) [5, 8, 7, 4, 5, 8, 7, 4])
          (applyMoves (move_zobrist sampleKey) (goalState 3) [7, 8, 5, 4]) = 0 :=
  have hl1 : legalMoves (goalState 3).size (goalState 3).holeIdx [5, 8, 7, 4, 5, 8, 7, 4] := by
    simp [legalMoves, adjacent, goalState]
  have hl2 : legalMoves (goalState 3).size (goalState 3).holeIdx [7, 8, 5, 4] := by
    simp [legalMoves, adjacent, goalState]
  have h := comp_state_same_board_histories sampleKey false (goalState 3)
    [5, 8, 7, 4, 5, 8, 7, 4] [7, 8, 5, 4] (by decide) (by decide) (by decide) (by decide)
    (by decide)
  ⟨⟨by decide, by decide, hl1, hl2, by decide, by decide⟩, h.2.2.1, h.2.2.2.1⟩

end Npuzzle
